import Mathlib

/-!
# Camp scheduler: a shallow embedding and its verified properties

The development follows the C++ sources file by file:

* position.h, facilitator.h, pair.h : the value types and their hashes;
* activity.h, session.h            : a session, a map from activity labels to pairs;
* schedule.h                       : a schedule, a sequence of sessions with conflict bookkeeping;
* optimal_schedule.cpp             : the session enumerator and the branch-and-bound search;
* thread_pool.h                    : the task queue, its worker threads and wait_finished.

Conventions of the embedding.

* A std::unordered_set or std::unordered_map is a list of its nodes in iteration order,
  without two nodes whose keys are equal under the container's key equality.  A node for a
  new key is linked at the head of the list; an existing key keeps its node.  The counting maps
  of Schedule::operator==, whose iteration orders are compared, are modelled with their buckets.
* An unsigned int is a natural number below 2^32, incremented modulo 2^32.
* An assert that fails, or an exception, makes the operation return none (or an error).
* The arrays activities and facilitators and the constant NUM_SESSIONS are parameters of the
  operations; the values of the sources are given as activities, facilitators, NUM_SESSIONS.
-/

namespace CampScheduler

/-! ## position.h -/

/-- Position of a facilitator: enum class Position. -/
inductive Position where
  | senior
  | junior
  deriving DecidableEq, Repr

/-- The function positionToStr. -/
def positionToStr : Position → String
  | .senior => "senior"
  | .junior => "junior"

/-- The specialisation std::hash<std::optional<Position>>: the integer value of the enumerator
(senior is 0, junior is 1) and 0 for the empty optional. -/
def hashOptPosition : Option Position → Nat
  | some .senior => 0
  | some .junior => 1
  | none => 0

/-! ## facilitator.h -/

/-- Class Facilitator: a name and an optional position. -/
structure Facilitator where
  name : String
  position : Option Position
  deriving DecidableEq, Repr

namespace Facilitator

/-- Default constructor Facilitator(): the empty name and no position. -/
def empty : Facilitator := ⟨"", none⟩

/-- Constructor Facilitator(n, p): throws invalid_argument on an empty name. -/
def new (n : String) (p : Position) : Except String Facilitator :=
  if n.isEmpty then .error "Name cannot be an empty string" else .ok ⟨n, some p⟩

/-- Facilitator::operator==. -/
def eq (a b : Facilitator) : Bool :=
  decide (a.name = b.name) && decide (a.position = b.position)

/-- Facilitator::is_empty. -/
def is_empty (f : Facilitator) : Bool := !f.position.isSome

/-- Facilitator::is_junior. -/
def is_junior (f : Facilitator) : Bool :=
  f.position.isSome && decide (f.position = some Position.junior)

/-- The test facilitator.position.value() == Position::senior of the first loop of main, on a
facilitator that has a position. -/
def is_senior (f : Facilitator) : Bool := decide (f.position = some Position.senior)

/-- The specialisation std::hash<Facilitator>, over a string hash hs. -/
def hash (hs : String → Nat) (f : Facilitator) : Nat :=
  hs f.name ^^^ hashOptPosition f.position

end Facilitator

/-! ## pair.h -/

/-- Class Pair: the member p, a std::pair of two facilitators. -/
structure Pair where
  first : Facilitator
  second : Facilitator
  deriving DecidableEq, Repr

namespace Pair

/-- Default constructor Pair(): two empty facilitators. -/
def empty : Pair := ⟨Facilitator.empty, Facilitator.empty⟩

/-- Constructor Pair(f, s): asserts that f and s are both empty or both non-empty. -/
def new (f s : Facilitator) : Option Pair :=
  if f.is_empty = s.is_empty then some ⟨f, s⟩ else none

/-- Pair::operator==. -/
def eq (a b : Pair) : Bool :=
  (a.first.eq b.first && a.second.eq b.second) ||
  (a.first.eq b.second && a.second.eq b.first)

/-- Pair::operator!=. -/
def ne (a b : Pair) : Bool := !(a.eq b)

/-- Pair::is_empty_pair. -/
def is_empty_pair (a : Pair) : Bool := a.first.is_empty && a.second.is_empty

/-- Pair::contains. -/
def contains (a : Pair) (f : Facilitator) : Bool := a.first.eq f || a.second.eq f

/-- Pair::is_junior_pairing. -/
def is_junior_pairing (a : Pair) : Bool := a.first.is_junior && a.second.is_junior

/-- The specialisation std::hash<Pair>, over a string hash hs. -/
def hash (hs : String → Nat) (a : Pair) : Nat :=
  Facilitator.hash hs a.first ^^^ Facilitator.hash hs a.second

end Pair

/-! ## Unordered containers -/

/-- Member function count of an unordered set with key equality eq: 1 when a node with an equal
key exists, else 0. -/
def USet.count {α : Type} (eq : α → α → Bool) (s : List α) (x : α) : Nat :=
  if s.any (fun y => eq y x) then 1 else 0

/-- Member function insert of an unordered set with key equality eq: nothing happens when an
equal key is present, else a node is linked at the head. -/
def USet.insert {α : Type} (eq : α → α → Bool) (s : List α) (x : α) : List α :=
  if s.any (fun y => eq y x) then s else x :: s

/-- Range insert of an unordered set: the elements of xs are inserted in order. -/
def USet.insertAll {α : Type} (eq : α → α → Bool) (s : List α) (xs : List α) : List α :=
  xs.foldl (USet.insert eq) s

/-! ## activity.h -/

/-- An activity label: using Activity = std::string. -/
abbrev Activity := String

/-- The array activities. -/
def activities : List Activity :=
  ["Hank's Planks", "Spider Web", "Lava Bridge", "Shepard", "Helium Sticks", "Balance Board"]

/-- The constant NUM_ACTIVITIES. -/
def NUM_ACTIVITIES : Nat := activities.length

/-! ## session.h -/

/-- Class Session: the nodes of the underlying std::unordered_map from labels to pairs, in
iteration order, and the member free_activity_idx. -/
structure Session where
  entries : List (Activity × Pair)
  free_activity_idx : Nat
  deriving DecidableEq, Repr

namespace Session

/-- Default constructor Session(): the empty map, free_activity_idx 0. -/
def empty : Session := ⟨[], 0⟩

/-- Lookup in the node list of a map: the value stored under the label a, if any. -/
def lookup (m : List (Activity × Pair)) (a : Activity) : Option Pair :=
  match m with
  | [] => none
  | e :: rest => if e.1 = a then some e.2 else lookup rest a

/-- Member function find of the map: none stands for end(). -/
def find (s : Session) (a : Activity) : Option Pair := lookup s.entries a

/-- Member function size of the map. -/
def size (s : Session) : Nat := s.entries.length

/-- The assignment (*this)[a] = p on the node list: an existing node for a gets the value p,
otherwise a new node is linked at the head. -/
def store (m : List (Activity × Pair)) (a : Activity) (p : Pair) : List (Activity × Pair) :=
  if (lookup m a).isSome then m.map (fun e => if e.1 = a then (a, p) else e) else (a, p) :: m

/-- Member function erase of the map, on the node list. -/
def erase (m : List (Activity × Pair)) (a : Activity) : List (Activity × Pair) :=
  m.filter (fun e => decide (e.1 ≠ a))

/-- Equality of two sessions as the containers see it.  The keys of session_permutations and of
the counting maps of Schedule::operator== are const, so the comparison of two of them is the
operator== of std::unordered_map: equal sizes, and every label of the one is found in the other
with a pair that Pair::operator== accepts.  The member free_activity_idx is not compared. -/
def eq (s t : Session) : Bool :=
  decide (s.size = t.size) &&
  s.entries.all (fun e =>
    match t.find e.1 with
    | none => false
    | some q => Pair.eq e.2 q)

/-- The specialisation std::hash<Session>, over a string hash hs: the hashes of the labels and
of the pairs of all nodes, combined by exclusive or. -/
def hash (hs : String → Nat) (s : Session) : Nat :=
  s.entries.foldl (fun hashVal e => hashVal ^^^ (hs e.1 ^^^ Pair.hash hs e.2)) 0

/-- Session::complete, for the label array acts. -/
def complete (acts : List Activity) (s : Session) : Bool := decide (s.size = acts.length)

/-- The do-while loop of assign_pair after its first increment: starting at index i, skip the
labels that have a pair.  The loop condition reads the label array at i also when i is
NUM_ACTIVITIES, one past its end; that read is taken to give a label without a pair, which ends
the loop.  The first argument bounds the number of iterations by the labels left. -/
def skip_assigned (acts : List Activity) (m : List (Activity × Pair)) : Nat → Nat → Nat
  | 0, i => i
  | fuel + 1, i =>
    match acts[i]? with
    | none => i
    | some a => if (lookup m a).isSome then skip_assigned acts m fuel (i + 1) else i

/-- Session::assign_pair: none when the assertion free_activity_idx < NUM_ACTIVITIES fails,
otherwise the label that received the pair and the session afterwards. -/
def assign_pair (acts : List Activity) (s : Session) (p : Pair) : Option (Activity × Session) :=
  match acts[s.free_activity_idx]? with
  | none => none
  | some a =>
    let m := store s.entries a p
    some (a, ⟨m, skip_assigned acts m (acts.length - (s.free_activity_idx + 1))
      (s.free_activity_idx + 1)⟩)

/-- Session::free_activity. -/
def free_activity (acts : List Activity) (s : Session) (a : Activity) : Session :=
  if (s.find a).isNone then s else ⟨erase s.entries a, acts.indexOf a⟩

end Session

/-! ## schedule.h -/

/-- The constant NUM_SESSIONS. -/
def NUM_SESSIONS : Nat := 6

/-- The number of values of an unsigned int. -/
def UINT_SIZE : Nat := 2 ^ 32

/-- The increment ++x of an unsigned int. -/
def uint_incr (x : Nat) : Nat := (x + 1) % UINT_SIZE

/-- Class Schedule: the underlying vector of sessions and the three members. -/
structure Schedule where
  sessions : List Session
  conflicts : Nat
  facilitator_activities : List (Activity × List Facilitator)
  selected_pairings : List Pair
  deriving DecidableEq, Repr

namespace Schedule

/-- Default constructor Schedule(). -/
def empty : Schedule := ⟨[], 0, [], []⟩

/-- Constructor Schedule(conflicts). -/
def with_conflicts (conflicts : Nat) : Schedule := ⟨[], conflicts, [], []⟩

/-- Member function size of the vector. -/
def size (c : Schedule) : Nat := c.sessions.length

/-- Schedule::complete, for n sessions. -/
def complete (n : Nat) (c : Schedule) : Bool := decide (c.size = n)

/-- The set facilitator_activities[a]; a label without a node has the empty set. -/
def facilitators_of (fa : List (Activity × List Facilitator)) (a : Activity) : List Facilitator :=
  match fa with
  | [] => []
  | e :: rest => if e.1 = a then e.2 else facilitators_of rest a

/-- The map facilitator_activities after facilitator_activities[a] has become the set fs: an
existing node for a is updated, otherwise a new node is linked at the head. -/
def set_facilitators (fa : List (Activity × List Facilitator)) (a : Activity)
    (fs : List Facilitator) : List (Activity × List Facilitator) :=
  if fa.any (fun e => decide (e.1 = a)) then fa.map (fun e => if e.1 = a then (a, fs) else e)
  else (a, fs) :: fa

/-- The body of the loop of add_session for one node (activity, pairing) of the session. -/
def add_entry (c : Schedule) (e : Activity × Pair) : Schedule :=
  if e.2.is_empty_pair then c
  else
    let fs := facilitators_of c.facilitator_activities e.1
    let k1 := if USet.count Pair.eq c.selected_pairings e.2 ≠ 0 then uint_incr c.conflicts
      else c.conflicts
    let k2 := if USet.count Facilitator.eq fs e.2.first ≠ 0 then uint_incr k1 else k1
    let k3 := if USet.count Facilitator.eq fs e.2.second ≠ 0 then uint_incr k2 else k2
    { sessions := c.sessions
      conflicts := k3
      facilitator_activities := set_facilitators c.facilitator_activities e.1
        (USet.insert Facilitator.eq (USet.insert Facilitator.eq fs e.2.first) e.2.second)
      selected_pairings := USet.insert Pair.eq c.selected_pairings e.2 }

/-- Schedule::add_session, for n sessions: none when the assertion size() < NUM_SESSIONS fails. -/
def add_session (n : Nat) (c : Schedule) (s : Session) : Option Schedule :=
  if c.size < n then
    let c1 := s.entries.foldl add_entry c
    some { c1 with sessions := c1.sessions ++ [s] }
  else none

/-- The bucket of a key in a counting map of the given number of buckets: its std::hash value
modulo the number of buckets. -/
def bucket_of (hs : String → Nat) (buckets : Nat) (s : Session) : Nat :=
  Session.hash hs s % buckets

/-- The node list after a node with count 1 for the new key s is linked into a bucket that holds a
node already: the new node is put before the first node of its bucket. -/
def link_node (hs : String → Nat) (buckets : Nat) (s : Session) :
    List (Session × Int) → List (Session × Int)
  | [] => [(s, 1)]
  | e :: rest =>
    if bucket_of hs buckets e.1 = bucket_of hs buckets s then (s, 1) :: e :: rest
    else e :: link_node hs buckets s rest

/-- The statement session_count[session]++ on the node list of the map.  The key is looked up
among the nodes of its bucket; the count of the node that holds an equal key is incremented.
Without such a node a new node with count 1 is linked: before the first node of its bucket, or
at the head of the whole list when its bucket is empty.  This is the linking of libstdc++; the
C++ standard leaves the iteration order of the map to the library. -/
def count_step (hs : String → Nat) (buckets : Nat) (m : List (Session × Int)) (s : Session) :
    List (Session × Int) :=
  if m.any (fun e =>
      decide (bucket_of hs buckets e.1 = bucket_of hs buckets s) && Session.eq e.1 s) then
    m.map (fun e =>
      if decide (bucket_of hs buckets e.1 = bucket_of hs buckets s) && Session.eq e.1 s then
        (e.1, e.2 + 1)
      else e)
  else if m.any (fun e => decide (bucket_of hs buckets e.1 = bucket_of hs buckets s)) then
    link_node hs buckets s m
  else (s, 1) :: m

/-- The counting loops of Schedule::operator==: the map from a session to the number of times it
occurs, as its node list in iteration order.  The hash of strings hs and the number of buckets
of the map, which the standard library chooses, are parameters; the number of buckets stays the
same while the map is filled (libstdc++ allocates 13 buckets at the first insertion, enough for
the at most NUM_SESSIONS = 6 keys of a schedule). -/
def count_sessions (hs : String → Nat) (buckets : Nat) (ss : List Session) :
    List (Session × Int) :=
  ss.foldl (count_step hs buckets) []

/-- The call of std::equal on two counting maps: the nodes of the first are compared, in
iteration order, with the nodes of the second at the same positions. -/
def std_equal : List (Session × Int) → List (Session × Int) → Bool
  | [], _ => true
  | _ :: _, [] => false
  | x :: xs, y :: ys => (Session.eq x.1 y.1 && decide (x.2 = y.2)) && std_equal xs ys

/-- Schedule::operator==, for n sessions: none when one of the two size assertions fails. -/
def eq (hs : String → Nat) (buckets : Nat) (n : Nat) (a b : Schedule) : Option Bool :=
  if a.size = n ∧ b.size = n then
    let session_count := count_sessions hs buckets a.sessions
    let other_session_count := count_sessions hs buckets b.sessions
    if session_count.length ≠ other_session_count.length then some false
    else some (std_equal session_count other_session_count)
  else none

end Schedule

/-! ## optimal_schedule.cpp -/

/-- The array facilitators. -/
def facilitators : List Facilitator :=
  [ ⟨"Adam Apples", some Position.junior⟩,
    ⟨"Betty Blues", some Position.junior⟩,
    ⟨"Charles Chapman", some Position.junior⟩,
    ⟨"Daisy Duke", some Position.junior⟩,
    ⟨"Earl Eastman", some Position.junior⟩,
    ⟨"Fred Flinstone", some Position.junior⟩,
    ⟨"Gabriella Gabon", some Position.senior⟩,
    ⟨"Henrik Hanson", some Position.senior⟩,
    ⟨"Inge Ingram", some Position.senior⟩,
    ⟨"John Jones", some Position.senior⟩ ]

/-- The function generate_possible_pairings: the pairings of possible_pairings that survive the
two tests are inserted, in iteration order, into a new set. -/
def generate_possible_pairings (selected_pairing : Pair) (possible_pairings : List Pair) :
    List Pair :=
  possible_pairings.foldl (fun remaining_pairings p =>
    if p.contains selected_pairing.first || p.contains selected_pairing.second then
      remaining_pairings
    else if selected_pairing.is_junior_pairing && p.is_junior_pairing then remaining_pairings
    else USet.insert Pair.eq remaining_pairings p) []

/-- The function generate_sessions, on the pair of the session under construction and the global
set session_permutations.  The first argument bounds the depth of the recursion; the result is
none when that bound is reached or when the assertion of assign_pair fails. -/
def generate_sessions (acts : List Activity) :
    Nat → List Pair → Session × List Session → Option (Session × List Session)
  | 0, _, _ => none
  | fuel + 1, possible_pairings, (session, session_permutations) =>
    if session.complete acts then
      some (session, USet.insert Session.eq session_permutations session)
    else
      possible_pairings.foldlM (fun (st : Session × List Session) selected_pairing =>
        let remaining_available_pairings :=
          generate_possible_pairings selected_pairing possible_pairings
        match st.1.assign_pair acts selected_pairing with
        | none => none
        | some (activity, s1) =>
          match generate_sessions acts fuel remaining_available_pairings (s1, st.2) with
          | none => none
          | some (s2, perms) => some (s2.free_activity acts activity, perms))
        (session, session_permutations)

/-- The call generate_sessions(pairings, session) of main, on a fresh session and the empty set
session_permutations; every recursive call receives fewer pairings than its caller, so the
number of pairings plus one bounds the depth. -/
def enumerate_sessions (acts : List Activity) (pairings : List Pair) : Option (List Session) :=
  (generate_sessions acts (pairings.length + 1) pairings (Session.empty, [])).map Prod.snd

/-- The pairing construction of main from the array of facilitators: none when a facilitator
without a position makes position.value() throw.  The assertion of the constructor Pair(f, s)
holds at every pairing built here, as all facilitators of the roster then have a position. -/
def build_pairings (roster : List Facilitator) : Option (List Pair) :=
  if roster.all (fun f => f.position.isSome) then
    let seniors := USet.insertAll Facilitator.eq []
      (roster.filter (fun f => f.is_senior))
    let juniors := USet.insertAll Facilitator.eq []
      (roster.filter (fun f => !f.is_senior))
    let senior_junior_pairings := USet.insertAll Pair.eq []
      (seniors.flatMap (fun senior => juniors.map (fun junior => Pair.mk senior junior)))
    let junior_junior_pairings := USet.insertAll Pair.eq []
      (juniors.flatMap (fun juniorA =>
        (juniors.filter (fun juniorB => !(juniorA.eq juniorB))).map
          (fun juniorB => Pair.mk juniorA juniorB)))
    let pairings := USet.insertAll Pair.eq senior_junior_pairings junior_junior_pairings
    some (USet.insert Pair.eq pairings Pair.empty)
  else none

/-- The number of values of the 128-bit unsigned integers of the iteration counters. -/
def UINT128_SIZE : Nat := 2 ^ 128

/-- The static variables of update_iterations, with the reports printed so far (each report is
the triple of full, skipped and total iterations shown). -/
structure Counters where
  total_iterations : Nat
  total_full_iterations : Nat
  total_skipped_iterations : Nat
  last_iteration_count_printed : Nat
  reports : List (Nat × Nat × Nat)
  deriving DecidableEq, Repr

/-- The reporting granularity of update_iterations. -/
def granularity : Nat := 1000000000000

/-- The initial values of the static variables of update_iterations. -/
def Counters.init : Counters := ⟨0, 0, 0, 0, []⟩

/-- The function update_iterations: none when its assertion fails. -/
def update_iterations (k : Counters) (new_full_iterations new_skipped_iterations : Nat) :
    Option Counters :=
  let full := (k.total_full_iterations + new_full_iterations) % UINT128_SIZE
  let skipped := (k.total_skipped_iterations + new_skipped_iterations) % UINT128_SIZE
  let total := (k.total_iterations +
    (new_full_iterations + new_skipped_iterations) % UINT128_SIZE) % UINT128_SIZE
  if (full + skipped) % UINT128_SIZE = total then
    if (total + (UINT128_SIZE - k.last_iteration_count_printed)) % UINT128_SIZE ≥ granularity then
      some ⟨total, full, skipped, (total / granularity) * granularity % UINT128_SIZE,
        k.reports ++ [(full, skipped, total)]⟩
    else some ⟨total, full, skipped, k.last_iteration_count_printed, k.reports⟩
  else none

/-- A unit of work in the queue of the thread pool: the task of main, which calls
generate_schedules on its schedule, or a task of generate_schedules, which first adds the
session to its copy of the schedule. -/
inductive Task where
  | root (schedule : Schedule)
  | child (schedule : Schedule) (session : Session)
  deriving DecidableEq, Repr

/-- What one call of generate_schedules does: the value of min_schedule afterwards, the schedule
handed to print_schedule, the arguments of its call of update_iterations, and the tasks it
enqueues, in order. -/
structure Effect where
  min_schedule : Schedule
  printed : Option Schedule
  recorded : Option (Nat × Nat)
  enqueued : List Task
  deriving DecidableEq, Repr

/-- The conversion of an unsigned value to int, as in the initialisation of the static const int
session_permutations_size from session_permutations.size(): the low 32 bits, read as a two's
complement number. -/
def to_int (x : Nat) : Int :=
  if x % 2 ^ 32 < 2 ^ 31 then Int.ofNat (x % 2 ^ 32) else Int.ofNat (x % 2 ^ 32) - 2 ^ 32

/-- The number of low bits that the natural number x loses when it is written with the 53
significant bits of a double: the least s, searched upwards from s, with x / 2^s below 2^53.
The first argument bounds the search. -/
def double_shift (x : Nat) : Nat → Nat → Nat
  | 0, s => s
  | fuel + 1, s => if x / 2 ^ s < 2 ^ 53 then s else double_shift x fuel (s + 1)

/-- The double nearest to the natural number x, a tie going to the even significand (the
rounding of IEEE 754 binary64), given as a natural number.  A result of 2^1024 or more stands
for a value beyond the largest finite double. -/
def round_double (x : Nat) : Nat :=
  let s := double_shift x 1024 0
  let q := x / 2 ^ s
  let r := x % 2 ^ s
  let q2 := if 2 ^ s < 2 * r ∨ (2 * r = 2 ^ s ∧ q % 2 = 1) then q + 1 else q
  q2 * 2 ^ s

/-- The integer part of the double that pow(b, e) returns for two ints b and e, which are
converted to double: none when the double is not finite.  The library function pow is taken to
return the double nearest to the exact power.  For e = 0 the result is 1; for a positive e it
is the rounded power, infinite from 2^1024 on; for a negative e it is infinite for b = 0, 1 or
-1 for b = 1 or b = -1, and otherwise a fraction, whose integer part is 0. -/
def pow_int (b e : Int) : Option Int :=
  if e = 0 then some 1
  else if 0 < e then
    let m := round_double (b.natAbs ^ e.toNat)
    if m < 2 ^ 1024 then some (if b < 0 ∧ e % 2 = 1 then -Int.ofNat m else Int.ofNat m) else none
  else if b = 0 then none
  else if b.natAbs = 1 then some (if b < 0 ∧ e % 2 = 1 then -1 else 1)
  else some 0

/-- The value iterations_skipped of generate_schedules for a set of session_permutations_size
sessions and a schedule of the given size, n sessions making a complete schedule:
remaining_sessions is the int NUM_SESSIONS - schedule.size(), the difference being taken in
the 64 bits of size(), and iterations_skipped is the 128-bit unsigned integer constructed from
the double pow(session_permutations_size, remaining_sessions), its integer part reduced modulo
2^128 (a negative one in two's complement).  The result is none when the double is not finite:
its conversion has no value, and the call is taken to end there. -/
def iterations_skipped (session_permutations_size n size : Nat) : Option Nat :=
  let remaining_sessions :=
    if size ≤ n then to_int (n - size) else to_int (2 ^ 64 - (size - n) % 2 ^ 64)
  (pow_int (to_int session_permutations_size) remaining_sessions).map
    (fun v => (v % 2 ^ 128).toNat)

/-- The function generate_schedules for n sessions, on the current value of min_schedule.  A
candidate that is pruned records zero full iterations and iterations_skipped skipped ones; when
the conversion to iterations_skipped has no value, nothing is recorded. -/
def generate_schedules (n : Nat) (session_permutations : List Session) (min_schedule : Schedule)
    (schedule : Schedule) : Effect :=
  if schedule.conflicts ≥ min_schedule.conflicts then
    { min_schedule := min_schedule
      printed := none
      recorded := (iterations_skipped session_permutations.length n schedule.size).map
        (fun skipped => (0, skipped))
      enqueued := [] }
  else if schedule.complete n then
    { min_schedule := schedule
      printed := some schedule
      recorded := some (1, 0)
      enqueued := [] }
  else
    { min_schedule := min_schedule
      printed := none
      recorded := none
      enqueued := session_permutations.map (fun session => Task.child schedule session) }

/-- The body of a task: the schedule on which it calls generate_schedules, none when the
assertion of add_session fails. -/
def Task.schedule_of (n : Nat) : Task → Option Schedule
  | Task.root schedule => some schedule
  | Task.child schedule session => schedule.add_session n session

/-- The state of the search: min_schedule, the queue of the thread pool, the schedules printed
so far and the iteration counters. -/
structure Search where
  min_schedule : Schedule
  tasks : List Task
  printed : List Schedule
  counters : Counters
  deriving DecidableEq, Repr

/-- The state in which main starts the search, for the initial value of min_schedule. -/
def Search.init (min_schedule : Schedule) : Search :=
  ⟨min_schedule, [Task.root Schedule.empty], [], Counters.init⟩

/-- The state after a worker has run the task t, already taken from the queue rest: none when
an assertion fails in the task. -/
def Search.run_task (n : Nat) (session_permutations : List Session) (st : Search)
    (rest : List Task) (t : Task) : Option Search :=
  match t.schedule_of n with
  | none => none
  | some schedule =>
    let e := generate_schedules n session_permutations st.min_schedule schedule
    let printed := match e.printed with
      | none => st.printed
      | some c => st.printed ++ [c]
    match e.recorded with
    | none => some ⟨e.min_schedule, rest ++ e.enqueued, printed, st.counters⟩
    | some (new_full, new_skipped) =>
      match update_iterations st.counters new_full new_skipped with
      | none => none
      | some k => some ⟨e.min_schedule, rest ++ e.enqueued, printed, k⟩

/-- One step of the search: some task of the queue is run.  The workers take tasks from the
front of the queue, but the critical sections of tasks taken by different workers may run in
either order, so any task of the queue may be the next to run. -/
inductive Search.Step (n : Nat) (session_permutations : List Session) : Search → Search → Prop
  | run (st st2 : Search) (before after : List Task) (t : Task)
      (hq : st.tasks = before ++ t :: after)
      (hr : Search.run_task n session_permutations st (before ++ after) t = some st2) :
      Search.Step n session_permutations st st2

/-- Any number of steps of the search. -/
inductive Search.Steps (n : Nat) (session_permutations : List Session) : Search → Search → Prop
  | refl (st : Search) : Search.Steps n session_permutations st st
  | tail (st st2 st3 : Search) (h1 : Search.Steps n session_permutations st st2)
      (h2 : Search.Step n session_permutations st2 st3) : Search.Steps n session_permutations st st3

/-- The search with a single worker: the task at the front of the queue is run until the queue
is empty or the bound on the number of tasks is reached. -/
def Search.run_fifo (n : Nat) (session_permutations : List Session) : Nat → Search → Option Search
  | 0, st => if st.tasks = [] then some st else none
  | fuel + 1, st =>
    match st.tasks with
    | [] => some st
    | t :: rest =>
      match Search.run_task n session_permutations st rest t with
      | none => none
      | some st2 => Search.run_fifo n session_permutations fuel st2

/-- The schedule built from the empty schedule by add_session over the sessions ss, in order. -/
def build_schedule (n : Nat) (ss : List Session) : Option Schedule :=
  ss.foldlM (Schedule.add_session n) Schedule.empty

/-- The conflict count of the sequence of sessions ss: the member conflicts of the schedule built
from it (0 is returned for a sequence longer than n, which add_session refuses). -/
def score (n : Nat) (ss : List Session) : Nat :=
  match build_schedule n ss with
  | none => 0
  | some c => c.conflicts

/-- All sequences of length k of sessions of the list P. -/
def sequences (P : List Session) : Nat → List (List Session)
  | 0 => [[]]
  | k + 1 => P.flatMap (fun s => (sequences P k).map (fun ss => s :: ss))

/-- The minimum of the threshold T and of the scores of all sequences of n sessions of P. -/
def best_score (n : Nat) (P : List Session) (T : Nat) : Nat :=
  ((sequences P n).map (score n)).foldl min T

/-! ## Notions used to state the properties -/

/-- The node list of a session is that of a map: no label has two nodes. -/
def Session.valid (s : Session) : Prop := (s.entries.map Prod.fst).Nodup

instance (s : Session) : Decidable s.valid := by
  unfold Session.valid
  infer_instance

/-- The non-empty pairings of a session are pairwise distinct: Pair::operator!= holds between
the non-empty pairings of any two of its nodes. -/
def Session.distinct_pairings (s : Session) : Prop :=
  s.entries.Pairwise (fun e1 e2 =>
    e1.2.is_empty_pair = false → e2.2.is_empty_pair = false → Pair.ne e1.2 e2.2 = true)

instance (s : Session) : Decidable s.distinct_pairings := by
  unfold Session.distinct_pairings
  infer_instance

/-- The conflicts that the append rule counts for one node (a, p) of a session against the
schedule c: nothing for an empty pairing, otherwise 1 if p is in c.selected_pairings, plus 1 if
the first member of p is in c.facilitator_activities[a], plus 1 if the second member is. -/
def entry_conflicts (c : Schedule) (e : Activity × Pair) : Nat :=
  if e.2.is_empty_pair then 0
  else
    USet.count Pair.eq c.selected_pairings e.2 +
    USet.count Facilitator.eq (Schedule.facilitators_of c.facilitator_activities e.1) e.2.first +
    USet.count Facilitator.eq (Schedule.facilitators_of c.facilitator_activities e.1) e.2.second

/-- A junior facilitator of the given name, as Facilitator(name, Position::junior) builds it. -/
def junior (name : String) : Facilitator := ⟨name, some Position.junior⟩

/-- A senior facilitator of the given name, as Facilitator(name, Position::senior) builds it. -/
def senior (name : String) : Facilitator := ⟨name, some Position.senior⟩

/-- A complete session over the built-in roster and labels, as the enumerator builds it: four
senior-junior pairings, one junior-junior pairing and the empty pairing. -/
def example_session : Session :=
  ⟨[("Balance Board", Pair.empty),
    ("Helium Sticks", ⟨junior "Earl Eastman", junior "Fred Flinstone"⟩),
    ("Shepard", ⟨senior "John Jones", junior "Daisy Duke"⟩),
    ("Lava Bridge", ⟨senior "Inge Ingram", junior "Charles Chapman"⟩),
    ("Spider Web", ⟨senior "Henrik Hanson", junior "Betty Blues"⟩),
    ("Hank's Planks", ⟨senior "Gabriella Gabon", junior "Adam Apples"⟩)], 6⟩

/-- The largest unsigned int, UINT_MAX. -/
def UINT_MAX : Nat := 4294967295

/-- The schedule that Schedule(UINT_MAX) becomes by add_session(example_session). -/
def wrapping_schedule : Schedule :=
  { sessions := [example_session]
    conflicts := UINT_MAX
    facilitator_activities :=
      [("Hank's Planks", [junior "Adam Apples", senior "Gabriella Gabon"]),
       ("Spider Web", [junior "Betty Blues", senior "Henrik Hanson"]),
       ("Lava Bridge", [junior "Charles Chapman", senior "Inge Ingram"]),
       ("Shepard", [junior "Daisy Duke", senior "John Jones"]),
       ("Helium Sticks", [junior "Fred Flinstone", junior "Earl Eastman"])]
    selected_pairings :=
      [⟨senior "Gabriella Gabon", junior "Adam Apples"⟩,
       ⟨senior "Henrik Hanson", junior "Betty Blues"⟩,
       ⟨senior "Inge Ingram", junior "Charles Chapman"⟩,
       ⟨senior "John Jones", junior "Daisy Duke"⟩,
       ⟨junior "Earl Eastman", junior "Fred Flinstone"⟩] }

/-- The test of generate_possible_pairings: the pairing p stays available after the pairing
selected has been chosen. -/
def stays_available (selected p : Pair) : Bool :=
  !(p.contains selected.first || p.contains selected.second) &&
  !(selected.is_junior_pairing && p.is_junior_pairing)

/-- Two pairings can stand under two labels of one session: no facilitator is a member of both,
and they are not both junior-junior. -/
def Pair.compatible (p q : Pair) : Prop :=
  (∀ f : Facilitator, ¬ (p.contains f = true ∧ q.contains f = true)) ∧
  ¬ (p.is_junior_pairing = true ∧ q.is_junior_pairing = true)

/-- The session has a pairing for every label of acts and for nothing else, no facilitator (the
empty one included) is in the pairings of two different labels, and at most one label has a
junior-junior pairing. -/
def Session.legal (acts : List Activity) (x : Session) : Prop :=
  x.size = acts.length ∧
  (∀ a ∈ acts, ∃ p, x.find a = some p) ∧
  (∀ a b p q, x.find a = some p → x.find b = some q → a ≠ b →
    ∀ f : Facilitator, ¬ (p.contains f = true ∧ q.contains f = true)) ∧
  (∀ a b p q, x.find a = some p → x.find b = some q →
    p.is_junior_pairing = true → q.is_junior_pairing = true → a = b)

/-- The session under construction at depth k of generate_sessions: the first k labels of acts
have a pairing, the last assigned label first in the node list, and free_activity_idx is k. -/
def Session.filled (acts : List Activity) (k : Nat) (s : Session) : Prop :=
  k ≤ acts.length ∧ s.free_activity_idx = k ∧ s.entries.map Prod.fst = (acts.take k).reverse

/-- The body of the loop of generate_sessions for one selected pairing, on the pair of the
session and the set session_permutations; fuel bounds the recursive call. -/
def generate_sessions_body (acts : List Activity) (fuel : Nat) (possible_pairings : List Pair)
    (st : Session × List Session) (selected_pairing : Pair) : Option (Session × List Session) :=
  match st.1.assign_pair acts selected_pairing with
  | none => none
  | some (activity, s1) =>
    match generate_sessions acts fuel
        (generate_possible_pairings selected_pairing possible_pairings) (s1, st.2) with
    | none => none
    | some (s2, perms) => some (s2.free_activity acts activity, perms)

/-- A session as the enumerator completes it: the labels of acts in reverse order of assignment,
free_activity_idx past the last label, and any two of its pairings compatible. -/
def Session.sound (acts : List Activity) (x : Session) : Prop :=
  x.entries.map Prod.fst = acts.reverse ∧ x.free_activity_idx = acts.length ∧
  x.entries.Pairwise (fun e1 e2 => Pair.compatible e1.2 e2.2)

/-- A complete session t that the enumerator has to reach from the session s at depth k with the
pairings possible still available: t has as many pairings as there are labels, agrees with s on
the labels s has, takes its pairings for the labels from index k on from possible, and any two
of its pairings under different labels are compatible. -/
def Session.target (acts : List Activity) (k : Nat) (possible : List Pair) (s t : Session) :
    Prop :=
  t.size = acts.length ∧
  (∀ e ∈ s.entries, ∃ q, t.find e.1 = some q ∧ Pair.eq e.2 q = true) ∧
  (∀ a ∈ acts.drop k, ∃ q, t.find a = some q ∧ ∃ u ∈ possible, Pair.eq u q = true) ∧
  (∀ a b p q, a ≠ b → t.find a = some p → t.find b = some q → Pair.compatible p q)

/-- What a call of generate_sessions at depth k does to the set session_permutations: nothing is
removed; what is added is sound and made of the pairings of s and of possible, provided the
pairings of s are compatible with each other and with those of possible; and every target is
in the set afterwards. -/
def enumerates (acts : List Activity) (k : Nat) (possible : List Pair) (s : Session)
    (perms perms2 : List Session) : Prop :=
  (∀ x ∈ perms, x ∈ perms2) ∧
  (s.entries.Pairwise (fun e1 e2 => Pair.compatible e1.2 e2.2) →
    (∀ p ∈ possible, ∀ e ∈ s.entries, Pair.compatible e.2 p) →
    ∀ x ∈ perms2, x ∈ perms ∨
      (Session.sound acts x ∧ ∀ e ∈ x.entries, e ∈ s.entries ∨ e.2 ∈ possible)) ∧
  (∀ t, Session.target acts k possible s t → ∃ x ∈ perms2, Session.eq x t = true)

/-- Some member of the pairing p is a member of the pairing q. -/
def Pair.shares_member (p q : Pair) : Bool := q.contains p.first || q.contains p.second

/-- The unordered pair of the two members of a pairing. -/
def Pair.unordered (p : Pair) : Sym2 Facilitator := s(p.first, p.second)


/-- A second complete session over the built-in roster and labels. -/
def example_session2 : Session :=
  ⟨[("Balance Board", Pair.empty),
    ("Helium Sticks", ⟨junior "Adam Apples", junior "Betty Blues"⟩),
    ("Shepard", ⟨senior "John Jones", junior "Charles Chapman"⟩),
    ("Lava Bridge", ⟨senior "Inge Ingram", junior "Daisy Duke"⟩),
    ("Spider Web", ⟨senior "Henrik Hanson", junior "Earl Eastman"⟩),
    ("Hank's Planks", ⟨senior "Gabriella Gabon", junior "Fred Flinstone"⟩)], 6⟩

/-- A third complete session over the built-in roster and labels. -/
def example_session3 : Session :=
  ⟨[("Balance Board", ⟨senior "Gabriella Gabon", junior "Betty Blues"⟩),
    ("Helium Sticks", ⟨senior "Henrik Hanson", junior "Charles Chapman"⟩),
    ("Shepard", ⟨senior "Inge Ingram", junior "Adam Apples"⟩),
    ("Lava Bridge", ⟨senior "John Jones", junior "Earl Eastman"⟩),
    ("Spider Web", ⟨junior "Daisy Duke", junior "Fred Flinstone"⟩),
    ("Hank's Planks", Pair.empty)], 6⟩

/-- The schedule is the one that add_session builds from the empty schedule over its own
sequence of sessions, all of them sessions of P. -/
def Schedule.built (n : Nat) (P : List Session) (c : Schedule) : Prop :=
  build_schedule n c.sessions = some c ∧ ∀ s ∈ c.sessions, s ∈ P

/-- The sequence of sessions of the schedule on which a task calls generate_schedules. -/
def Task.path : Task → List Session
  | Task.root c => c.sessions
  | Task.child c s => c.sessions ++ [s]

/-- A task as the search enqueues it: its schedule is built over sessions of P, and a task of
generate_schedules carries a session of P and a schedule with room for it. -/
def Task.ok (n : Nat) (P : List Session) : Task → Prop
  | Task.root c => Schedule.built n P c
  | Task.child c s => Schedule.built n P c ∧ s ∈ P ∧ c.size < n

/-- The invariant of the search for the threshold T: min_schedule is the initial Schedule(T) or a
complete built schedule with fewer than T conflicts; the tasks in the queue are as the search
enqueues them; and every sequence of n sessions of P either has at least the conflicts of
min_schedule, or extends the path of a task still in the queue. -/
def Search.invariant (n : Nat) (P : List Session) (T : Nat) (st : Search) : Prop :=
  (st.min_schedule = Schedule.with_conflicts T ∨
    (Schedule.built n P st.min_schedule ∧ st.min_schedule.size = n ∧
      st.min_schedule.conflicts < T)) ∧
  (∀ t ∈ st.tasks, t.ok n P) ∧
  (∀ ss : List Session, ss.length = n → (∀ s ∈ ss, s ∈ P) →
    st.min_schedule.conflicts ≤ score n ss ∨ ∃ t ∈ st.tasks, t.path <+: ss)

/-- The counters of update_iterations agree: the full and the skipped iterations add up to the
total, as 128-bit unsigned integers. -/
def Counters.consistent (k : Counters) : Prop :=
  (k.total_full_iterations + k.total_skipped_iterations) % UINT128_SIZE =
    k.total_iterations % UINT128_SIZE

instance (k : Counters) : Decidable k.consistent := by
  unfold Counters.consistent
  infer_instance

/-- The number of calls of generate_schedules in a full search tree of the given depth over
k sessions. -/
def tree_size (k : Nat) : Nat → Nat
  | 0 => 1
  | d + 1 => 1 + k * tree_size k d

/-- A bound on the number of tasks that running the task t can cause, itself included. -/
def Task.weight (n k : Nat) (t : Task) : Nat := tree_size k (n - t.path.length)

/-- The schedule that the empty schedule becomes by add_session(example_session). -/
def example_schedule : Schedule := { wrapping_schedule with conflicts := 0 }

/-- A session with a single pairing, of two juniors, as assign_pair builds it from the empty
session. -/
def single_pairing_session : Session :=
  ⟨[("Hank's Planks", ⟨junior "Adam Apples", junior "Betty Blues"⟩)], 1⟩

/-! ## thread_pool.h -/

/-- Class ThreadPool, for tasks of type τ: the queue tasks, front first, the counter tasks_busy
and the flag stop.  The worker threads and the condition variables are not part of the state. -/
structure ThreadPool (τ : Type) where
  tasks : List τ
  tasks_busy : Nat
  stop : Bool

/-- The pool after its constructor: an empty queue, no busy task, not stopped. -/
def ThreadPool.init (τ : Type) : ThreadPool τ := ⟨[], 0, false⟩

/-- ThreadPool::enqueue, which runs under the queue mutex: the pool afterwards, and the error
when runtime_error is thrown. -/
def ThreadPool.enqueue {τ : Type} (pool : ThreadPool τ) (task : τ) :
    ThreadPool τ × Except String Unit :=
  if pool.stop then (pool, Except.error "enqueue on stopped ThreadPool")
  else ({ pool with tasks := pool.tasks ++ [task] }, Except.ok ())

/-- A sequence of calls of update_iterations, each given by its two arguments: none when an
assertion fails. -/
def update_sequence (k : Counters) (calls : List (Nat × Nat)) : Option Counters :=
  calls.foldlM (fun k2 a => update_iterations k2 a.1 a.2) k

/-- The marker of update_iterations is in step with the total: last_iteration_count_printed is a
multiple of the granularity, at most total_iterations, and less than one granularity behind. -/
def Counters.marked (k : Counters) : Prop :=
  granularity ∣ k.last_iteration_count_printed ∧
  k.last_iteration_count_printed ≤ k.total_iterations ∧
  k.total_iterations - k.last_iteration_count_printed < granularity

instance (k : Counters) : Decidable k.marked := by
  unfold Counters.marked
  infer_instance

/-- The boundaries reported so far, in trillions as printed: the total of each report divided
by the granularity. -/
def Counters.boundaries (k : Counters) : List Nat :=
  k.reports.map (fun r => r.2.2 / granularity)

/-- The reports of update_iterations are in order: the reported boundaries increase strictly and
none is beyond the marker last_iteration_count_printed. -/
def Counters.reported_in_order (k : Counters) : Prop :=
  k.boundaries.Pairwise (fun b1 b2 => b1 < b2) ∧
  ∀ b ∈ k.boundaries, b * granularity ≤ k.last_iteration_count_printed

/-- The roster of the end-to-end scenario: the seniors S1, S2 and the juniors J1, J2. -/
def scenario_roster : List Facilitator := [senior "S1", senior "S2", junior "J1", junior "J2"]

/-- The two activity labels of the end-to-end scenario. -/
def scenario_activities : List Activity := ["A", "B"]

/-- The set of pairings that main builds from the roster of the scenario, in iteration order. -/
def scenario_pairings : List Pair :=
  [Pair.empty, ⟨junior "J2", junior "J1"⟩, ⟨senior "S1", junior "J1"⟩,
    ⟨senior "S1", junior "J2"⟩, ⟨senior "S2", junior "J1"⟩, ⟨senior "S2", junior "J2"⟩]

/-- The session of the scenario with the pairing pa under the label A and pb under B, as the
enumerator builds it. -/
def scenario_session (pa pb : Pair) : Session := ⟨[("B", pb), ("A", pa)], 2⟩

/-- The set of sessions that the enumerator produces from the pairings of the scenario, in
iteration order. -/
def scenario_sessions : List Session :=
  [scenario_session ⟨senior "S2", junior "J2"⟩ Pair.empty,
    scenario_session ⟨senior "S2", junior "J2"⟩ ⟨senior "S1", junior "J1"⟩,
    scenario_session ⟨senior "S2", junior "J1"⟩ Pair.empty,
    scenario_session ⟨senior "S2", junior "J1"⟩ ⟨senior "S1", junior "J2"⟩,
    scenario_session ⟨senior "S1", junior "J2"⟩ Pair.empty,
    scenario_session ⟨senior "S1", junior "J2"⟩ ⟨senior "S2", junior "J1"⟩,
    scenario_session ⟨senior "S1", junior "J1"⟩ Pair.empty,
    scenario_session ⟨senior "S1", junior "J1"⟩ ⟨senior "S2", junior "J2"⟩,
    scenario_session ⟨junior "J2", junior "J1"⟩ Pair.empty,
    scenario_session Pair.empty ⟨junior "J2", junior "J1"⟩,
    scenario_session Pair.empty ⟨senior "S1", junior "J1"⟩,
    scenario_session Pair.empty ⟨senior "S1", junior "J2"⟩,
    scenario_session Pair.empty ⟨senior "S2", junior "J1"⟩,
    scenario_session Pair.empty ⟨senior "S2", junior "J2"⟩]

/-! ## Notions used to state the properties of the tasks and of add_session -/

/-- A task that fits the schedule length n: the task of main carries a schedule of at most n
sessions, a task of generate_schedules a schedule of fewer than n sessions, which has room for
the session of the task. -/
def Task.sized (n : Nat) : Task → Prop
  | Task.root c => c.size ≤ n
  | Task.child c _ => c.size < n

/-- The map facilitator_activities has a node for the label a. -/
def Schedule.has_label (c : Schedule) (a : Activity) : Bool :=
  c.facilitator_activities.any (fun e => decide (e.1 = a))

/-- Two schedules have the same books: the same conflict counter, the same pairings in
selected_pairings, nodes for the same labels in facilitator_activities, and under every label
the same facilitators.  The containers are compared by their members, as operator== of
std::unordered_set and std::unordered_map does, and not by the order of their nodes. -/
def Schedule.same_books (c1 c2 : Schedule) : Prop :=
  c1.conflicts = c2.conflicts ∧
  (∀ q : Pair, USet.count Pair.eq c1.selected_pairings q =
    USet.count Pair.eq c2.selected_pairings q) ∧
  (∀ a : Activity, c1.has_label a = c2.has_label a) ∧
  (∀ (a : Activity) (f : Facilitator),
    USet.count Facilitator.eq (Schedule.facilitators_of c1.facilitator_activities a) f =
    USet.count Facilitator.eq (Schedule.facilitators_of c2.facilitator_activities a) f)

/-- A session with the same pairing of two juniors under two labels. -/
def doubled_session : Session :=
  ⟨[("Spider Web", ⟨junior "Adam Apples", junior "Betty Blues"⟩),
    ("Hank's Planks", ⟨junior "Betty Blues", junior "Adam Apples"⟩)], 2⟩

/-- The session doubled_session with its two nodes in the other order. -/
def doubled_session_swapped : Session :=
  ⟨[("Hank's Planks", ⟨junior "Betty Blues", junior "Adam Apples"⟩),
    ("Spider Web", ⟨junior "Adam Apples", junior "Betty Blues"⟩)], 2⟩

/-! ## session.h: the reads of the array activities -/

/-- The indices at which the do-while loop of assign_pair reads the array activities, from the
index i it has after an increment: the loop condition find(activities[free_activity_idx]) reads
the array at i in every iteration, and the source does not compare i with NUM_ACTIVITIES before
the read.  The first argument bounds the iterations as in skip_assigned. -/
def Session.skip_assigned_reads (acts : List Activity) (m : List (Activity × Pair)) :
    Nat → Nat → List Nat
  | 0, i => [i]
  | fuel + 1, i =>
    i :: (match acts[i]? with
      | none => []
      | some a =>
        if (Session.lookup m a).isSome then Session.skip_assigned_reads acts m fuel (i + 1)
        else [])

/-- The indices at which Session::assign_pair reads the array activities, in order: none when
its assertion fails, otherwise free_activity_idx for the label that receives the pair, and then
the indices read by the loop. -/
def Session.assign_pair_reads (acts : List Activity) (s : Session) (p : Pair) : List Nat :=
  match acts[s.free_activity_idx]? with
  | none => []
  | some a =>
    s.free_activity_idx ::
      Session.skip_assigned_reads acts (Session.store s.entries a p)
        (acts.length - (s.free_activity_idx + 1)) (s.free_activity_idx + 1)

/-- The session under construction in generate_sessions when five labels have a pairing: the
first five labels of example_session, free_activity_idx at the last label. -/
def five_filled_session : Session :=
  ⟨[("Helium Sticks", ⟨junior "Earl Eastman", junior "Fred Flinstone"⟩),
    ("Shepard", ⟨senior "John Jones", junior "Daisy Duke"⟩),
    ("Lava Bridge", ⟨senior "Inge Ingram", junior "Charles Chapman"⟩),
    ("Spider Web", ⟨senior "Henrik Hanson", junior "Betty Blues"⟩),
    ("Hank's Planks", ⟨senior "Gabriella Gabon", junior "Adam Apples"⟩)], 5⟩

/-! ## thread_pool.h: the worker threads -/

/-- The decrement x-- of an unsigned int. -/
def uint_decr (x : Nat) : Nat := (x + (UINT_SIZE - 1)) % UINT_SIZE

/-- What a worker thread of the pool is doing: it is in the wait for a task at the top of its
loop, holding no task; or it has popped a task, has incremented tasks_busy and is running the
task, or is about to take the lock again to decrement tasks_busy; or it has returned from its
loop. -/
inductive Worker (τ : Type) where
  | waiting
  | running (task : τ)
  | returned
  deriving DecidableEq, Repr

/-- The worker has popped a task and has not yet finished running it. -/
def Worker.is_running {τ : Type} : Worker τ → Bool
  | Worker.running _ => true
  | _ => false

deriving instance DecidableEq for ThreadPool

/-- The thread pool with its worker threads: the members of class ThreadPool, and what each
thread of the vector workers is doing. -/
structure Pool (τ : Type) where
  pool : ThreadPool τ
  workers : List (Worker τ)
  deriving DecidableEq

/-- The pool after the constructor ThreadPool(numThreads): every worker is in its wait. -/
def Pool.init (τ : Type) (numThreads : Nat) : Pool τ :=
  ⟨ThreadPool.init τ, List.replicate numThreads Worker.waiting⟩

/-- The number of workers that have popped a task and not yet finished running it. -/
def Pool.busy_workers {τ : Type} (st : Pool τ) : Nat := st.workers.countP Worker.is_running

/-- The steps of the pool.  Each is one critical section under queueMutex, so that any two of
them happen one after the other: a worker leaves its wait and pops the task at the front; a
worker whose task has returned or thrown takes the lock again and decrements tasks_busy; a
worker leaves its loop; a thread calls enqueue, either a thread outside the pool (caller none)
or the task that a worker is running (caller the index of the worker); the destructor sets
stop; the predicate of wait_finished holds and wait_finished returns. -/
inductive PoolEvent (τ : Type) where
  | pop (worker : Nat)
  | finish (worker : Nat)
  | exit (worker : Nat)
  | enqueue (caller : Option Nat) (task : τ)
  | shutdown
  | wait_finished
  deriving DecidableEq, Repr

/-- One step of the pool: none when the event cannot happen in the state.
A worker passes its wait when stop is set or the queue is not empty; it returns when stop is set
and the queue is empty, and otherwise pops the front task and increments tasks_busy.  After the
task it decrements tasks_busy.  A call of enqueue on a stopped pool throws and leaves the pool
as it is.  The wait of wait_finished is passed when the queue is empty and tasks_busy is 0. -/
def Pool.step {τ : Type} (st : Pool τ) : PoolEvent τ → Option (Pool τ)
  | PoolEvent.pop i =>
    match st.workers[i]?, st.pool.tasks with
    | some Worker.waiting, task :: rest =>
      some ⟨{ st.pool with tasks := rest, tasks_busy := uint_incr st.pool.tasks_busy },
        st.workers.set i (Worker.running task)⟩
    | _, _ => none
  | PoolEvent.finish i =>
    match st.workers[i]? with
    | some (Worker.running _) =>
      some ⟨{ st.pool with tasks_busy := uint_decr st.pool.tasks_busy },
        st.workers.set i Worker.waiting⟩
    | _ => none
  | PoolEvent.exit i =>
    match st.workers[i]? with
    | some Worker.waiting =>
      if st.pool.stop && st.pool.tasks.isEmpty then
        some ⟨st.pool, st.workers.set i Worker.returned⟩
      else none
    | _ => none
  | PoolEvent.enqueue none task => some ⟨(st.pool.enqueue task).1, st.workers⟩
  | PoolEvent.enqueue (some i) task =>
    match st.workers[i]? with
    | some (Worker.running _) => some ⟨(st.pool.enqueue task).1, st.workers⟩
    | _ => none
  | PoolEvent.shutdown => some ⟨{ st.pool with stop := true }, st.workers⟩
  | PoolEvent.wait_finished =>
    if st.pool.tasks.isEmpty && decide (st.pool.tasks_busy = 0) then some st else none

/-- A run of the pool: the events happen in order; none when one of them cannot happen. -/
def Pool.run {τ : Type} (st : Pool τ) (events : List (PoolEvent τ)) : Option (Pool τ) :=
  events.foldlM Pool.step st

/-! ## Notions used to state the accounting of the iterations -/

/-- The label number i: i letters a. -/
def numbered_label (i : Nat) : Activity := String.mk (List.replicate i 'a')

/-- The pairing number i: two juniors whose names are x and y followed by i letters a. -/
def numbered_pairing (i : Nat) : Pair :=
  ⟨junior (String.mk ('x' :: List.replicate i 'a')),
    junior (String.mk ('y' :: List.replicate i 'a'))⟩

/-- A session of N pairings: the pairing number i under the label number i, for i below N. -/
def numbered_session (N : Nat) : Session :=
  ⟨(List.range N).map (fun i => (numbered_label i, numbered_pairing i)), 0⟩

/-- A set of 259200 sessions, as many as the shipped roster and labels have: session number i
has the empty pairing under the label number i. -/
def many_sessions : List Session :=
  (List.range 259200).map (fun i => ⟨[(numbered_label i, Pair.empty)], 1⟩)

/-- The number of leaves of the recursion of generate_sessions with d labels still to fill and
the set possible of available pairings: one when no label is left, otherwise the sum, over the
pairings of the set, of the leaves of the recursive call for that pairing. -/
def session_count : Nat → List Pair → Nat
  | 0, _ => 1
  | d + 1, possible =>
    (possible.map (fun p => session_count d (generate_possible_pairings p possible))).sum

/-- The number of facilitators of the roster that are a member of some pairing of the set. -/
def roster_left (roster : List Facilitator) (possible : List Pair) : Nat :=
  (roster.filter (fun f => possible.any (fun p => p.contains f))).length

/-- The number of empty pairings of the set. -/
def empty_pairings (possible : List Pair) : Nat := (possible.filter Pair.is_empty_pair).length

/-- A pairing as main builds it from the roster: the pairing Pair(), or a pairing of two
different facilitators of the roster. -/
def Pair.well_formed (roster : List Facilitator) (p : Pair) : Bool :=
  if p.is_empty_pair then decide (p = Pair.empty)
  else decide (p.first ∈ roster) && decide (p.second ∈ roster) && decide (p.first ≠ p.second)

/-- A bound on the number of ways to fill d labels with pairings that share no member, when r
facilitators are left and e empty pairings are available: a non-empty pairing is one of the
r choose 2 pairs of facilitators and uses up two of them, an empty pairing uses up the empty
pairings. -/
def count_bound : Nat → Nat → Nat → Nat
  | 0, _, _ => 1
  | d + 1, r, e => r.choose 2 * count_bound d (r - 2) e + e * count_bound d r 0

/-- The set of pairings that main builds from the array facilitators, in iteration order. -/
def roster_pairings : List Pair := (build_pairings facilitators).getD []

/-! ## Properties: equality and hashing of the value types -/

theorem facilitator_eq_iff (a b : Facilitator) : Facilitator.eq a b = true ↔ a = b := by
  cases a; cases b
  simp [Facilitator.eq]

theorem facilitator_eq_self (a : Facilitator) : Facilitator.eq a a = true :=
  (facilitator_eq_iff a a).2 rfl

theorem pair_eq_iff (P Q : Pair) :
    Pair.eq P Q = true ↔
      (P.first = Q.first ∧ P.second = Q.second) ∨ (P.first = Q.second ∧ P.second = Q.first) := by
  simp [Pair.eq, facilitator_eq_iff]

theorem pair_eq_self (P : Pair) : Pair.eq P P = true := (pair_eq_iff P P).2 (Or.inl ⟨rfl, rfl⟩)

theorem pair_eq_comm (P Q : Pair) : Pair.eq P Q = Pair.eq Q P := by
  rw [Bool.eq_iff_iff, pair_eq_iff, pair_eq_iff]
  constructor <;> rintro (⟨h1, h2⟩ | ⟨h1, h2⟩)
  · exact Or.inl ⟨h1.symm, h2.symm⟩
  · exact Or.inr ⟨h2.symm, h1.symm⟩
  · exact Or.inl ⟨h1.symm, h2.symm⟩
  · exact Or.inr ⟨h2.symm, h1.symm⟩

theorem pair_eq_trans {P Q R : Pair} (h1 : Pair.eq P Q = true) (h2 : Pair.eq Q R = true) :
    Pair.eq P R = true := by
  rw [pair_eq_iff] at *
  rcases h1 with ⟨a, b⟩ | ⟨a, b⟩ <;> rcases h2 with ⟨c, d⟩ | ⟨c, d⟩
  · exact Or.inl ⟨a.trans c, b.trans d⟩
  · exact Or.inr ⟨a.trans c, b.trans d⟩
  · exact Or.inr ⟨a.trans d, b.trans c⟩
  · exact Or.inl ⟨a.trans d, b.trans c⟩

theorem pair_contains_iff (P : Pair) (f : Facilitator) :
    P.contains f = true ↔ P.first = f ∨ P.second = f := by
  simp [Pair.contains, facilitator_eq_iff]

theorem pair_contains_congr {P Q : Pair} (h : Pair.eq P Q = true) (f : Facilitator) :
    P.contains f = Q.contains f := by
  rw [Bool.eq_iff_iff, pair_contains_iff, pair_contains_iff]
  rw [pair_eq_iff] at h
  rcases h with ⟨a, b⟩ | ⟨a, b⟩ <;> rw [a, b]
  exact Or.comm

theorem pair_is_junior_pairing_congr {P Q : Pair} (h : Pair.eq P Q = true) :
    P.is_junior_pairing = Q.is_junior_pairing := by
  rw [pair_eq_iff] at h
  rcases h with ⟨a, b⟩ | ⟨a, b⟩ <;> simp only [Pair.is_junior_pairing, a, b]
  exact Bool.and_comm _ _

theorem pair_is_empty_pair_congr {P Q : Pair} (h : Pair.eq P Q = true) :
    P.is_empty_pair = Q.is_empty_pair := by
  rw [pair_eq_iff] at h
  rcases h with ⟨a, b⟩ | ⟨a, b⟩ <;> simp only [Pair.is_empty_pair, a, b]
  exact Bool.and_comm _ _

/-- C7: Pair::operator== is the equality of unordered pairs.  P == Q holds exactly when the two
members agree in the same or in the swapped order; a pair equals its swap, also when both are
built by the checked constructor; the relation is symmetric; and operator!= is its negation. -/
theorem pair_eq_is_unordered (P Q : Pair) (A B : Facilitator) :
    (Pair.eq P Q = true ↔
      (Facilitator.eq P.first Q.first = true ∧ Facilitator.eq P.second Q.second = true) ∨
      (Facilitator.eq P.first Q.second = true ∧ Facilitator.eq P.second Q.first = true)) ∧
    (Pair.eq P Q = true ↔
      (P.first = Q.first ∧ P.second = Q.second) ∨ (P.first = Q.second ∧ P.second = Q.first)) ∧
    Pair.eq ⟨A, B⟩ ⟨B, A⟩ = true ∧
    (∀ X, Pair.new A B = some X → ∃ Y, Pair.new B A = some Y ∧ Pair.eq X Y = true) ∧
    (Pair.eq P Q = true ↔ Pair.eq Q P = true) ∧
    (Pair.ne P Q = true ↔ ¬ Pair.eq P Q = true) := by
  refine ⟨?_, pair_eq_iff P Q, ?_, ?_, ?_, ?_⟩
  · simp [Pair.eq]
  · exact (pair_eq_iff _ _).2 (Or.inr ⟨rfl, rfl⟩)
  · intro X hX
    unfold Pair.new at hX
    split at hX
    · rename_i he
      injection hX with hX
      subst hX
      exact ⟨⟨B, A⟩, by simp [Pair.new, he], (pair_eq_iff _ _).2 (Or.inr ⟨rfl, rfl⟩)⟩
    · exact absurd hX (by simp)
  · rw [pair_eq_comm]
  · simp [Pair.ne]

/-- C8: hashing agrees with equality.  For every string hash hs, two pairs that operator==
accepts (the same two facilitators in the same or in the swapped order) have the same hash, and
two equal facilitators have the same hash. -/
theorem hash_agrees_with_eq (hs : String → Nat) (P Q : Pair) (A B f g : Facilitator) :
    (Pair.eq P Q = true → Pair.hash hs P = Pair.hash hs Q) ∧
    Pair.hash hs ⟨A, B⟩ = Pair.hash hs ⟨B, A⟩ ∧
    (Facilitator.eq f g = true → Facilitator.hash hs f = Facilitator.hash hs g) := by
  refine ⟨?_, ?_, ?_⟩
  · intro h
    rw [pair_eq_iff] at h
    rcases h with ⟨a, b⟩ | ⟨a, b⟩
    · simp only [Pair.hash, a, b]
    · simp only [Pair.hash, a, b]
      exact Nat.xor_comm _ _
  · simp only [Pair.hash]
    exact Nat.xor_comm _ _
  · intro h
    rw [(facilitator_eq_iff f g).1 h]

/-! ## Properties: one call of generate_schedules and the best result -/

theorem to_int_small (x : Nat) (h : x < 2 ^ 31) : to_int x = Int.ofNat x := by
  have h1 : x % 2 ^ 32 = x := Nat.mod_eq_of_lt (by omega)
  unfold to_int
  rw [h1, if_pos h]

theorem round_double_exact (x : Nat) (h : x < 2 ^ 53) : round_double x = x := by
  have hs : double_shift x 1024 0 = 0 := by
    unfold double_shift
    rw [if_pos (by simpa using h)]
  unfold round_double
  simp only [hs, pow_zero, Nat.div_one, Nat.mod_one, mul_one, mul_zero]
  rw [if_neg (by omega)]

theorem pow_int_exact (b e : Nat) (h : b ^ e < 2 ^ 53) :
    pow_int (Int.ofNat b) (Int.ofNat e) = some (Int.ofNat (b ^ e)) := by
  unfold pow_int
  by_cases he : e = 0
  · subst he
    simp
  · have h1 : ¬ (Int.ofNat e = 0) := by simpa using he
    have h2 : (0 : Int) < Int.ofNat e := by
      have : 0 < e := Nat.pos_of_ne_zero he
      simpa using this
    rw [if_neg h1, if_pos h2]
    simp only [Int.ofNat_eq_coe, Int.natAbs_ofNat, Int.toNat_ofNat]
    rw [round_double_exact _ h]
    have h3 : b ^ e < 2 ^ 1024 := lt_trans h (by norm_num)
    rw [if_pos h3]
    have h4 : ¬ ((b : Int) < 0 ∧ (e : Int) % 2 = 1) := by
      intro hh
      have := hh.1
      omega
    rw [if_neg h4]

theorem iterations_skipped_exact (k n size : Nat) (hsize : size ≤ n) (hk : k < 2 ^ 31)
    (hn : n - size < 2 ^ 31) (h : k ^ (n - size) < 2 ^ 53) :
    iterations_skipped k n size = some (k ^ (n - size)) := by
  unfold iterations_skipped
  simp only [if_pos hsize]
  rw [to_int_small k hk, to_int_small _ hn, pow_int_exact _ _ h]
  simp only [Option.map_some', Option.some.injEq]
  have h2 : (Int.ofNat (k ^ (n - size))) % 2 ^ 128 = Int.ofNat (k ^ (n - size)) := by
    apply Int.emod_eq_of_lt
    · exact Int.ofNat_nonneg _
    · have h3 : k ^ (n - size) < 2 ^ 128 := lt_trans h (by norm_num)
      simp only [Int.ofNat_eq_coe]
      exact_mod_cast h3
  rw [h2]
  rfl

theorem iterations_skipped_complete (k n : Nat) : iterations_skipped k n n = some 1 := by
  unfold iterations_skipped
  simp only [le_refl, if_true, Nat.sub_self]
  have h0 : to_int 0 = 0 := by decide
  rw [h0]
  simp [pow_int]

theorem double_shift_min (x : Nat) : ∀ fuel s : Nat,
    double_shift x fuel s = s ∨ 2 ^ 53 ≤ x / 2 ^ (double_shift x fuel s - 1) := by
  intro fuel
  induction fuel with
  | zero =>
    intro s
    left
    rfl
  | succ fuel ih =>
    intro s
    unfold double_shift
    by_cases h : x / 2 ^ s < 2 ^ 53
    · rw [if_pos h]
      left
      rfl
    · rw [if_neg h]
      right
      rcases ih (s + 1) with h1 | h1
      · rw [h1, Nat.add_sub_cancel]
        omega
      · exact h1

theorem round_double_le (x : Nat) : round_double x ≤ 2 * x := by
  unfold round_double
  simp only
  generalize hs : double_shift x 1024 0 = s
  have hmin := double_shift_min x 1024 0
  rw [hs] at hmin
  have hdm : 2 ^ s * (x / 2 ^ s) + x % 2 ^ s = x := Nat.div_add_mod x (2 ^ s)
  have hpos : 0 < 2 ^ s := pow_pos (by norm_num) s
  rcases hmin with h0 | h1
  · subst h0
    simp only [pow_zero, Nat.div_one, Nat.mod_one, mul_zero, mul_one]
    rw [if_neg (by omega)]
    omega
  · have hle : 2 ^ s ≤ x := by
      by_cases hs0 : s = 0
      · subst hs0
        have hx : 2 ^ 53 ≤ x := by simpa using h1
        simp only [pow_zero]
        omega
      · have h2 : 2 ^ (s - 1) * 2 ^ 53 ≤ x := by
          have := Nat.mul_le_of_le_div _ _ _ h1
          rw [Nat.mul_comm] at this
          exact this
        have h3 : 2 ^ s = 2 ^ (s - 1) * 2 := by
          rw [← pow_succ]
          congr 1
          omega
        have h4 : 2 ^ (s - 1) * 2 ≤ 2 ^ (s - 1) * 2 ^ 53 :=
          Nat.mul_le_mul_left _ (by norm_num)
        omega
    have hq : (if 2 ^ s < 2 * (x % 2 ^ s) ∨ 2 * (x % 2 ^ s) = 2 ^ s ∧ x / 2 ^ s % 2 = 1 then
        x / 2 ^ s + 1 else x / 2 ^ s) ≤ x / 2 ^ s + 1 := by
      split <;> omega
    calc (if 2 ^ s < 2 * (x % 2 ^ s) ∨ 2 * (x % 2 ^ s) = 2 ^ s ∧ x / 2 ^ s % 2 = 1 then
            x / 2 ^ s + 1 else x / 2 ^ s) * 2 ^ s
        ≤ (x / 2 ^ s + 1) * 2 ^ s := Nat.mul_le_mul_right _ hq
      _ = 2 ^ s * (x / 2 ^ s) + 2 ^ s := by ring
      _ ≤ x + x := by omega
      _ = 2 * x := by ring

theorem iterations_skipped_finite (k n size : Nat) (hsize : size ≤ n) (hk : k < 2 ^ 31)
    (hn : n - size < 2 ^ 31) (h : k ^ (n - size) < 2 ^ 1023) :
    ∃ skipped, iterations_skipped k n size = some skipped := by
  unfold iterations_skipped
  simp only [if_pos hsize]
  rw [to_int_small k hk, to_int_small _ hn]
  have hp : ∃ v, pow_int (Int.ofNat k) (Int.ofNat (n - size)) = some v := by
    unfold pow_int
    by_cases he : n - size = 0
    · rw [he]
      exact ⟨1, by simp⟩
    · have h1 : ¬ (Int.ofNat (n - size) = 0) := by simpa using he
      have h2 : (0 : Int) < Int.ofNat (n - size) := by
        have : 0 < n - size := Nat.pos_of_ne_zero he
        simpa using this
      rw [if_neg h1, if_pos h2]
      simp only [Int.ofNat_eq_coe, Int.natAbs_ofNat, Int.toNat_ofNat]
      have h3 : round_double (k ^ (n - size)) < 2 ^ 1024 := by
        have h4 := round_double_le (k ^ (n - size))
        have h5 : 2 * k ^ (n - size) < 2 * 2 ^ 1023 := by omega
        have h6 : (2 : Nat) * 2 ^ 1023 = 2 ^ 1024 := by norm_num
        omega
      rw [if_pos h3]
      exact ⟨_, rfl⟩
  obtain ⟨v, hv⟩ := hp
  rw [hv]
  exact ⟨_, rfl⟩

/-- C5: pruning.  When the candidate c has at least as many conflicts as the current best b
(equally many included, and whether or not c is complete), the call generate_schedules(c)
leaves min_schedule at b, prints nothing, enqueues no task, and records zero completed
iterations: its call of update_iterations has 0 as the number of full iterations, the number of
skipped iterations being iterations_skipped, which the source constructs from the double
pow(session_permutations_size, remaining_sessions).  That call is made whenever c has at most
n sessions, the two arguments are below 2^31 and the power is below 2^1023, so that the double
is finite; the number of skipped iterations is the power itself when the power is below 2^53. -/
theorem generate_schedules_prunes (n : Nat) (session_permutations : List Session)
    (b c : Schedule) (h : c.conflicts ≥ b.conflicts) :
    (generate_schedules n session_permutations b c).min_schedule = b ∧
    (generate_schedules n session_permutations b c).enqueued = [] ∧
    (generate_schedules n session_permutations b c).printed = none ∧
    (generate_schedules n session_permutations b c).recorded =
      (iterations_skipped session_permutations.length n c.size).map
        (fun skipped => (0, skipped)) ∧
    (∀ r, (generate_schedules n session_permutations b c).recorded = some r → r.1 = 0) ∧
    (c.size ≤ n → session_permutations.length < 2 ^ 31 → n - c.size < 2 ^ 31 →
      session_permutations.length ^ (n - c.size) < 2 ^ 1023 →
      ∃ skipped, (generate_schedules n session_permutations b c).recorded =
        some (0, skipped)) ∧
    (c.size ≤ n → session_permutations.length < 2 ^ 31 → n - c.size < 2 ^ 31 →
      session_permutations.length ^ (n - c.size) < 2 ^ 53 →
      (generate_schedules n session_permutations b c).recorded =
        some (0, session_permutations.length ^ (n - c.size))) := by
  have hrec : (generate_schedules n session_permutations b c).recorded =
      (iterations_skipped session_permutations.length n c.size).map
        (fun skipped => (0, skipped)) := by
    simp [generate_schedules, h]
  refine ⟨by simp [generate_schedules, h], by simp [generate_schedules, h],
    by simp [generate_schedules, h], hrec, ?_, ?_, ?_⟩
  · intro r hr
    rw [hrec] at hr
    cases hi : iterations_skipped session_permutations.length n c.size with
    | none => rw [hi] at hr; exact absurd hr (by simp)
    | some v =>
      rw [hi] at hr
      simp only [Option.map_some', Option.some.injEq] at hr
      rw [← hr]
  · intro h1 h2 h3 h4
    obtain ⟨skipped, hskipped⟩ := iterations_skipped_finite _ _ _ h1 h2 h3 h4
    exact ⟨skipped, by rw [hrec, hskipped]; rfl⟩
  · intro h1 h2 h3 h4
    rw [hrec, iterations_skipped_exact _ _ _ h1 h2 h3 h4]
    rfl

/-- An instance of C5: a candidate of two sessions with 7 conflicts against the initial
min_schedule of 7 conflicts. -/
theorem generate_schedules_prunes_witness :
    (generate_schedules NUM_SESSIONS [Session.empty] (Schedule.with_conflicts 7)
        ⟨[Session.empty, Session.empty], 7, [], []⟩).min_schedule = Schedule.with_conflicts 7 ∧
    (generate_schedules NUM_SESSIONS [Session.empty] (Schedule.with_conflicts 7)
        ⟨[Session.empty, Session.empty], 7, [], []⟩).enqueued = [] ∧
    (generate_schedules NUM_SESSIONS [Session.empty] (Schedule.with_conflicts 7)
        ⟨[Session.empty, Session.empty], 7, [], []⟩).printed = none ∧
    (generate_schedules NUM_SESSIONS [Session.empty] (Schedule.with_conflicts 7)
        ⟨[Session.empty, Session.empty], 7, [], []⟩).recorded = some (0, 1 ^ (6 - 2)) :=
  ⟨(generate_schedules_prunes NUM_SESSIONS [Session.empty] (Schedule.with_conflicts 7)
      ⟨[Session.empty, Session.empty], 7, [], []⟩ (by decide)).1,
    (generate_schedules_prunes NUM_SESSIONS [Session.empty] (Schedule.with_conflicts 7)
      ⟨[Session.empty, Session.empty], 7, [], []⟩ (by decide)).2.1,
    (generate_schedules_prunes NUM_SESSIONS [Session.empty] (Schedule.with_conflicts 7)
      ⟨[Session.empty, Session.empty], 7, [], []⟩ (by decide)).2.2.1,
    (generate_schedules_prunes NUM_SESSIONS [Session.empty] (Schedule.with_conflicts 7)
      ⟨[Session.empty, Session.empty], 7, [], []⟩ (by decide)).2.2.2.2.2.2
      (by decide) (by decide) (by decide) (by decide)⟩

theorem generate_schedules_cases (n : Nat) (perms : List Session) (b c : Schedule) :
    ((generate_schedules n perms b c).min_schedule = b ∧
      (generate_schedules n perms b c).printed = none) ∨
    ((generate_schedules n perms b c).min_schedule = c ∧
      (generate_schedules n perms b c).printed = some c ∧
      c.size = n ∧ c.conflicts < b.conflicts) := by
  unfold generate_schedules
  by_cases h1 : c.conflicts ≥ b.conflicts
  · simp [h1]
  · by_cases h2 : c.complete n = true
    · right
      have h3 : c.size = n := by simpa [Schedule.complete] using h2
      simp [h1, h2, h3]
      omega
    · simp [h1, h2]

theorem search_run_task_cases {n : Nat} {perms : List Session} {st st2 : Search}
    {rest : List Task} {t : Task} (h : Search.run_task n perms st rest t = some st2) :
    (st2.min_schedule = st.min_schedule ∧ st2.printed = st.printed) ∨
    (st2.printed = st.printed ++ [st2.min_schedule] ∧ st2.min_schedule.size = n ∧
      st2.min_schedule.conflicts < st.min_schedule.conflicts) := by
  unfold Search.run_task at h
  cases hs : t.schedule_of n with
  | none => simp [hs] at h
  | some c =>
    simp only [hs] at h
    rcases generate_schedules_cases n perms st.min_schedule c with ⟨e1, e2⟩ | ⟨e1, e2, e3, e4⟩
    · left
      rw [e1, e2] at h
      cases hrec : (generate_schedules n perms st.min_schedule c).recorded with
      | none =>
        rw [hrec] at h
        injection h with h
        subst h
        exact ⟨rfl, rfl⟩
      | some r =>
        rw [hrec] at h
        obtain ⟨r1, r2⟩ := r
        simp only at h
        cases hu : update_iterations st.counters r1 r2 with
        | none => simp [hu] at h
        | some k =>
          rw [hu] at h
          injection h with h
          subst h
          exact ⟨rfl, rfl⟩
    · right
      rw [e1, e2] at h
      cases hrec : (generate_schedules n perms st.min_schedule c).recorded with
      | none =>
        rw [hrec] at h
        injection h with h
        subst h
        exact ⟨rfl, e3, e4⟩
      | some r =>
        rw [hrec] at h
        obtain ⟨r1, r2⟩ := r
        simp only at h
        cases hu : update_iterations st.counters r1 r2 with
        | none => simp [hu] at h
        | some k =>
          rw [hu] at h
          injection h with h
          subst h
          exact ⟨rfl, e3, e4⟩

theorem search_step_cases {n : Nat} {perms : List Session} {st st2 : Search}
    (h : Search.Step n perms st st2) :
    (st2.min_schedule = st.min_schedule ∧ st2.printed = st.printed) ∨
    (st2.printed = st.printed ++ [st2.min_schedule] ∧ st2.min_schedule.size = n ∧
      st2.min_schedule.conflicts < st.min_schedule.conflicts) := by
  cases h with
  | run before after t hq hr => exact search_run_task_cases hr

theorem search_steps_improve {n : Nat} {perms : List Session} {st st2 : Search}
    (h : Search.Steps n perms st st2) :
    st2.min_schedule.conflicts ≤ st.min_schedule.conflicts ∧
    ∃ new_results : List Schedule, st2.printed = st.printed ++ new_results ∧
      new_results.Pairwise (fun x y => y.conflicts < x.conflicts) ∧
      (∀ x ∈ new_results, x.size = n ∧ x.conflicts < st.min_schedule.conflicts ∧
        st2.min_schedule.conflicts ≤ x.conflicts) ∧
      (new_results = [] → st2.min_schedule = st.min_schedule) ∧
      (∀ x, new_results.getLast? = some x → st2.min_schedule = x) := by
  induction h with
  | refl => exact ⟨le_refl _, [], by simp, List.Pairwise.nil, by simp, fun _ => rfl, by simp⟩
  | tail st2 st3 _ h2 ih =>
    obtain ⟨hle, new_results, hp, hpw, hall, hnil, hlast⟩ := ih
    rcases search_step_cases h2 with ⟨e1, e2⟩ | ⟨e1, e2, e3⟩
    · refine ⟨by rw [e1]; exact hle, new_results, by rw [e2, hp], hpw, ?_, ?_, ?_⟩
      · intro x hx
        rw [e1]
        exact hall x hx
      · intro h0
        rw [e1]
        exact hnil h0
      · intro x hx
        rw [e1]
        exact hlast x hx
    · refine ⟨by omega, new_results ++ [st3.min_schedule], ?_, ?_, ?_, by simp, by simp⟩
      · rw [e1, hp, List.append_assoc]
      · rw [List.pairwise_append]
        refine ⟨hpw, List.pairwise_singleton _ _, ?_⟩
        intro x hx y hy
        rw [List.mem_singleton] at hy
        subst hy
        have := (hall x hx).2.2
        omega
      · intro x hx
        rw [List.mem_append, List.mem_singleton] at hx
        rcases hx with hx | hx
        · have := hall x hx
          exact ⟨this.1, this.2.1, by omega⟩
        · subst hx
          exact ⟨e2, by omega, le_refl _⟩

/-- C6: the best result only improves.  Along any run of the search, from any state: every
single step either leaves min_schedule as it is, or assigns to it a complete schedule with
strictly fewer conflicts than the value it replaces, and prints that schedule; hence the
conflicts of min_schedule never increase, the schedules printed during the run are complete,
have strictly decreasing conflicts, all below those of the initial min_schedule, and the last
one printed is the final min_schedule. -/
theorem best_result_only_improves (n : Nat) (session_permutations : List Session)
    (st st2 : Search) (h : Search.Steps n session_permutations st st2) :
    (∀ sa sb, Search.Steps n session_permutations st sa →
      Search.Step n session_permutations sa sb →
      (sb.min_schedule = sa.min_schedule ∧ sb.printed = sa.printed) ∨
      (sb.min_schedule.size = n ∧ sb.min_schedule.conflicts < sa.min_schedule.conflicts ∧
        sb.printed = sa.printed ++ [sb.min_schedule])) ∧
    st2.min_schedule.conflicts ≤ st.min_schedule.conflicts ∧
    ∃ new_results : List Schedule, st2.printed = st.printed ++ new_results ∧
      new_results.Pairwise (fun x y => y.conflicts < x.conflicts) ∧
      (∀ x ∈ new_results, x.size = n ∧ x.conflicts < st.min_schedule.conflicts) ∧
      (new_results = [] → st2.min_schedule = st.min_schedule) ∧
      (∀ x, new_results.getLast? = some x → st2.min_schedule = x) := by
  refine ⟨?_, ?_⟩
  · intro sa sb _ hstep
    rcases search_step_cases hstep with h1 | ⟨e1, e2, e3⟩
    · exact Or.inl h1
    · exact Or.inr ⟨e2, e3, e1⟩
  · obtain ⟨hle, new_results, hp, hpw, hall, hnil, hlast⟩ := search_steps_improve h
    exact ⟨hle, new_results, hp, hpw, fun x hx => ⟨(hall x hx).1, (hall x hx).2.1⟩, hnil, hlast⟩

/-- An instance of C6: the run of the search for one session over the single empty session,
which installs the schedule of that session with 0 conflicts. -/
theorem best_result_only_improves_witness :
    Search.Steps 1 [Session.empty] (Search.init (Schedule.with_conflicts 7))
      ⟨⟨[Session.empty], 0, [], []⟩, [], [⟨[Session.empty], 0, [], []⟩], ⟨1, 1, 0, 0, []⟩⟩ ∧
    (0 : Nat) ≤ 7 ∧
    ∃ new_results : List Schedule,
      [(⟨[Session.empty], 0, [], []⟩ : Schedule)] = [] ++ new_results ∧
      new_results.Pairwise (fun x y => y.conflicts < x.conflicts) ∧
      (∀ x ∈ new_results, x.size = 1 ∧ x.conflicts < 7) ∧
      (new_results = [] → (⟨[Session.empty], 0, [], []⟩ : Schedule) = Schedule.with_conflicts 7) ∧
      (∀ x, new_results.getLast? = some x → (⟨[Session.empty], 0, [], []⟩ : Schedule) = x) :=
  have hsteps : Search.Steps 1 [Session.empty] (Search.init (Schedule.with_conflicts 7))
      ⟨⟨[Session.empty], 0, [], []⟩, [], [⟨[Session.empty], 0, [], []⟩], ⟨1, 1, 0, 0, []⟩⟩ :=
    Search.Steps.tail _ ⟨Schedule.with_conflicts 7, [Task.child Schedule.empty Session.empty], [],
        Counters.init⟩ _
      (Search.Steps.tail _ _ _ (Search.Steps.refl _)
        (Search.Step.run _ _ [] [] (Task.root Schedule.empty) rfl rfl))
      (Search.Step.run _ _ [] [] (Task.child Schedule.empty Session.empty) rfl rfl)
  ⟨hsteps, (best_result_only_improves 1 [Session.empty] _ _ hsteps).2⟩

/-! ## Properties: unordered sets and add_session -/

theorem uset_count_le_one {α : Type} (eq : α → α → Bool) (s : List α) (x : α) :
    USet.count eq s x ≤ 1 := by
  unfold USet.count
  split <;> simp

theorem uset_count_ne_zero {α : Type} (eq : α → α → Bool) (s : List α) (x : α) :
    USet.count eq s x ≠ 0 ↔ ∃ y ∈ s, eq y x = true := by
  unfold USet.count
  split
  · rename_i h
    simpa using h
  · rename_i h
    simpa using h

theorem uset_count_eq_one {α : Type} (eq : α → α → Bool) (s : List α) (x : α) :
    USet.count eq s x = 1 ↔ ∃ y ∈ s, eq y x = true := by
  rw [← uset_count_ne_zero]
  have := uset_count_le_one eq s x
  omega

theorem uset_count_insert {α : Type} (eq : α → α → Bool)
    (htrans : ∀ a b c, eq a b = true → eq b c = true → eq a c = true)
    (s : List α) (x y : α) :
    USet.count eq (USet.insert eq s x) y = if eq x y = true then 1 else USet.count eq s y := by
  by_cases hxy : eq x y = true
  · rw [if_pos hxy, uset_count_eq_one]
    unfold USet.insert
    split
    · rename_i h
      rw [List.any_eq_true] at h
      obtain ⟨z, hz, hzx⟩ := h
      exact ⟨z, hz, htrans z x y hzx hxy⟩
    · exact ⟨x, List.mem_cons_self _ _, hxy⟩
  · rw [if_neg hxy]
    unfold USet.insert
    split
    · rfl
    · unfold USet.count
      simp [hxy]

theorem facilitator_eq_trans (a b c : Facilitator) (h1 : Facilitator.eq a b = true)
    (h2 : Facilitator.eq b c = true) : Facilitator.eq a c = true := by
  rw [facilitator_eq_iff] at *
  exact h1.trans h2

theorem pair_eq_trans3 (a b c : Pair) (h1 : Pair.eq a b = true) (h2 : Pair.eq b c = true) :
    Pair.eq a c = true := pair_eq_trans h1 h2

theorem facilitators_of_set (fa : List (Activity × List Facilitator)) (a b : Activity)
    (fs : List Facilitator) :
    Schedule.facilitators_of (Schedule.set_facilitators fa a fs) b =
      if b = a then fs else Schedule.facilitators_of fa b := by
  unfold Schedule.set_facilitators
  split
  · rename_i hany
    induction fa with
    | nil => simp at hany
    | cons e rest ih =>
      by_cases he : e.1 = a
      · by_cases hb : b = a
        · simp [Schedule.facilitators_of, he, hb]
        · have hab : ¬ a = b := fun h => hb h.symm
          simp only [List.map_cons, he, if_true, Schedule.facilitators_of, hab, if_false, hb]
          by_cases hr : rest.any (fun e => decide (e.1 = a)) = true
          · have := ih hr
            simp only [hb, if_false] at this
            exact this
          · have hmap : rest.map (fun e => if e.1 = a then (a, fs) else e) = rest := by
              rw [List.any_eq_true] at hr
              push_neg at hr
              conv_rhs => rw [← List.map_id rest]
              apply List.map_congr_left
              intro x hx
              have := hr x hx
              simp at this
              simp [this]
            rw [hmap]
      · have hr : rest.any (fun e => decide (e.1 = a)) = true := by
          simpa [he] using hany
        have := ih hr
        simp only [List.map_cons, he, if_false, Schedule.facilitators_of]
        by_cases heb : e.1 = b
        · have hb : ¬ b = a := fun h => he (heb.trans h)
          simp [heb, hb]
        · simp only [heb, if_false]
          exact this
  · by_cases hb : b = a
    · simp [Schedule.facilitators_of, hb]
    · have hab : ¬ a = b := fun h => hb h.symm
      simp [Schedule.facilitators_of, hb, hab]

theorem add_entry_empty (c : Schedule) (e : Activity × Pair) (h : e.2.is_empty_pair = true) :
    Schedule.add_entry c e = c := by
  simp [Schedule.add_entry, h]

theorem add_entry_sessions (c : Schedule) (e : Activity × Pair) :
    (Schedule.add_entry c e).sessions = c.sessions := by
  unfold Schedule.add_entry
  split <;> rfl

theorem add_entry_conflicts (c : Schedule) (e : Activity × Pair) :
    (Schedule.add_entry c e).conflicts % UINT_SIZE =
      (c.conflicts + entry_conflicts c e) % UINT_SIZE := by
  unfold Schedule.add_entry entry_conflicts
  split
  · simp
  · have h1 := uset_count_le_one Pair.eq c.selected_pairings e.2
    have h2 := uset_count_le_one Facilitator.eq
      (Schedule.facilitators_of c.facilitator_activities e.1) e.2.first
    have h3 := uset_count_le_one Facilitator.eq
      (Schedule.facilitators_of c.facilitator_activities e.1) e.2.second
    simp only [uint_incr, UINT_SIZE]
    split <;> split <;> split <;> omega

theorem add_entry_conflicts_lt (c : Schedule) (e : Activity × Pair)
    (hc : c.conflicts < UINT_SIZE) : (Schedule.add_entry c e).conflicts < UINT_SIZE := by
  unfold Schedule.add_entry
  split
  · exact hc
  · simp only [uint_incr, UINT_SIZE] at *
    split <;> split <;> split <;> omega

theorem add_entry_selected (c : Schedule) (e : Activity × Pair) (q : Pair) :
    USet.count Pair.eq (Schedule.add_entry c e).selected_pairings q =
      if e.2.is_empty_pair = false ∧ Pair.eq e.2 q = true then 1
      else USet.count Pair.eq c.selected_pairings q := by
  unfold Schedule.add_entry
  by_cases he : e.2.is_empty_pair = true
  · simp [he]
  · rw [if_neg he]
    simp only []
    rw [uset_count_insert Pair.eq pair_eq_trans3]
    simp [he]

theorem add_entry_facilitators (c : Schedule) (e : Activity × Pair) (b : Activity)
    (f : Facilitator) :
    USet.count Facilitator.eq
        (Schedule.facilitators_of (Schedule.add_entry c e).facilitator_activities b) f =
      if e.2.is_empty_pair = false ∧ e.1 = b ∧ (e.2.first = f ∨ e.2.second = f) then 1
      else USet.count Facilitator.eq (Schedule.facilitators_of c.facilitator_activities b) f := by
  unfold Schedule.add_entry
  by_cases he : e.2.is_empty_pair = true
  · simp [he]
  · rw [if_neg he]
    simp only []
    rw [facilitators_of_set]
    by_cases hb : b = e.1
    · subst hb
      simp only [if_true, true_and]
      rw [uset_count_insert Facilitator.eq facilitator_eq_trans,
        uset_count_insert Facilitator.eq facilitator_eq_trans]
      simp only [facilitator_eq_iff]
      have he2 : e.2.is_empty_pair = false := by simpa using he
      by_cases h2 : e.2.second = f
      · simp [h2, he2]
      · by_cases h1 : e.2.first = f
        · simp [h1, h2, he2]
        · simp [h1, h2]
    · have hb2 : ¬ e.1 = b := fun h => hb h.symm
      simp [hb, hb2]

theorem add_entry_selected_iff (c : Schedule) (e : Activity × Pair) (q : Pair) :
    USet.count Pair.eq (Schedule.add_entry c e).selected_pairings q = 1 ↔
      USet.count Pair.eq c.selected_pairings q = 1 ∨
      (e.2.is_empty_pair = false ∧ Pair.eq e.2 q = true) := by
  rw [add_entry_selected]
  split
  · rename_i h
    simp [h]
  · rename_i h
    simp [h]

theorem add_entry_facilitators_iff (c : Schedule) (e : Activity × Pair) (b : Activity)
    (f : Facilitator) :
    USet.count Facilitator.eq
        (Schedule.facilitators_of (Schedule.add_entry c e).facilitator_activities b) f = 1 ↔
      USet.count Facilitator.eq (Schedule.facilitators_of c.facilitator_activities b) f = 1 ∨
      (e.2.is_empty_pair = false ∧ e.1 = b ∧ (e.2.first = f ∨ e.2.second = f)) := by
  rw [add_entry_facilitators]
  split
  · rename_i h
    simp [h]
  · rename_i h
    simp [h]

theorem fold_add_entry_sessions (es : List (Activity × Pair)) (c : Schedule) :
    (es.foldl Schedule.add_entry c).sessions = c.sessions := by
  induction es generalizing c with
  | nil => rfl
  | cons e rest ih => rw [List.foldl_cons, ih, add_entry_sessions]

theorem fold_add_entry_selected (es : List (Activity × Pair)) (c : Schedule) (q : Pair) :
    USet.count Pair.eq (es.foldl Schedule.add_entry c).selected_pairings q = 1 ↔
      USet.count Pair.eq c.selected_pairings q = 1 ∨
      ∃ e ∈ es, e.2.is_empty_pair = false ∧ Pair.eq e.2 q = true := by
  induction es generalizing c with
  | nil => simp
  | cons e rest ih =>
    rw [List.foldl_cons, ih, add_entry_selected_iff]
    constructor
    · rintro ((h | h) | ⟨x, hx, h⟩)
      · exact Or.inl h
      · exact Or.inr ⟨e, List.mem_cons_self _ _, h⟩
      · exact Or.inr ⟨x, List.mem_cons_of_mem _ hx, h⟩
    · rintro (h | ⟨x, hx, h⟩)
      · exact Or.inl (Or.inl h)
      · rcases List.mem_cons.1 hx with hx | hx
        · subst hx
          exact Or.inl (Or.inr h)
        · exact Or.inr ⟨x, hx, h⟩

theorem fold_add_entry_facilitators (es : List (Activity × Pair)) (c : Schedule) (b : Activity)
    (f : Facilitator) :
    USet.count Facilitator.eq
        (Schedule.facilitators_of (es.foldl Schedule.add_entry c).facilitator_activities b) f = 1 ↔
      USet.count Facilitator.eq (Schedule.facilitators_of c.facilitator_activities b) f = 1 ∨
      ∃ e ∈ es, e.2.is_empty_pair = false ∧ e.1 = b ∧ (e.2.first = f ∨ e.2.second = f) := by
  induction es generalizing c with
  | nil => simp
  | cons e rest ih =>
    rw [List.foldl_cons, ih, add_entry_facilitators_iff]
    constructor
    · rintro ((h | h) | ⟨x, hx, h⟩)
      · exact Or.inl h
      · exact Or.inr ⟨e, List.mem_cons_self _ _, h⟩
      · exact Or.inr ⟨x, List.mem_cons_of_mem _ hx, h⟩
    · rintro (h | ⟨x, hx, h⟩)
      · exact Or.inl (Or.inl h)
      · rcases List.mem_cons.1 hx with hx | hx
        · subst hx
          exact Or.inl (Or.inr h)
        · exact Or.inr ⟨x, hx, h⟩

theorem fold_add_entry_conflicts_lt (es : List (Activity × Pair)) (c : Schedule)
    (hc : c.conflicts < UINT_SIZE) : (es.foldl Schedule.add_entry c).conflicts < UINT_SIZE := by
  induction es generalizing c with
  | nil => exact hc
  | cons e rest ih =>
    rw [List.foldl_cons]
    exact ih _ (add_entry_conflicts_lt c e hc)

theorem entry_conflicts_frame (c : Schedule) (e x : Activity × Pair) (hk : e.1 ≠ x.1)
    (hd : e.2.is_empty_pair = false → x.2.is_empty_pair = false → Pair.ne e.2 x.2 = true) :
    entry_conflicts (Schedule.add_entry c e) x = entry_conflicts c x := by
  unfold entry_conflicts
  by_cases hx : x.2.is_empty_pair = true
  · simp [hx]
  · rw [if_neg hx, if_neg hx, add_entry_selected, add_entry_facilitators, add_entry_facilitators]
    have hx2 : x.2.is_empty_pair = false := by simpa using hx
    have h1 : ¬ (e.2.is_empty_pair = false ∧ Pair.eq e.2 x.2 = true) := by
      rintro ⟨h, h2⟩
      have := hd h hx2
      simp [Pair.ne, h2] at this
    simp [h1, hk]

theorem fold_add_entry_conflicts (es : List (Activity × Pair)) (c : Schedule)
    (hk : (es.map Prod.fst).Nodup)
    (hd : es.Pairwise (fun e1 e2 =>
      e1.2.is_empty_pair = false → e2.2.is_empty_pair = false → Pair.ne e1.2 e2.2 = true)) :
    (es.foldl Schedule.add_entry c).conflicts % UINT_SIZE =
      (c.conflicts + (es.map (entry_conflicts c)).sum) % UINT_SIZE := by
  induction es generalizing c with
  | nil => simp
  | cons e rest ih =>
    rw [List.map_cons, List.nodup_cons] at hk
    rw [List.pairwise_cons] at hd
    rw [List.foldl_cons, ih _ hk.2 hd.2]
    have hframe : rest.map (entry_conflicts (Schedule.add_entry c e)) =
        rest.map (entry_conflicts c) := by
      apply List.map_congr_left
      intro x hx
      apply entry_conflicts_frame
      · intro h
        exact hk.1 (by rw [h]; exact List.mem_map_of_mem _ hx)
      · exact hd.1 x hx
    rw [hframe, List.map_cons, List.sum_cons]
    have h1 := add_entry_conflicts c e
    simp only [UINT_SIZE] at *
    omega

theorem stays_available_iff (selected p : Pair) :
    stays_available selected p = true ↔
      p.contains selected.first = false ∧ p.contains selected.second = false ∧
      ¬ (selected.is_junior_pairing = true ∧ p.is_junior_pairing = true) := by
  unfold stays_available
  cases p.contains selected.first <;> cases p.contains selected.second <;>
    cases selected.is_junior_pairing <;> cases p.is_junior_pairing <;> simp

theorem stays_available_self (p : Pair) : stays_available p p = false := by
  have : p.contains p.first = true := (pair_contains_iff _ _).2 (Or.inl rfl)
  simp [stays_available, this]

theorem stays_available_congr {selected p q : Pair} (h : Pair.eq p q = true) :
    stays_available selected p = stays_available selected q := by
  unfold stays_available
  rw [pair_contains_congr h, pair_contains_congr h, pair_is_junior_pairing_congr h]

theorem stays_available_compatible {selected p : Pair}
    (h : stays_available selected p = true) : Pair.compatible selected p := by
  rw [stays_available_iff] at h
  refine ⟨?_, h.2.2⟩
  rintro f ⟨h1, h2⟩
  rw [pair_contains_iff] at h1
  rcases h1 with h1 | h1
  · rw [h1, h2] at h
    exact absurd h.1 (by simp)
  · rw [h1, h2] at h
    exact absurd h.2.1 (by simp)

theorem compatible_stays_available {selected p : Pair} (h : Pair.compatible selected p) :
    stays_available selected p = true := by
  rw [stays_available_iff]
  refine ⟨?_, ?_, h.2⟩
  · have := h.1 selected.first
    have h1 : selected.contains selected.first = true := (pair_contains_iff _ _).2 (Or.inl rfl)
    cases hc : p.contains selected.first
    · rfl
    · exact absurd ⟨h1, hc⟩ this
  · have := h.1 selected.second
    have h1 : selected.contains selected.second = true := (pair_contains_iff _ _).2 (Or.inr rfl)
    cases hc : p.contains selected.second
    · rfl
    · exact absurd ⟨h1, hc⟩ this

theorem compatible_symm {p q : Pair} (h : Pair.compatible p q) : Pair.compatible q p :=
  ⟨fun f hf => h.1 f ⟨hf.2, hf.1⟩, fun hj => h.2 ⟨hj.2, hj.1⟩⟩

theorem compatible_congr {p q r : Pair} (h : Pair.compatible p q) (hqr : Pair.eq q r = true) :
    Pair.compatible p r := by
  refine ⟨?_, ?_⟩
  · intro f hf
    rw [← pair_contains_congr hqr] at hf
    exact h.1 f hf
  · intro hj
    rw [← pair_is_junior_pairing_congr hqr] at hj
    exact h.2 hj

theorem generate_possible_pairings_eq (selected : Pair) (possible : List Pair) :
    generate_possible_pairings selected possible =
      possible.foldl (fun remaining p =>
        if stays_available selected p = true then USet.insert Pair.eq remaining p
        else remaining) [] := by
  unfold generate_possible_pairings
  congr 1
  funext remaining p
  unfold stays_available
  cases p.contains selected.first <;> cases p.contains selected.second <;>
    cases selected.is_junior_pairing <;> cases p.is_junior_pairing <;> simp

theorem uset_insert_mem {α : Type} (eq : α → α → Bool) (s : List α) (x y : α)
    (h : y ∈ USet.insert eq s x) : y ∈ s ∨ y = x := by
  unfold USet.insert at h
  split at h
  · exact Or.inl h
  · rcases List.mem_cons.1 h with h | h
    · exact Or.inr h
    · exact Or.inl h

theorem uset_insert_subset {α : Type} (eq : α → α → Bool) (s : List α) (x y : α)
    (h : y ∈ s) : y ∈ USet.insert eq s x := by
  unfold USet.insert
  split
  · exact h
  · exact List.mem_cons_of_mem _ h

theorem uset_insert_length {α : Type} (eq : α → α → Bool) (s : List α) (x : α) :
    (USet.insert eq s x).length ≤ s.length + 1 := by
  unfold USet.insert
  split <;> simp

theorem uset_insert_has {α : Type} (eq : α → α → Bool) (hrefl : ∀ a, eq a a = true)
    (s : List α) (x : α) : ∃ y ∈ USet.insert eq s x, eq y x = true := by
  unfold USet.insert
  split
  · rename_i h
    rw [List.any_eq_true] at h
    exact h
  · exact ⟨x, List.mem_cons_self _ _, hrefl x⟩

theorem filter_fold_spec (keep : Pair → Bool) (possible acc : List Pair) :
    (∀ x ∈ possible.foldl (fun remaining p =>
        if keep p = true then USet.insert Pair.eq remaining p else remaining) acc,
      x ∈ acc ∨ (x ∈ possible ∧ keep x = true)) ∧
    (possible.foldl (fun remaining p =>
        if keep p = true then USet.insert Pair.eq remaining p else remaining) acc).length ≤
      acc.length + (possible.filter keep).length ∧
    (∀ x ∈ acc, x ∈ possible.foldl (fun remaining p =>
        if keep p = true then USet.insert Pair.eq remaining p else remaining) acc) ∧
    (∀ p ∈ possible, keep p = true → ∃ x ∈ possible.foldl (fun remaining p =>
        if keep p = true then USet.insert Pair.eq remaining p else remaining) acc,
      Pair.eq x p = true) := by
  induction possible generalizing acc with
  | nil => simp
  | cons p rest ih =>
    rw [List.foldl_cons]
    by_cases hk : keep p = true
    · rw [if_pos hk]
      obtain ⟨i1, i2, i3, i4⟩ := ih (USet.insert Pair.eq acc p)
      refine ⟨?_, ?_, ?_, ?_⟩
      · intro x hx
        rcases i1 x hx with h | ⟨h, h2⟩
        · rcases uset_insert_mem _ _ _ _ h with h | h
          · exact Or.inl h
          · exact Or.inr ⟨by rw [h]; exact List.mem_cons_self _ _, by rw [h]; exact hk⟩
        · exact Or.inr ⟨List.mem_cons_of_mem _ h, h2⟩
      · have := uset_insert_length Pair.eq acc p
        rw [List.filter_cons_of_pos hk, List.length_cons]
        omega
      · intro x hx
        exact i3 x (uset_insert_subset _ _ _ _ hx)
      · intro q hq hkq
        rcases List.mem_cons.1 hq with hq | hq
        · subst hq
          obtain ⟨y, hy, hyq⟩ := uset_insert_has Pair.eq pair_eq_self acc q
          exact ⟨y, i3 y hy, hyq⟩
        · exact i4 q hq hkq
    · rw [if_neg hk]
      obtain ⟨i1, i2, i3, i4⟩ := ih acc
      refine ⟨?_, ?_, i3, ?_⟩
      · intro x hx
        rcases i1 x hx with h | ⟨h, h2⟩
        · exact Or.inl h
        · exact Or.inr ⟨List.mem_cons_of_mem _ h, h2⟩
      · rw [List.filter_cons_of_neg hk]
        exact i2
      · intro q hq hkq
        rcases List.mem_cons.1 hq with hq | hq
        · subst hq
          exact absurd hkq hk
        · exact i4 q hq hkq

theorem generate_possible_pairings_mem {selected : Pair} {possible : List Pair} {x : Pair}
    (h : x ∈ generate_possible_pairings selected possible) :
    x ∈ possible ∧ stays_available selected x = true := by
  rw [generate_possible_pairings_eq] at h
  rcases (filter_fold_spec (stays_available selected) possible []).1 x h with h | h
  · simp at h
  · exact h

theorem generate_possible_pairings_has {selected : Pair} {possible : List Pair} {p : Pair}
    (hp : p ∈ possible) (hk : stays_available selected p = true) :
    ∃ x ∈ generate_possible_pairings selected possible, Pair.eq x p = true := by
  rw [generate_possible_pairings_eq]
  exact (filter_fold_spec (stays_available selected) possible []).2.2.2 p hp hk

theorem generate_possible_pairings_length {selected : Pair} {possible : List Pair}
    (h : selected ∈ possible) :
    (generate_possible_pairings selected possible).length < possible.length := by
  rw [generate_possible_pairings_eq]
  have h1 := (filter_fold_spec (stays_available selected) possible []).2.1
  have h2 : (possible.filter (stays_available selected)).length < possible.length := by
    rw [List.length_filter_lt_length_iff_exists]
    exact ⟨selected, h, by simp [stays_available_self]⟩
  simp only [List.length_nil] at h1
  omega

theorem lookup_none_of_not_mem (m : List (Activity × Pair)) (a : Activity)
    (h : a ∉ m.map Prod.fst) : Session.lookup m a = none := by
  induction m with
  | nil => rfl
  | cons e rest ih =>
    simp only [List.map_cons, List.mem_cons, not_or] at h
    have h1 : ¬ e.1 = a := fun h2 => h.1 h2.symm
    simp only [Session.lookup, h1, if_false]
    exact ih h.2

theorem lookup_some_mem (m : List (Activity × Pair)) (a : Activity) (p : Pair)
    (h : Session.lookup m a = some p) : (a, p) ∈ m := by
  induction m with
  | nil => simp [Session.lookup] at h
  | cons e rest ih =>
    simp only [Session.lookup] at h
    split at h
    · rename_i he
      injection h with h
      rw [← he, ← h]
      exact List.mem_cons_self _ _
    · exact List.mem_cons_of_mem _ (ih h)

theorem lookup_of_mem (m : List (Activity × Pair)) (a : Activity) (p : Pair)
    (hk : (m.map Prod.fst).Nodup) (h : (a, p) ∈ m) : Session.lookup m a = some p := by
  induction m with
  | nil => simp at h
  | cons e rest ih =>
    rw [List.map_cons, List.nodup_cons] at hk
    rcases List.mem_cons.1 h with h | h
    · subst h
      simp [Session.lookup]
    · have hne : ¬ e.1 = a := by
        intro he
        apply hk.1
        rw [he]
        exact List.mem_map_of_mem Prod.fst h
      simp only [Session.lookup, hne, if_false]
      exact ih hk.2 h

theorem getElem_not_mem_take (acts : List Activity) (hnd : acts.Nodup) (k i : Nat)
    (hk : k ≤ i) (hi : i < acts.length) : acts[i] ∉ acts.take k := by
  intro hmem
  rw [List.mem_take_iff_getElem] at hmem
  obtain ⟨j, hj, hje⟩ := hmem
  have hj1 : j < acts.length := by omega
  have hinj := List.nodup_iff_injective_getElem.1 hnd
  have := @hinj ⟨j, hj1⟩ ⟨i, hi⟩ hje
  simp at this
  omega

theorem filled_empty (acts : List Activity) : Session.filled acts 0 Session.empty := by
  simp [Session.filled, Session.empty]

theorem filled_size {acts : List Activity} {k : Nat} {s : Session}
    (h : Session.filled acts k s) : s.size = k := by
  have := congrArg List.length h.2.2
  simp only [List.length_map, List.length_reverse, List.length_take] at this
  unfold Session.size
  have := h.1
  omega

theorem filled_complete {acts : List Activity} {k : Nat} {s : Session}
    (h : Session.filled acts k s) : s.complete acts = true ↔ k = acts.length := by
  simp [Session.complete, filled_size h]

theorem filled_valid {acts : List Activity} (hnd : acts.Nodup) {k : Nat} {s : Session}
    (h : Session.filled acts k s) : s.valid := by
  unfold Session.valid
  rw [h.2.2, List.nodup_reverse]
  exact List.Nodup.sublist (List.take_sublist _ _) hnd

theorem skip_assigned_stop (acts : List Activity) (m : List (Activity × Pair)) (fuel i : Nat)
    (h : ∀ hi : i < acts.length, Session.lookup m acts[i] = none) :
    Session.skip_assigned acts m fuel i = i := by
  cases fuel with
  | zero => rfl
  | succ fuel =>
    unfold Session.skip_assigned
    by_cases hi : i < acts.length
    · rw [List.getElem?_eq_getElem hi]
      simp [h hi]
    · rw [List.getElem?_eq_none (by omega)]

theorem assign_pair_filled {acts : List Activity} (hnd : acts.Nodup) {k : Nat} {s : Session}
    (h : Session.filled acts k s) (hk : k < acts.length) (p : Pair) :
    s.assign_pair acts p = some (acts[k], ⟨(acts[k], p) :: s.entries, k + 1⟩) ∧
    Session.filled acts (k + 1) ⟨(acts[k], p) :: s.entries, k + 1⟩ := by
  obtain ⟨h1, h2, h3⟩ := h
  have hnot : acts[k] ∉ s.entries.map Prod.fst := by
    rw [h3, List.mem_reverse]
    exact getElem_not_mem_take acts hnd k k (le_refl _) hk
  have hstore : Session.store s.entries acts[k] p = (acts[k], p) :: s.entries := by
    unfold Session.store
    rw [lookup_none_of_not_mem _ _ hnot]
    rfl
  have hkeys : ((acts[k], p) :: s.entries).map Prod.fst = (acts.take (k + 1)).reverse := by
    rw [List.map_cons, h3, List.take_succ, List.getElem?_eq_getElem hk]
    simp only [Option.toList, List.reverse_append, List.reverse_cons, List.reverse_nil,
      List.nil_append, List.singleton_append]
  refine ⟨?_, by omega, rfl, hkeys⟩
  unfold Session.assign_pair
  rw [h2, List.getElem?_eq_getElem hk]
  simp only [hstore]
  rw [skip_assigned_stop]
  intro hi
  apply lookup_none_of_not_mem
  rw [hkeys, List.mem_reverse]
  exact getElem_not_mem_take acts hnd (k + 1) (k + 1) (le_refl _) hi

theorem free_activity_filled {acts : List Activity} (hnd : acts.Nodup) {k : Nat} {s : Session}
    (h : Session.filled acts k s) (hk : k < acts.length) (p : Pair) (idx : Nat) :
    Session.free_activity acts ⟨(acts[k], p) :: s.entries, idx⟩ acts[k] = s := by
  obtain ⟨h1, h2, h3⟩ := h
  have hnot : acts[k] ∉ s.entries.map Prod.fst := by
    rw [h3, List.mem_reverse]
    exact getElem_not_mem_take acts hnd k k (le_refl _) hk
  unfold Session.free_activity
  have hfind : (Session.find ⟨(acts[k], p) :: s.entries, idx⟩ acts[k]) = some p := by
    simp [Session.find, Session.lookup]
  rw [hfind]
  simp only [Option.isNone_some, Bool.false_eq_true, if_false]
  have herase : Session.erase ((acts[k], p) :: s.entries) acts[k] = s.entries := by
    unfold Session.erase
    rw [List.filter_cons_of_neg (by simp)]
    rw [List.filter_eq_self]
    intro e he
    have : e.1 ≠ acts[k] := by
      intro hh
      apply hnot
      rw [← hh]
      exact List.mem_map_of_mem Prod.fst he
    simpa using this
  rw [herase, List.indexOf_getElem hnd k hk]
  cases s
  simp only at h2
  rw [h2]

theorem generate_sessions_succ (acts : List Activity) (fuel : Nat) (possible : List Pair)
    (s : Session) (perms : List Session) :
    generate_sessions acts (fuel + 1) possible (s, perms) =
      if s.complete acts = true then some (s, USet.insert Session.eq perms s)
      else possible.foldlM (generate_sessions_body acts fuel possible) (s, perms) := by
  rw [generate_sessions]
  rfl

theorem session_eq_iff (s t : Session) :
    Session.eq s t = true ↔
      s.size = t.size ∧ ∀ e ∈ s.entries, ∃ q, t.find e.1 = some q ∧ Pair.eq e.2 q = true := by
  unfold Session.eq
  rw [Bool.and_eq_true, decide_eq_true_eq, List.all_eq_true]
  constructor
  · rintro ⟨h1, h2⟩
    refine ⟨h1, fun e he => ?_⟩
    have := h2 e he
    split at this
    · exact absurd this (by simp)
    · rename_i q hq
      exact ⟨q, hq, this⟩
  · rintro ⟨h1, h2⟩
    refine ⟨h1, fun e he => ?_⟩
    obtain ⟨q, hq, hqe⟩ := h2 e he
    rw [hq]
    exact hqe

theorem session_eq_refl (s : Session) (hv : s.valid) : Session.eq s s = true := by
  rw [session_eq_iff]
  refine ⟨rfl, fun e he => ⟨e.2, ?_, pair_eq_self _⟩⟩
  exact lookup_of_mem s.entries e.1 e.2 hv he

theorem session_eq_trans {x s t : Session} (h1 : Session.eq x s = true)
    (h2 : Session.eq s t = true) : Session.eq x t = true := by
  rw [session_eq_iff] at *
  refine ⟨h1.1.trans h2.1, fun e he => ?_⟩
  obtain ⟨q, hq, hqe⟩ := h1.2 e he
  obtain ⟨r, hr, hre⟩ := h2.2 (e.1, q) (lookup_some_mem _ _ _ hq)
  exact ⟨r, hr, pair_eq_trans hqe hre⟩

theorem session_insert_has (perms : List Session) (s : Session) (hv : s.valid) :
    ∃ y ∈ USet.insert Session.eq perms s, Session.eq y s = true := by
  unfold USet.insert
  split
  · rename_i h
    rw [List.any_eq_true] at h
    exact h
  · exact ⟨s, List.mem_cons_self _ _, session_eq_refl s hv⟩

theorem mem_drop_succ_ne (acts : List Activity) (hnd : acts.Nodup) (k : Nat)
    (hk : k < acts.length) (a : Activity) (ha : a ∈ acts.drop (k + 1)) : acts[k] ≠ a := by
  intro h
  have hd := List.disjoint_take_drop hnd (le_refl (k + 1))
  have h1 : acts[k] ∈ acts.take (k + 1) := by
    rw [List.mem_take_iff_getElem]
    exact ⟨k, by simp; omega, rfl⟩
  exact hd h1 (by rw [h]; exact ha)

theorem target_step {acts : List Activity} (hnd : acts.Nodup) {k : Nat} (hk : k < acts.length)
    {possible : List Pair} {s t : Session} (ht : Session.target acts k possible s t)
    {u q : Pair} (hq : t.find acts[k] = some q) (huq : Pair.eq u q = true) :
    Session.target acts (k + 1) (generate_possible_pairings u possible)
      ⟨(acts[k], u) :: s.entries, k + 1⟩ t := by
  obtain ⟨t1, t2, t3, t4⟩ := ht
  refine ⟨t1, ?_, ?_, t4⟩
  · intro e he
    rcases List.mem_cons.1 he with he | he
    · subst he
      exact ⟨q, hq, huq⟩
    · exact t2 e he
  · intro a ha
    have ha2 : a ∈ acts.drop k := by
      rw [List.drop_eq_getElem_cons hk]
      exact List.mem_cons_of_mem _ ha
    obtain ⟨q2, hq2, u2, hu2, hu2q⟩ := t3 a ha2
    refine ⟨q2, hq2, ?_⟩
    have hne := mem_drop_succ_ne acts hnd k hk a ha
    have hc : Pair.compatible q q2 := t4 _ _ _ _ hne hq hq2
    have hc2 : Pair.compatible u u2 := by
      have h1 : Pair.compatible q u2 := compatible_congr hc (by rw [pair_eq_comm]; exact hu2q)
      exact compatible_symm (compatible_congr (compatible_symm h1)
        (by rw [pair_eq_comm]; exact huq))
    obtain ⟨x, hx, hxe⟩ := generate_possible_pairings_has hu2 (compatible_stays_available hc2)
    exact ⟨x, hx, pair_eq_trans hxe hu2q⟩

theorem generate_sessions_loop (acts : List Activity) (hnd : acts.Nodup) (fuel : Nat)
    (possible : List Pair) (s : Session) (k : Nat) (hs : Session.filled acts k s)
    (hk : k < acts.length) (hfuel : possible.length ≤ fuel)
    (IH : ∀ possible2 s2 perms2, Session.filled acts (k + 1) s2 → possible2.length < fuel →
      ∃ perms3, generate_sessions acts fuel possible2 (s2, perms2) = some (s2, perms3) ∧
        enumerates acts (k + 1) possible2 s2 perms2 perms3) :
    ∀ (L : List Pair), (∀ u ∈ L, u ∈ possible) → ∀ perms,
      ∃ perms2, L.foldlM (generate_sessions_body acts fuel possible) (s, perms) =
          some (s, perms2) ∧
        (∀ x ∈ perms, x ∈ perms2) ∧
        (s.entries.Pairwise (fun e1 e2 => Pair.compatible e1.2 e2.2) →
          (∀ p ∈ possible, ∀ e ∈ s.entries, Pair.compatible e.2 p) →
          ∀ x ∈ perms2, x ∈ perms ∨
            (Session.sound acts x ∧ ∀ e ∈ x.entries, e ∈ s.entries ∨ e.2 ∈ possible)) ∧
        (∀ t, Session.target acts k possible s t →
          (∃ u ∈ L, ∃ q, t.find acts[k] = some q ∧ Pair.eq u q = true) →
          ∃ x ∈ perms2, Session.eq x t = true) := by
  intro L
  induction L with
  | nil =>
    intro _ perms
    refine ⟨perms, rfl, fun x hx => hx, fun _ _ x hx => Or.inl hx, ?_⟩
    rintro t _ ⟨u, hu, _⟩
    simp at hu
  | cons u rest ih =>
    intro hL perms
    have hu : u ∈ possible := hL u (List.mem_cons_self _ _)
    obtain ⟨ha, hs1⟩ := assign_pair_filled hnd hs hk u
    have hlen := generate_possible_pairings_length hu
    obtain ⟨perms1, hg, hmono1, hsound1, htarget1⟩ :=
      IH (generate_possible_pairings u possible) _ perms hs1 (by omega)
    have hbody : generate_sessions_body acts fuel possible (s, perms) u = some (s, perms1) := by
      unfold generate_sessions_body
      simp only [ha, hg]
      rw [free_activity_filled hnd hs hk]
    obtain ⟨perms2, hf, hmono2, hsound2, htarget2⟩ :=
      ih (fun v hv => hL v (List.mem_cons_of_mem _ hv)) perms1
    refine ⟨perms2, ?_, fun x hx => hmono2 x (hmono1 x hx), ?_, ?_⟩
    · rw [List.foldlM_cons, hbody]
      exact hf
    · intro hpw hcomp x hx
      rcases hsound2 hpw hcomp x hx with h | h
      · have hpw1 : List.Pairwise (fun e1 e2 : Activity × Pair => Pair.compatible e1.2 e2.2)
            ((acts[k], u) :: s.entries) := by
          rw [List.pairwise_cons]
          exact ⟨fun e he => compatible_symm (hcomp u hu e he), hpw⟩
        have hcomp1 : ∀ p ∈ generate_possible_pairings u possible,
            ∀ e ∈ ((acts[k], u) :: s.entries), Pair.compatible e.2 p := by
          intro p hp e he
          obtain ⟨hp1, hp2⟩ := generate_possible_pairings_mem hp
          rcases List.mem_cons.1 he with he | he
          · subst he
            exact stays_available_compatible hp2
          · exact hcomp p hp1 e he
        rcases hsound1 hpw1 hcomp1 x h with h2 | ⟨h2, h3⟩
        · exact Or.inl h2
        · refine Or.inr ⟨h2, fun e he => ?_⟩
          rcases h3 e he with h4 | h4
          · rcases List.mem_cons.1 h4 with h5 | h5
            · subst h5
              exact Or.inr hu
            · exact Or.inl h5
          · exact Or.inr (generate_possible_pairings_mem h4).1
      · exact Or.inr h
    · rintro t ht ⟨v, hv, q, hq, hvq⟩
      rcases List.mem_cons.1 hv with hv | hv
      · subst hv
        obtain ⟨x, hx, hxt⟩ := htarget1 t (target_step hnd hk ht hq hvq)
        exact ⟨x, hmono2 x hx, hxt⟩
      · exact htarget2 t ht ⟨v, hv, q, hq, hvq⟩

theorem generate_sessions_spec (acts : List Activity) (hnd : acts.Nodup) :
    ∀ (fuel : Nat) (possible : List Pair) (s : Session) (perms : List Session) (k : Nat),
      Session.filled acts k s → possible.length < fuel →
      ∃ perms2, generate_sessions acts fuel possible (s, perms) = some (s, perms2) ∧
        enumerates acts k possible s perms perms2 := by
  intro fuel
  induction fuel with
  | zero =>
    intro possible s perms k _ hlt
    omega
  | succ fuel ih =>
    intro possible s perms k hs hlt
    rw [generate_sessions_succ]
    by_cases hc : s.complete acts = true
    · rw [if_pos hc]
      have hk : k = acts.length := (filled_complete hs).1 hc
      refine ⟨_, rfl, fun x hx => uset_insert_subset _ _ _ _ hx, ?_, ?_⟩
      · intro hpw _ x hx
        rcases uset_insert_mem _ _ _ _ hx with h | h
        · exact Or.inl h
        · subst h
          refine Or.inr ⟨⟨?_, ?_, hpw⟩, fun e he => Or.inl he⟩
          · rw [hs.2.2, hk, List.take_length]
          · rw [hs.2.1, hk]
      · intro t ht
        obtain ⟨y, hy, hys⟩ := session_insert_has perms s (filled_valid hnd hs)
        refine ⟨y, hy, session_eq_trans hys ?_⟩
        rw [session_eq_iff]
        exact ⟨by rw [filled_size hs, hk, ht.1], ht.2.1⟩
    · rw [if_neg hc]
      have hk : k < acts.length := by
        have h1 := hs.1
        have h2 : k ≠ acts.length := fun h => hc ((filled_complete hs).2 h)
        omega
      obtain ⟨perms2, hf, hmono, hsound, htarget⟩ :=
        generate_sessions_loop acts hnd fuel possible s k hs hk (by omega)
          (fun possible2 s2 perms2 h1 h2 => ih possible2 s2 perms2 (k + 1) h1 h2)
          possible (fun u hu => hu) perms
      refine ⟨perms2, hf, hmono, hsound, ?_⟩
      intro t ht
      apply htarget t ht
      have hmem : acts[k] ∈ acts.drop k := by
        rw [List.drop_eq_getElem_cons hk]
        exact List.mem_cons_self _ _
      obtain ⟨q, hq, u, hu, huq⟩ := ht.2.2.1 _ hmem
      exact ⟨u, hu, q, hq, huq⟩

theorem sound_legal {acts : List Activity} (hnd : acts.Nodup) {x : Session}
    (h : Session.sound acts x) : Session.legal acts x := by
  obtain ⟨h1, h2, h3⟩ := h
  have hv : (x.entries.map Prod.fst).Nodup := by
    rw [h1, List.nodup_reverse]
    exact hnd
  have hcompat : ∀ a b p q, x.find a = some p → x.find b = some q → a ≠ b →
      Pair.compatible p q := by
    intro a b p q hp hq hab
    have hsymm : Symmetric (fun e1 e2 : Activity × Pair => Pair.compatible e1.2 e2.2) :=
      fun _ _ h => compatible_symm h
    exact h3.forall hsymm (lookup_some_mem _ _ _ hp) (lookup_some_mem _ _ _ hq)
      (fun he => hab (congrArg Prod.fst he))
  refine ⟨?_, ?_, ?_, ?_⟩
  · have := congrArg List.length h1
    simpa [Session.size] using this
  · intro a ha
    have hmem : a ∈ x.entries.map Prod.fst := by
      rw [h1, List.mem_reverse]
      exact ha
    rw [List.mem_map] at hmem
    obtain ⟨e, he, hea⟩ := hmem
    refine ⟨e.2, ?_⟩
    rw [← hea]
    exact lookup_of_mem _ _ _ hv he
  · intro a b p q hp hq hab
    exact (hcompat a b p q hp hq hab).1
  · intro a b p q hp hq hjp hjq
    by_contra hab
    exact (hcompat a b p q hp hq hab).2 ⟨hjp, hjq⟩

theorem activities_nodup : activities.Nodup := by decide

/-- C2: soundness of the enumerator.  For every set of pairings and every previous content of
session_permutations, generate_sessions started from the empty session returns, leaves the
session empty again, and every session it has inserted is complete (it has exactly
NUM_ACTIVITIES pairings, one for each label), has no facilitator in the pairings of two
different labels, and has at most one label with a junior-junior pairing. -/
theorem generate_sessions_sound (pairings : List Pair) (session_permutations : List Session) :
    ∃ perms, generate_sessions activities (pairings.length + 1) pairings
        (Session.empty, session_permutations) = some (Session.empty, perms) ∧
      ∀ x ∈ perms, x ∈ session_permutations ∨
        (x.complete activities = true ∧ x.size = NUM_ACTIVITIES ∧
          (∀ a ∈ activities, ∃ p, x.find a = some p) ∧
          (∀ a b p q, x.find a = some p → x.find b = some q → a ≠ b →
            ∀ f : Facilitator, ¬ (p.contains f = true ∧ q.contains f = true)) ∧
          (∀ a b p q, x.find a = some p → x.find b = some q →
            p.is_junior_pairing = true → q.is_junior_pairing = true → a = b)) := by
  obtain ⟨perms, hg, _, hsound, _⟩ :=
    generate_sessions_spec activities activities_nodup (pairings.length + 1) pairings
      Session.empty session_permutations 0 (filled_empty _) (by omega)
  refine ⟨perms, hg, fun x hx => ?_⟩
  rcases hsound (by simp [Session.empty]) (by simp [Session.empty]) x hx with h | ⟨h, _⟩
  · exact Or.inl h
  · obtain ⟨l1, l2, l3, l4⟩ := sound_legal activities_nodup h
    exact Or.inr ⟨by simp [Session.complete, l1], l1, l2, l3, l4⟩

theorem shares_member_compatible {p q : Pair} (h : Pair.shares_member p q = false) :
    ∀ f : Facilitator, ¬ (p.contains f = true ∧ q.contains f = true) := by
  rintro f ⟨h1, h2⟩
  unfold Pair.shares_member at h
  rw [Bool.or_eq_false_iff] at h
  rw [pair_contains_iff] at h1
  rcases h1 with h1 | h1
  · rw [h1, h2] at h
    exact absurd h.1 (by simp)
  · rw [h1, h2] at h
    exact absurd h.2 (by simp)

theorem filter_two_le {α : Type} (l : List α) (keep : α → Bool) (x y : α) (hx : x ∈ l)
    (hy : y ∈ l) (hxy : x ≠ y) (kx : keep x = true) (ky : keep y = true) :
    2 ≤ (l.filter keep).length := by
  have h1 : x ∈ l.filter keep := List.mem_filter.2 ⟨hx, kx⟩
  have h2 : y ∈ l.filter keep := List.mem_filter.2 ⟨hy, ky⟩
  match hl : l.filter keep with
  | [] => rw [hl] at h1; simp at h1
  | [z] =>
    rw [hl] at h1 h2
    simp only [List.mem_singleton] at h1 h2
    exact absurd (h1.trans h2.symm) hxy
  | _ :: _ :: _ => simp

/-- C3: completeness of the enumerator.  Let t be a complete session that has a pairing for
every label, each one a member of the set pairings, such that no facilitator (the empty one
included) is in the pairings of two different labels and at most one pairing is
junior-junior.  Then generate_sessions, started from the empty session and the empty set
session_permutations, returns, and t is in session_permutations afterwards. -/
theorem generate_sessions_complete (pairings : List Pair) (t : Session)
    (hc : t.complete activities = true)
    (hl : ∀ a ∈ activities, (t.find a).isSome = true)
    (hU : ∀ e ∈ t.entries, USet.count Pair.eq pairings e.2 = 1)
    (hd : ∀ e1 ∈ t.entries, ∀ e2 ∈ t.entries, e1.1 ≠ e2.1 →
      Pair.shares_member e1.2 e2.2 = false)
    (hj : (t.entries.filter (fun e => e.2.is_junior_pairing)).length ≤ 1) :
    ∃ perms, enumerate_sessions activities pairings = some perms ∧
      USet.count Session.eq perms t = 1 := by
  obtain ⟨perms, hg, _, _, htarget⟩ :=
    generate_sessions_spec activities activities_nodup (pairings.length + 1) pairings
      Session.empty [] 0 (filled_empty _) (by omega)
  refine ⟨perms, by simp [enumerate_sessions, hg], ?_⟩
  rw [uset_count_eq_one]
  apply htarget
  refine ⟨by simpa [Session.complete] using hc, by simp [Session.empty], ?_, ?_⟩
  · intro a ha
    rw [List.drop_zero] at ha
    have h1 := hl a ha
    rw [Option.isSome_iff_exists] at h1
    obtain ⟨q, hq⟩ := h1
    have h2 := hU (a, q) (lookup_some_mem _ _ _ hq)
    rw [uset_count_eq_one] at h2
    exact ⟨q, hq, h2⟩
  · intro a b p q hab hp hq
    have hpm := lookup_some_mem _ _ _ hp
    have hqm := lookup_some_mem _ _ _ hq
    refine ⟨shares_member_compatible (hd _ hpm _ hqm hab), ?_⟩
    rintro ⟨j1, j2⟩
    have := filter_two_le t.entries (fun e => e.2.is_junior_pairing) (a, p) (b, q) hpm hqm
      (fun he => hab (congrArg Prod.fst he)) j1 j2
    omega

/-- An instance of C3: the session example_session is enumerated from its own six pairings. -/
theorem generate_sessions_complete_witness :
    example_session.complete activities = true ∧
    (∀ a ∈ activities, (example_session.find a).isSome = true) ∧
    (∀ e ∈ example_session.entries,
      USet.count Pair.eq (example_session.entries.map Prod.snd) e.2 = 1) ∧
    (∀ e1 ∈ example_session.entries, ∀ e2 ∈ example_session.entries, e1.1 ≠ e2.1 →
      Pair.shares_member e1.2 e2.2 = false) ∧
    (example_session.entries.filter (fun e => e.2.is_junior_pairing)).length ≤ 1 ∧
    ∃ perms, enumerate_sessions activities (example_session.entries.map Prod.snd) = some perms ∧
      USet.count Session.eq perms example_session = 1 :=
  ⟨by decide, by decide, by decide, by decide, by decide,
    generate_sessions_complete (example_session.entries.map Prod.snd) example_session
      (by decide) (by decide) (by decide) (by decide) (by decide)⟩

/-! ## Properties: the set of pairings built by main -/

theorem uset_insert_key {α β : Type} [DecidableEq β] (eq : α → α → Bool) (key : α → β)
    (hkey : ∀ x y, eq x y = true ↔ key x = key y) (s : List α) (x : α)
    (hs : (s.map key).Nodup) :
    ((USet.insert eq s x).map key).Nodup ∧
    ((USet.insert eq s x).map key).toFinset = insert (key x) (s.map key).toFinset := by
  unfold USet.insert
  split
  · rename_i h
    rw [List.any_eq_true] at h
    obtain ⟨y, hy, hyx⟩ := h
    refine ⟨hs, ?_⟩
    have : key x ∈ (s.map key).toFinset := by
      rw [List.mem_toFinset, ← (hkey y x).1 hyx]
      exact List.mem_map_of_mem key hy
    rw [Finset.insert_eq_of_mem this]
  · rename_i h
    rw [List.any_eq_true] at h
    refine ⟨?_, by simp⟩
    rw [List.map_cons, List.nodup_cons]
    refine ⟨?_, hs⟩
    intro hmem
    rw [List.mem_map] at hmem
    obtain ⟨y, hy, hyx⟩ := hmem
    exact h ⟨y, hy, (hkey y x).2 hyx⟩

theorem uset_insertAll_key {α β : Type} [DecidableEq β] (eq : α → α → Bool) (key : α → β)
    (hkey : ∀ x y, eq x y = true ↔ key x = key y) (xs s : List α)
    (hs : (s.map key).Nodup) :
    ((USet.insertAll eq s xs).map key).Nodup ∧
    ((USet.insertAll eq s xs).map key).toFinset =
      (s.map key).toFinset ∪ (xs.map key).toFinset := by
  induction xs generalizing s with
  | nil => simp [USet.insertAll, hs]
  | cons x rest ih =>
    obtain ⟨h1, h2⟩ := uset_insert_key eq key hkey s x hs
    obtain ⟨h3, h4⟩ := ih (USet.insert eq s x) h1
    unfold USet.insertAll at h3 h4 ⊢
    rw [List.foldl_cons]
    refine ⟨h3, ?_⟩
    rw [h4, h2]
    ext b
    simp only [Finset.mem_union, Finset.mem_insert, List.mem_toFinset, List.map_cons,
      List.mem_cons]
    tauto

theorem pair_eq_unordered (x y : Pair) : Pair.eq x y = true ↔ x.unordered = y.unordered := by
  rw [pair_eq_iff]
  unfold Pair.unordered
  rw [Sym2.eq_iff]

theorem facilitator_eq_id (x y : Facilitator) : Facilitator.eq x y = true ↔ id x = id y :=
  facilitator_eq_iff x y

theorem uset_count_key {α β : Type} [DecidableEq β] (eq : α → α → Bool) (key : α → β)
    (hkey : ∀ x y, eq x y = true ↔ key x = key y) (s : List α) (x : α) :
    USet.count eq s x = 1 ↔ key x ∈ (s.map key).toFinset := by
  rw [uset_count_eq_one, List.mem_toFinset, List.mem_map]
  constructor
  · rintro ⟨y, hy, h⟩
    exact ⟨y, hy, (hkey y x).1 h⟩
  · rintro ⟨y, hy, h⟩
    exact ⟨y, hy, (hkey y x).2 h⟩

theorem nodup_key_pairwise {α β : Type} (eq : α → α → Bool) (key : α → β)
    (hkey : ∀ x y, eq x y = true ↔ key x = key y) (s : List α) (hs : (s.map key).Nodup) :
    s.Pairwise (fun x y => eq x y = false) := by
  rw [List.Nodup, List.pairwise_map] at hs
  refine hs.imp ?_
  intro a b hab
  cases h : eq a b
  · rfl
  · exact absurd ((hkey a b).1 h) hab

theorem senior_junior_keys (S J : List Facilitator) :
    ((S.flatMap (fun senior => J.map (fun junior => Pair.mk senior junior))).map
      Pair.unordered).toFinset = (S.toFinset ×ˢ J.toFinset).image Sym2.mk := by
  ext k
  simp only [List.mem_toFinset, List.mem_map, List.mem_flatMap, Finset.mem_image,
    Finset.mem_product, Prod.exists]
  constructor
  · rintro ⟨p, ⟨a, ha, b, hb, rfl⟩, rfl⟩
    exact ⟨a, b, ⟨ha, hb⟩, rfl⟩
  · rintro ⟨a, b, ⟨ha, hb⟩, rfl⟩
    exact ⟨⟨a, b⟩, ⟨a, ha, b, hb, rfl⟩, rfl⟩

theorem junior_junior_keys (J : List Facilitator) :
    ((J.flatMap (fun juniorA =>
        (J.filter (fun juniorB => !(juniorA.eq juniorB))).map
          (fun juniorB => Pair.mk juniorA juniorB))).map Pair.unordered).toFinset =
      J.toFinset.offDiag.image Sym2.mk := by
  ext k
  simp only [List.mem_toFinset, List.mem_map, List.mem_flatMap, Finset.mem_image,
    Finset.mem_offDiag, Prod.exists, List.mem_filter, Bool.not_eq_true', ← Bool.not_eq_true,
    facilitator_eq_iff]
  constructor
  · rintro ⟨p, ⟨a, ha, b, ⟨hb, hab⟩, rfl⟩, rfl⟩
    exact ⟨a, b, ⟨ha, hb, hab⟩, rfl⟩
  · rintro ⟨a, b, ⟨ha, hb, hab⟩, rfl⟩
    exact ⟨⟨a, b⟩, ⟨a, ha, b, ⟨hb, hab⟩, rfl⟩, rfl⟩

theorem senior_junior_card (FS FJ : Finset Facilitator)
    (hS : ∀ f ∈ FS, f.position = some Position.senior)
    (hJ : ∀ f ∈ FJ, f.position = some Position.junior) :
    ((FS ×ˢ FJ).image Sym2.mk).card = FS.card * FJ.card := by
  rw [Finset.card_image_of_injOn, Finset.card_product]
  rintro ⟨a, b⟩ hab ⟨c, d⟩ hcd h
  simp only [Finset.coe_product, Set.mem_prod, Finset.mem_coe] at hab hcd
  rw [Sym2.eq_iff] at h
  rcases h with ⟨h1, h2⟩ | ⟨h1, h2⟩
  · rw [h1, h2]
  · have e1 := hS a hab.1
    have e2 := hJ d hcd.2
    rw [h1, e2] at e1
    exact absurd e1 (by simp)

theorem pairing_keys_card (FS FJ : Finset Facilitator)
    (hS : ∀ f ∈ FS, f.position = some Position.senior)
    (hJ : ∀ f ∈ FJ, f.position = some Position.junior) :
    (insert s(Facilitator.empty, Facilitator.empty)
      ((FS ×ˢ FJ).image Sym2.mk ∪ FJ.offDiag.image Sym2.mk)).card =
      FS.card * FJ.card + FJ.card * (FJ.card - 1) / 2 + 1 := by
  have hdisj : Disjoint ((FS ×ˢ FJ).image Sym2.mk) (FJ.offDiag.image Sym2.mk) := by
    rw [Finset.disjoint_left]
    intro k h1 h2
    simp only [Finset.mem_image, Finset.mem_product, Finset.mem_offDiag, Prod.exists] at h1 h2
    obtain ⟨a, b, ⟨ha, hb⟩, rfl⟩ := h1
    obtain ⟨c, d, ⟨hc, hd, _⟩, h⟩ := h2
    have e1 := hS a ha
    rw [Sym2.eq_iff] at h
    rcases h with ⟨h1, _⟩ | ⟨_, h2⟩
    · have e2 := hJ c hc
      rw [h1, e1] at e2
      exact absurd e2 (by simp)
    · have e2 := hJ d hd
      rw [h2, e1] at e2
      exact absurd e2 (by simp)
  have hnot : s(Facilitator.empty, Facilitator.empty) ∉
      (FS ×ˢ FJ).image Sym2.mk ∪ FJ.offDiag.image Sym2.mk := by
    intro h
    simp only [Finset.mem_union, Finset.mem_image, Finset.mem_product, Finset.mem_offDiag,
      Prod.exists] at h
    rcases h with ⟨a, b, ⟨ha, hb⟩, h⟩ | ⟨a, b, ⟨ha, hb, _⟩, h⟩
    · have e1 := hS a ha
      rw [Sym2.eq_iff] at h
      rcases h with ⟨h1, _⟩ | ⟨h1, _⟩ <;> rw [h1] at e1 <;> simp [Facilitator.empty] at e1
    · have e1 := hJ a ha
      rw [Sym2.eq_iff] at h
      rcases h with ⟨h1, _⟩ | ⟨h1, _⟩ <;> rw [h1] at e1 <;> simp [Facilitator.empty] at e1
  rw [Finset.card_insert_of_not_mem hnot, Finset.card_union_of_disjoint hdisj,
    senior_junior_card FS FJ hS hJ, Sym2.card_image_offDiag, Nat.choose_two_right]

theorem facilitator_set (xs : List Facilitator) :
    (USet.insertAll Facilitator.eq [] xs).toFinset = xs.toFinset := by
  have h := (uset_insertAll_key Facilitator.eq id facilitator_eq_id xs [] (by simp)).2
  simpa using h

theorem build_pairings_keys (roster : List Facilitator)
    (hpos : ∀ f ∈ roster, f.position.isSome = true) :
    ∃ pairings, build_pairings roster = some pairings ∧
      (pairings.map Pair.unordered).Nodup ∧
      (pairings.map Pair.unordered).toFinset =
        insert s(Facilitator.empty, Facilitator.empty)
          (((roster.filter (fun f => f.is_senior)).toFinset ×ˢ
              (roster.filter (fun f => !f.is_senior)).toFinset).image Sym2.mk ∪
            (roster.filter (fun f => !f.is_senior)).toFinset.offDiag.image Sym2.mk) := by
  have hall : roster.all (fun f => f.position.isSome) = true := by
    rw [List.all_eq_true]
    exact hpos
  unfold build_pairings
  rw [if_pos hall]
  refine ⟨_, rfl, ?_⟩
  have hSJ := uset_insertAll_key Pair.eq Pair.unordered pair_eq_unordered
    ((USet.insertAll Facilitator.eq [] (roster.filter (fun f => f.is_senior))).flatMap
      (fun senior => (USet.insertAll Facilitator.eq []
        (roster.filter (fun f => !f.is_senior))).map (fun junior => Pair.mk senior junior)))
    [] (by simp)
  have hJJ := uset_insertAll_key Pair.eq Pair.unordered pair_eq_unordered
    ((USet.insertAll Facilitator.eq [] (roster.filter (fun f => !f.is_senior))).flatMap
      (fun juniorA => ((USet.insertAll Facilitator.eq []
        (roster.filter (fun f => !f.is_senior))).filter
          (fun juniorB => !(juniorA.eq juniorB))).map (fun juniorB => Pair.mk juniorA juniorB)))
    [] (by simp)
  have hP1 := uset_insertAll_key Pair.eq Pair.unordered pair_eq_unordered
    (USet.insertAll Pair.eq [] ((USet.insertAll Facilitator.eq []
      (roster.filter (fun f => !f.is_senior))).flatMap
      (fun juniorA => ((USet.insertAll Facilitator.eq []
        (roster.filter (fun f => !f.is_senior))).filter
          (fun juniorB => !(juniorA.eq juniorB))).map (fun juniorB => Pair.mk juniorA juniorB))))
    _ hSJ.1
  have hP := uset_insert_key Pair.eq Pair.unordered pair_eq_unordered _ Pair.empty hP1.1
  refine ⟨hP.1, ?_⟩
  rw [hP.2, hP1.2, hSJ.2, hJJ.2, senior_junior_keys, junior_junior_keys, facilitator_set,
    facilitator_set]
  simp [Pair.unordered, Pair.empty]

theorem mem_seniors (roster : List Facilitator) (f : Facilitator) :
    f ∈ (roster.filter (fun f => f.is_senior)).toFinset ↔
      f ∈ roster ∧ f.position = some Position.senior := by
  simp [Facilitator.is_senior]

theorem mem_juniors (roster : List Facilitator)
    (hpos : ∀ f ∈ roster, f.position.isSome = true) (f : Facilitator) :
    f ∈ (roster.filter (fun f => !f.is_senior)).toFinset ↔
      f ∈ roster ∧ f.position = some Position.junior := by
  simp only [List.mem_toFinset, List.mem_filter, Facilitator.is_senior, Bool.not_eq_true',
    decide_eq_false_iff_not]
  constructor
  · rintro ⟨h1, h2⟩
    refine ⟨h1, ?_⟩
    have h3 := hpos f h1
    rw [Option.isSome_iff_exists] at h3
    obtain ⟨p, hp⟩ := h3
    rw [hp] at h2 ⊢
    cases p
    · exact absurd rfl h2
    · rfl
  · rintro ⟨h1, h2⟩
    exact ⟨h1, by rw [h2]; simp⟩

theorem juniors_filter (roster : List Facilitator)
    (hpos : ∀ f ∈ roster, f.position.isSome = true) :
    roster.filter (fun f => !f.is_senior) = roster.filter (fun f => f.is_junior) := by
  apply List.filter_congr
  intro f hf
  have h3 := hpos f hf
  rw [Option.isSome_iff_exists] at h3
  obtain ⟨p, hp⟩ := h3
  cases p <;> simp [Facilitator.is_senior, Facilitator.is_junior, hp]

theorem build_pairings_count (roster : List Facilitator)
    (hpos : ∀ f ∈ roster, f.position.isSome = true) (pairings : List Pair)
    (hk : (pairings.map Pair.unordered).toFinset =
      insert s(Facilitator.empty, Facilitator.empty)
        (((roster.filter (fun f => f.is_senior)).toFinset ×ˢ
            (roster.filter (fun f => !f.is_senior)).toFinset).image Sym2.mk ∪
          (roster.filter (fun f => !f.is_senior)).toFinset.offDiag.image Sym2.mk))
    (P : Pair) :
    USet.count Pair.eq pairings P = 1 ↔
      (P = Pair.empty ∨
        (∃ s ∈ roster, ∃ j ∈ roster, s.position = some Position.senior ∧
          j.position = some Position.junior ∧ Pair.eq P ⟨s, j⟩ = true) ∨
        (∃ a ∈ roster, ∃ b ∈ roster, a.position = some Position.junior ∧
          b.position = some Position.junior ∧ a ≠ b ∧ Pair.eq P ⟨a, b⟩ = true)) := by
  rw [uset_count_key Pair.eq Pair.unordered pair_eq_unordered, hk]
  simp only [Finset.mem_insert, Finset.mem_union, Finset.mem_image, Finset.mem_product,
    Finset.mem_offDiag, Prod.exists, mem_seniors, mem_juniors roster hpos, pair_eq_unordered]
  constructor
  · rintro (h | ⟨a, b, ⟨⟨ha, ha2⟩, hb, hb2⟩, h⟩ | ⟨a, b, ⟨⟨ha, ha2⟩, ⟨hb, hb2⟩, hab⟩, h⟩)
    · left
      unfold Pair.unordered at h
      rw [Sym2.eq_iff] at h
      cases P
      simp only [Pair.empty, Pair.mk.injEq]
      tauto
    · exact Or.inr (Or.inl ⟨a, ha, b, hb, ha2, hb2, h.symm⟩)
    · exact Or.inr (Or.inr ⟨a, ha, b, hb, ha2, hb2, hab, h.symm⟩)
  · rintro (h | ⟨a, ha, b, hb, ha2, hb2, h⟩ | ⟨a, ha, b, hb, ha2, hb2, hab, h⟩)
    · left
      rw [h]
      rfl
    · exact Or.inr (Or.inl ⟨a, b, ⟨⟨ha, ha2⟩, hb, hb2⟩, h.symm⟩)
    · exact Or.inr (Or.inr ⟨a, b, ⟨⟨ha, ha2⟩, ⟨hb, hb2⟩, hab⟩, h.symm⟩)

/-- C9: the set of pairings built by main.  For a roster whose members all have a position and
have distinct names, with m seniors and n juniors, the construction returns a set that contains
a pairing exactly when it is the empty pairing, or equals the pairing of a senior and a junior
of the roster, or equals the pairing of two different juniors of the roster; no member of the
set pairs two seniors or a facilitator with themself (the empty pairing apart); no two members
are equal as unordered pairs; and the set has m*n + n*(n-1)/2 + 1 members.  For the built-in
roster that is 40. -/
theorem build_pairings_spec (roster : List Facilitator)
    (hpos : ∀ f ∈ roster, f.position.isSome = true)
    (hnames : (roster.map Facilitator.name).Nodup) :
    ∃ pairings, build_pairings roster = some pairings ∧
      (∀ P : Pair, USet.count Pair.eq pairings P = 1 ↔
        (P = Pair.empty ∨
          (∃ s ∈ roster, ∃ j ∈ roster, s.position = some Position.senior ∧
            j.position = some Position.junior ∧ Pair.eq P ⟨s, j⟩ = true) ∨
          (∃ a ∈ roster, ∃ b ∈ roster, a.position = some Position.junior ∧
            b.position = some Position.junior ∧ a ≠ b ∧ Pair.eq P ⟨a, b⟩ = true))) ∧
      (∀ P ∈ pairings, ¬ (P.first.position = some Position.senior ∧
        P.second.position = some Position.senior)) ∧
      (∀ P ∈ pairings, P.first = P.second → P = Pair.empty) ∧
      pairings.Pairwise (fun x y => Pair.eq x y = false) ∧
      pairings.length =
        (roster.filter (fun f => f.is_senior)).length *
            (roster.filter (fun f => f.is_junior)).length +
          (roster.filter (fun f => f.is_junior)).length *
            ((roster.filter (fun f => f.is_junior)).length - 1) / 2 + 1 ∧
      (build_pairings facilitators).map List.length = some 40 := by
  obtain ⟨pairings, hb, hnd, hk⟩ := build_pairings_keys roster hpos
  have hcount := build_pairings_count roster hpos pairings hk
  have hmem : ∀ P ∈ pairings, USet.count Pair.eq pairings P = 1 := fun P hP =>
    (uset_count_eq_one _ _ _).2 ⟨P, hP, pair_eq_self P⟩
  refine ⟨pairings, hb, hcount, ?_, ?_, ?_, ?_, by decide⟩
  · rintro P hP ⟨h1, h2⟩
    rcases (hcount P).1 (hmem P hP) with h | ⟨s, _, j, _, _, hj, h⟩ | ⟨a, _, b, _, ha, hb, _, h⟩
    · rw [h] at h1
      simp [Pair.empty, Facilitator.empty] at h1
    · rw [pair_eq_iff] at h
      rcases h with ⟨_, e⟩ | ⟨e, _⟩
      · rw [e] at h2
        simp only at h2
        rw [hj] at h2
        exact absurd h2 (by simp)
      · rw [e] at h1
        simp only at h1
        rw [hj] at h1
        exact absurd h1 (by simp)
    · rw [pair_eq_iff] at h
      rcases h with ⟨e, _⟩ | ⟨e, _⟩
      · rw [e] at h1
        simp only at h1
        rw [ha] at h1
        exact absurd h1 (by simp)
      · rw [e] at h1
        simp only at h1
        rw [hb] at h1
        exact absurd h1 (by simp)
  · intro P hP hfs
    rcases (hcount P).1 (hmem P hP) with h | ⟨s, _, j, _, hs, hj, h⟩ | ⟨a, _, b, _, _, _, hab, h⟩
    · exact h
    · rw [pair_eq_iff] at h
      simp only at h
      have hsj : s = j := by
        rcases h with ⟨e1, e2⟩ | ⟨e1, e2⟩
        · rw [← e1, ← e2, hfs]
        · rw [← e1, ← e2, hfs]
      rw [hsj, hj] at hs
      exact absurd hs (by simp)
    · rw [pair_eq_iff] at h
      simp only at h
      have : a = b := by
        rcases h with ⟨e1, e2⟩ | ⟨e1, e2⟩
        · rw [← e1, ← e2, hfs]
        · rw [← e1, ← e2, hfs]
      exact absurd this hab
  · exact nodup_key_pairwise Pair.eq Pair.unordered pair_eq_unordered pairings hnd
  · have hr : roster.Nodup := List.Nodup.of_map _ hnames
    have hlen : pairings.length = ((pairings.map Pair.unordered).toFinset).card := by
      rw [List.toFinset_card_of_nodup hnd, List.length_map]
    rw [hlen, hk, pairing_keys_card _ _ (fun f hf => ((mem_seniors roster f).1 hf).2)
      (fun f hf => ((mem_juniors roster hpos f).1 hf).2),
      List.toFinset_card_of_nodup (hr.filter _), List.toFinset_card_of_nodup (hr.filter _),
      juniors_filter roster hpos]

/-- An instance of C9: the built-in roster of 4 seniors and 6 juniors. -/
theorem build_pairings_spec_witness :
    (∀ f ∈ facilitators, f.position.isSome = true) ∧
    (facilitators.map Facilitator.name).Nodup ∧
    ∃ pairings, build_pairings facilitators = some pairings ∧
      (∀ P : Pair, USet.count Pair.eq pairings P = 1 ↔
        (P = Pair.empty ∨
          (∃ s ∈ facilitators, ∃ j ∈ facilitators, s.position = some Position.senior ∧
            j.position = some Position.junior ∧ Pair.eq P ⟨s, j⟩ = true) ∨
          (∃ a ∈ facilitators, ∃ b ∈ facilitators, a.position = some Position.junior ∧
            b.position = some Position.junior ∧ a ≠ b ∧ Pair.eq P ⟨a, b⟩ = true))) ∧
      (∀ P ∈ pairings, ¬ (P.first.position = some Position.senior ∧
        P.second.position = some Position.senior)) ∧
      (∀ P ∈ pairings, P.first = P.second → P = Pair.empty) ∧
      pairings.Pairwise (fun x y => Pair.eq x y = false) ∧
      pairings.length = 4 * 6 + 6 * (6 - 1) / 2 + 1 ∧
      (build_pairings facilitators).map List.length = some 40 :=
  ⟨by decide, by decide, build_pairings_spec facilitators (by decide) (by decide)⟩

/-! ## Properties: Schedule::operator== -/

theorem count_step_first (hs : String → Nat) (buckets : Nat) (s : Session) :
    Schedule.count_step hs buckets [] s = [(s, 1)] := rfl

theorem count_step_second (hs : String → Nat) (buckets : Nat) (x y : Session) (i : Int)
    (hxy : Session.eq x y = false) :
    Schedule.count_step hs buckets [(x, i)] y = [(y, 1), (x, i)] := by
  unfold Schedule.count_step
  by_cases hb : Schedule.bucket_of hs buckets x = Schedule.bucket_of hs buckets y
  · simp [hb, hxy, Schedule.link_node]
  · simp [hb, hxy]

theorem count_step_third (hs : String → Nat) (buckets : Nat) (x y z : Session) (i j : Int)
    (hxz : Session.eq x z = false) (hyz : Session.eq y z = false) :
    Schedule.count_step hs buckets [(y, j), (x, i)] z = [(z, 1), (y, j), (x, i)] ∨
    Schedule.count_step hs buckets [(y, j), (x, i)] z = [(y, j), (z, 1), (x, i)] := by
  unfold Schedule.count_step
  by_cases hb : Schedule.bucket_of hs buckets y = Schedule.bucket_of hs buckets z
  · left
    simp [hb, hxz, hyz, Schedule.link_node]
  · by_cases hb2 : Schedule.bucket_of hs buckets x = Schedule.bucket_of hs buckets z
    · right
      simp [hb, hb2, hxz, hyz, Schedule.link_node]
    · left
      simp [hb, hb2, hxz, hyz]

theorem count_step_incr (hs : String → Nat) (buckets : Nat) (z : Session)
    (hzz : Session.eq z z = true) (pre post : List (Session × Int)) (j : Int)
    (hpre : ∀ e ∈ pre, Session.eq e.1 z = false)
    (hpost : ∀ e ∈ post, Session.eq e.1 z = false) :
    Schedule.count_step hs buckets (pre ++ (z, j) :: post) z = pre ++ (z, j + 1) :: post := by
  unfold Schedule.count_step
  have hany : (pre ++ (z, j) :: post).any (fun e =>
      decide (Schedule.bucket_of hs buckets e.1 = Schedule.bucket_of hs buckets z) &&
        Session.eq e.1 z) = true := by
    rw [List.any_eq_true]
    exact ⟨(z, j), by simp, by simp [hzz]⟩
  rw [if_pos hany]
  have hfix : ∀ l : List (Session × Int), (∀ e ∈ l, Session.eq e.1 z = false) →
      l.map (fun e =>
        if decide (Schedule.bucket_of hs buckets e.1 = Schedule.bucket_of hs buckets z) &&
            Session.eq e.1 z then
          (e.1, e.2 + 1)
        else e) = l := by
    intro l hl
    conv_rhs => rw [← List.map_id l]
    apply List.map_congr_left
    intro e he
    simp [hl e he]
  rw [List.map_append, List.map_cons, hfix pre hpre, hfix post hpost]
  simp [hzz]

theorem count_sessions_two (hs : String → Nat) (buckets : Nat) (x y : Session)
    (hyy : Session.eq y y = true) (hxy : Session.eq x y = false)
    (hyx : Session.eq y x = false) :
    Schedule.count_sessions hs buckets [x, y, y, y, y, y] = [(y, 5), (x, 1)] ∧
    Schedule.count_sessions hs buckets [y, x, y, y, y, y] = [(x, 1), (y, 5)] := by
  have hx : ∀ (i : Int), ∀ e ∈ [((x, i) : Session × Int)], Session.eq e.1 y = false := by
    intro i e he
    rw [List.mem_singleton] at he
    rw [he]
    exact hxy
  have hnil : ∀ e ∈ ([] : List (Session × Int)), Session.eq e.1 y = false := by
    intro e he
    cases he
  have h1 : ∀ j : Int, Schedule.count_step hs buckets [(y, j), (x, 1)] y =
      [(y, j + 1), (x, 1)] := fun j =>
    count_step_incr hs buckets y hyy [] [(x, 1)] j hnil (hx 1)
  have h2 : ∀ j : Int, Schedule.count_step hs buckets [(x, 1), (y, j)] y =
      [(x, 1), (y, j + 1)] := fun j =>
    count_step_incr hs buckets y hyy [(x, 1)] [] j (hx 1) hnil
  constructor
  · simp only [Schedule.count_sessions, List.foldl_cons, List.foldl_nil, count_step_first,
      count_step_second hs buckets x y 1 hxy, h1]
    rfl
  · simp only [Schedule.count_sessions, List.foldl_cons, List.foldl_nil, count_step_first,
      count_step_second hs buckets y x 1 hyx, h2]
    rfl

theorem count_sessions_three (hs : String → Nat) (buckets : Nat) (x y z : Session)
    (hzz : Session.eq z z = true)
    (hxy : Session.eq x y = false) (hxz : Session.eq x z = false)
    (hyx : Session.eq y x = false) (hyz : Session.eq y z = false)
    (hzx : Session.eq z x = false) (hzy : Session.eq z y = false) :
    (Schedule.count_sessions hs buckets [x, y, z, z] = [(z, 2), (y, 1), (x, 1)] ∨
      Schedule.count_sessions hs buckets [x, y, z, z] = [(y, 1), (z, 2), (x, 1)]) ∧
    (Schedule.count_sessions hs buckets [z, y, z, x] = [(x, 1), (y, 1), (z, 2)] ∨
      Schedule.count_sessions hs buckets [z, y, z, x] = [(y, 1), (x, 1), (z, 2)]) := by
  have hmem1 : ∀ (a : Session) (i : Int) (w : Session), Session.eq a w = false →
      ∀ e ∈ [((a, i) : Session × Int)], Session.eq e.1 w = false := by
    intro a i w h e he
    rw [List.mem_singleton] at he
    rw [he]
    exact h
  have hmem2 : ∀ (a b : Session) (i j : Int) (w : Session), Session.eq a w = false →
      Session.eq b w = false →
      ∀ e ∈ [((a, i) : Session × Int), (b, j)], Session.eq e.1 w = false := by
    intro a b i j w h1 h2 e he
    simp only [List.mem_cons, List.mem_singleton, List.mem_nil_iff, or_false] at he
    rcases he with he | he <;> rw [he]
    · exact h1
    · exact h2
  have hnil : ∀ w : Session, ∀ e ∈ ([] : List (Session × Int)), Session.eq e.1 w = false := by
    intro w e he
    cases he
  constructor
  · have h0 : Schedule.count_sessions hs buckets [x, y, z, z] =
        Schedule.count_step hs buckets
          (Schedule.count_step hs buckets [(y, 1), (x, 1)] z) z := by
      simp only [Schedule.count_sessions, List.foldl_cons, List.foldl_nil, count_step_first,
        count_step_second hs buckets x y 1 hxy]
    rw [h0]
    rcases count_step_third hs buckets x y z 1 1 hxz hyz with h | h
    · left
      rw [h]
      exact count_step_incr hs buckets z hzz [] [(y, 1), (x, 1)] 1 (hnil z)
        (hmem2 y x 1 1 z hyz hxz)
    · right
      rw [h]
      exact count_step_incr hs buckets z hzz [(y, 1)] [(x, 1)] 1 (hmem1 y 1 z hyz)
        (hmem1 x 1 z hxz)
  · have h0 : Schedule.count_sessions hs buckets [z, y, z, x] =
        Schedule.count_step hs buckets [(y, 1), (z, 2)] x := by
      simp only [Schedule.count_sessions, List.foldl_cons, List.foldl_nil, count_step_first,
        count_step_second hs buckets z y 1 hzy]
      have h1 : Schedule.count_step hs buckets [(y, 1), (z, 1)] z = [(y, 1), (z, 2)] :=
        count_step_incr hs buckets z hzz [(y, 1)] [] 1 (hmem1 y 1 z hyz) (hnil z)
      rw [h1]
    rw [h0]
    exact count_step_third hs buckets z y x 2 1 hzx hyx

theorem build_schedule_example_two :
    (build_schedule NUM_SESSIONS
      [example_session, example_session2, example_session2, example_session2,
        example_session2, example_session2]).map Schedule.sessions =
      some [example_session, example_session2, example_session2, example_session2,
        example_session2, example_session2] ∧
    (build_schedule NUM_SESSIONS
      [example_session2, example_session, example_session2, example_session2,
        example_session2, example_session2]).map Schedule.sessions =
      some [example_session2, example_session, example_session2, example_session2,
        example_session2, example_session2] := by
  constructor <;> decide

theorem build_schedule_example_three :
    (build_schedule 4
      [example_session, example_session2, example_session3, example_session3]).map
        Schedule.sessions =
      some [example_session, example_session2, example_session3, example_session3] ∧
    (build_schedule 4
      [example_session3, example_session2, example_session3, example_session]).map
        Schedule.sessions =
      some [example_session3, example_session2, example_session3, example_session] := by
  constructor <;> decide

theorem example_sessions_differ :
    Session.eq example_session example_session = true ∧
    Session.eq example_session2 example_session2 = true ∧
    Session.eq example_session3 example_session3 = true ∧
    Session.eq example_session example_session2 = false ∧
    Session.eq example_session example_session3 = false ∧
    Session.eq example_session2 example_session = false ∧
    Session.eq example_session2 example_session3 = false ∧
    Session.eq example_session3 example_session = false ∧
    Session.eq example_session3 example_session2 = false := by
  decide

theorem eq_of_sessions (hs : String → Nat) (buckets n : Nat) (la lb : List Session)
    (ra rb : Option Schedule)
    (ha : ra.map Schedule.sessions = some la) (hb : rb.map Schedule.sessions = some lb)
    (hla : la.length = n) (hlb : lb.length = n) :
    (ra.bind (fun a => rb.bind (fun b => Schedule.eq hs buckets n a b))) =
      if (Schedule.count_sessions hs buckets la).length ≠
          (Schedule.count_sessions hs buckets lb).length then some false
      else some (Schedule.std_equal (Schedule.count_sessions hs buckets la)
        (Schedule.count_sessions hs buckets lb)) := by
  cases ra with
  | none => simp at ha
  | some a =>
    cases rb with
    | none => simp at hb
    | some b =>
      simp only [Option.map_some', Option.some.injEq] at ha hb
      simp only [Option.some_bind, Schedule.eq, Schedule.size, ha, hb, hla, hlb, and_self,
        if_true]

/-- C10, the code at the failing input: two complete schedules of six sessions, built by
add_session from the same sessions in two orders, are permutations of each other, and
Schedule::operator== returns false on them, because std::equal compares the two counting maps
node by node in their iteration orders.  The same happens, for four sessions, on the example
[A, B, C, C] and [C, B, C, A] of the comment in the source.  Both hold for every hash of
strings and every number of buckets of the counting maps. -/
theorem schedule_eq_depends_on_order (hs : String → Nat) (buckets : Nat) :
    List.Perm
      [example_session, example_session2, example_session2, example_session2,
        example_session2, example_session2]
      [example_session2, example_session, example_session2, example_session2,
        example_session2, example_session2] ∧
    ((build_schedule NUM_SESSIONS
        [example_session, example_session2, example_session2, example_session2,
          example_session2, example_session2]).bind (fun a =>
      (build_schedule NUM_SESSIONS
        [example_session2, example_session, example_session2, example_session2,
          example_session2, example_session2]).bind (fun b =>
        Schedule.eq hs buckets NUM_SESSIONS a b))) = some false ∧
    ((build_schedule 4
        [example_session, example_session2, example_session3, example_session3]).bind (fun a =>
      (build_schedule 4
        [example_session3, example_session2, example_session3, example_session]).bind (fun b =>
        Schedule.eq hs buckets 4 a b))) = some false := by
  obtain ⟨h11, h22, h33, h12, h13, h21, h23, h31, h32⟩ := example_sessions_differ
  refine ⟨by decide, ?_, ?_⟩
  · rw [eq_of_sessions hs buckets NUM_SESSIONS _ _ _ _ build_schedule_example_two.1
      build_schedule_example_two.2 rfl rfl]
    obtain ⟨ha, hb⟩ := count_sessions_two hs buckets example_session example_session2 h22 h12 h21
    rw [ha, hb]
    simp [Schedule.std_equal, h21]
  · rw [eq_of_sessions hs buckets 4 _ _ _ _ build_schedule_example_three.1
      build_schedule_example_three.2 rfl rfl]
    obtain ⟨ha, hb⟩ := count_sessions_three hs buckets example_session example_session2
      example_session3 h33 h12 h13 h21 h23 h31 h32
    rcases ha with ha | ha <;> rcases hb with hb | hb <;> rw [ha, hb] <;>
      simp [Schedule.std_equal, h31, h21, h22]

/-! ## Properties: the branch-and-bound search -/

theorem add_entry_bounds (c : Schedule) (e : Activity × Pair)
    (h : c.conflicts + 3 < UINT_SIZE) :
    c.conflicts ≤ (Schedule.add_entry c e).conflicts ∧
    (Schedule.add_entry c e).conflicts ≤ c.conflicts + 3 := by
  unfold Schedule.add_entry
  split
  · exact ⟨le_refl _, by omega⟩
  · simp only [uint_incr, UINT_SIZE] at *
    split <;> split <;> split <;> omega

theorem fold_add_entry_bounds (es : List (Activity × Pair)) (c : Schedule)
    (h : c.conflicts + 3 * es.length < UINT_SIZE) :
    c.conflicts ≤ (es.foldl Schedule.add_entry c).conflicts ∧
    (es.foldl Schedule.add_entry c).conflicts ≤ c.conflicts + 3 * es.length := by
  induction es generalizing c with
  | nil => simp
  | cons e rest ih =>
    rw [List.length_cons] at h
    have h1 := add_entry_bounds c e (by omega)
    have h2 := ih (Schedule.add_entry c e) (by omega)
    rw [List.foldl_cons, List.length_cons]
    omega

theorem add_session_some {n : Nat} {c c2 : Schedule} {s : Session}
    (h : Schedule.add_session n c s = some c2) :
    c.size < n ∧ c2.sessions = c.sessions ++ [s] ∧
    c2.conflicts = (s.entries.foldl Schedule.add_entry c).conflicts := by
  unfold Schedule.add_session at h
  split at h
  · rename_i hlt
    injection h with h
    subst h
    exact ⟨hlt, by simp [fold_add_entry_sessions], rfl⟩
  · exact absurd h (by simp)

theorem add_session_of_lt {n : Nat} (c : Schedule) (s : Session) (h : c.size < n) :
    ∃ c2, Schedule.add_session n c s = some c2 := by
  unfold Schedule.add_session
  rw [if_pos h]
  exact ⟨_, rfl⟩

theorem add_session_bounds {n m : Nat} {c c2 : Schedule} {s : Session}
    (h : Schedule.add_session n c s = some c2) (hs : s.entries.length ≤ m)
    (hc : c.conflicts + 3 * m < UINT_SIZE) :
    c.conflicts ≤ c2.conflicts ∧ c2.conflicts ≤ c.conflicts + 3 * m := by
  obtain ⟨_, _, h3⟩ := add_session_some h
  have := fold_add_entry_bounds s.entries c (by omega)
  rw [h3]
  omega

theorem fold_add_session (n m : Nat) (r : List Session) (c : Schedule)
    (hr : ∀ s ∈ r, s.entries.length ≤ m) (hn : c.size + r.length ≤ n)
    (hc : c.conflicts + 3 * m * r.length < UINT_SIZE) :
    ∃ c2, r.foldlM (Schedule.add_session n) c = some c2 ∧
      c2.sessions = c.sessions ++ r ∧
      c.conflicts ≤ c2.conflicts ∧ c2.conflicts ≤ c.conflicts + 3 * m * r.length := by
  induction r generalizing c with
  | nil => exact ⟨c, rfl, by simp, le_refl _, by omega⟩
  | cons s rest ih =>
    rw [List.length_cons] at hn hc
    obtain ⟨c1, h1⟩ := add_session_of_lt (n := n) c s (by omega)
    have hb := add_session_bounds h1 (hr s (List.mem_cons_self _ _))
      (by rw [Nat.mul_add] at hc; omega)
    obtain ⟨_, hs1, _⟩ := add_session_some h1
    have hsize : c1.size = c.size + 1 := by
      simp [Schedule.size, hs1]
    obtain ⟨c2, h2, h3, h4, h5⟩ := ih c1 (fun s hs => hr s (List.mem_cons_of_mem _ hs))
      (by omega) (by rw [Nat.mul_add] at hc; omega)
    refine ⟨c2, ?_, ?_, by omega, ?_⟩
    · rw [List.foldlM_cons, h1]
      exact h2
    · rw [h3, hs1]
      simp
    · rw [List.length_cons, Nat.mul_add]
      omega

theorem fold_add_session_some (n : Nat) (r : List Session) (c c2 : Schedule)
    (h : r.foldlM (Schedule.add_session n) c = some c2) :
    c2.sessions = c.sessions ++ r ∧ (r ≠ [] → c.size + r.length ≤ n) := by
  induction r generalizing c with
  | nil =>
    simp only [List.foldlM_nil] at h
    injection h with h
    subst h
    simp
  | cons s rest ih =>
    rw [List.foldlM_cons] at h
    cases h1 : Schedule.add_session n c s with
    | none => rw [h1] at h; exact absurd h (by simp)
    | some c1 =>
      rw [h1] at h
      obtain ⟨hlt, hs1, _⟩ := add_session_some h1
      obtain ⟨i1, i2⟩ := ih c1 h
      have hsize : c1.size = c.size + 1 := by simp [Schedule.size, hs1]
      refine ⟨by rw [i1, hs1]; simp, fun _ => ?_⟩
      rw [List.length_cons]
      by_cases hr : rest = []
      · subst hr
        simp
        omega
      · have := i2 hr
        omega

theorem build_schedule_some {n : Nat} {ss : List Session} {c : Schedule}
    (h : build_schedule n ss = some c) : c.sessions = ss ∧ ss.length ≤ n := by
  obtain ⟨h1, h2⟩ := fold_add_session_some n ss Schedule.empty c h
  refine ⟨by simpa [Schedule.empty] using h1, ?_⟩
  by_cases hs : ss = []
  · subst hs
    simp
  · have := h2 hs
    simp [Schedule.empty, Schedule.size] at this
    exact this

theorem build_schedule_append (n : Nat) (q r : List Session) :
    build_schedule n (q ++ r) =
      (build_schedule n q).bind (fun c => r.foldlM (Schedule.add_session n) c) := by
  unfold build_schedule
  rw [List.foldlM_append]
  rfl

theorem built_empty (n : Nat) (P : List Session) : Schedule.built n P Schedule.empty :=
  ⟨rfl, by simp [Schedule.empty]⟩

theorem built_add {n : Nat} {P : List Session} {c c2 : Schedule} {s : Session}
    (hc : Schedule.built n P c) (hs : s ∈ P) (h : Schedule.add_session n c s = some c2) :
    Schedule.built n P c2 ∧ c2.sessions = c.sessions ++ [s] := by
  obtain ⟨_, hs2, _⟩ := add_session_some h
  refine ⟨⟨?_, ?_⟩, hs2⟩
  · rw [hs2, build_schedule_append, hc.1]
    simp only [Option.bind, List.foldlM_cons, List.foldlM_nil]
    rw [h]
    rfl
  · intro x hx
    rw [hs2, List.mem_append, List.mem_singleton] at hx
    rcases hx with hx | hx
    · exact hc.2 x hx
    · rw [hx]
      exact hs

theorem built_score {n : Nat} {P : List Session} {c : Schedule} (hc : Schedule.built n P c) :
    score n c.sessions = c.conflicts := by
  unfold score
  rw [hc.1]

theorem built_size_le {n : Nat} {P : List Session} {c : Schedule} (hc : Schedule.built n P c) :
    c.size ≤ n := (build_schedule_some hc.1).2

theorem built_prefix_le {n m : Nat} {P : List Session} (hm : ∀ s ∈ P, s.entries.length ≤ m)
    (hw : 3 * m * n < UINT_SIZE) {c : Schedule} (hc : Schedule.built n P c)
    {ss : List Session} (hss : ∀ s ∈ ss, s ∈ P) (hlen : ss.length ≤ n)
    (hpre : c.sessions <+: ss) : c.conflicts ≤ score n ss := by
  obtain ⟨r, hr⟩ := hpre
  have hlen2 : c.sessions.length + r.length ≤ n := by
    rw [← List.length_append, hr]
    exact hlen
  have hmul : 3 * m * (c.sessions.length + r.length) ≤ 3 * m * n :=
    Nat.mul_le_mul_left _ hlen2
  rw [Nat.mul_add] at hmul
  obtain ⟨c1, h1, _, _, h4⟩ := fold_add_session n m c.sessions Schedule.empty
    (fun s hs => hm s (hc.2 s hs)) (by simp [Schedule.empty, Schedule.size]; omega)
    (by simp only [Schedule.empty]; omega)
  have hc1 : c1 = c := by
    have := hc.1
    unfold build_schedule at this
    rw [h1] at this
    injection this
  subst hc1
  simp only [Schedule.empty] at h4
  obtain ⟨c2, h5, _, h7, _⟩ := fold_add_session n m r c1
    (fun s hs => hm s (hss s (by rw [← hr]; exact List.mem_append_right _ hs)))
    (by simp only [Schedule.size]; omega) (by omega)
  unfold score
  rw [← hr, build_schedule_append, hc.1]
  simp only [Option.bind]
  rw [h5]
  exact h7

theorem run_task_some {n : Nat} {P : List Session} {st st2 : Search} {rest : List Task}
    {t : Task} (h : Search.run_task n P st rest t = some st2) :
    ∃ c, t.schedule_of n = some c ∧
      st2.min_schedule = (generate_schedules n P st.min_schedule c).min_schedule ∧
      st2.tasks = rest ++ (generate_schedules n P st.min_schedule c).enqueued := by
  unfold Search.run_task at h
  cases hs : t.schedule_of n with
  | none => simp [hs] at h
  | some c =>
    simp only [hs] at h
    refine ⟨c, rfl, ?_⟩
    cases hrec : (generate_schedules n P st.min_schedule c).recorded with
    | none =>
      rw [hrec] at h
      injection h with h
      subst h
      exact ⟨rfl, rfl⟩
    | some r =>
      rw [hrec] at h
      obtain ⟨r1, r2⟩ := r
      simp only at h
      cases hu : update_iterations st.counters r1 r2 with
      | none => simp [hu] at h
      | some k =>
        rw [hu] at h
        injection h with h
        subst h
        exact ⟨rfl, rfl⟩

theorem task_schedule_built {n : Nat} {P : List Session} {t : Task} {c : Schedule}
    (hok : t.ok n P) (h : t.schedule_of n = some c) :
    Schedule.built n P c ∧ c.sessions = t.path := by
  cases t with
  | root c0 =>
    simp only [Task.schedule_of] at h
    injection h with h
    subst h
    exact ⟨hok, rfl⟩
  | child c0 s =>
    simp only [Task.schedule_of] at h
    exact built_add hok.1 hok.2.1 h

theorem invariant_init (n : Nat) (P : List Session) (T : Nat) :
    Search.invariant n P T (Search.init (Schedule.with_conflicts T)) := by
  refine ⟨Or.inl rfl, ?_, ?_⟩
  · intro t ht
    simp only [Search.init, List.mem_singleton] at ht
    subst ht
    exact built_empty n P
  · intro ss _ _
    exact Or.inr ⟨Task.root Schedule.empty, by simp [Search.init],
      by simp [Task.path, Schedule.empty]⟩

theorem invariant_min_le {n : Nat} {P : List Session} {T : Nat} {st : Search}
    (h : Search.invariant n P T st) : st.min_schedule.conflicts ≤ T := by
  rcases h.1 with h1 | h1
  · rw [h1]
    exact le_refl _
  · exact le_of_lt h1.2.2

theorem invariant_step {n m : Nat} {P : List Session} (hm : ∀ s ∈ P, s.entries.length ≤ m)
    (hw : 3 * m * n < UINT_SIZE) {T : Nat} {st st2 : Search}
    (hinv : Search.invariant n P T st) (hstep : Search.Step n P st st2) :
    Search.invariant n P T st2 := by
  cases hstep with
  | run before after t hq hr =>
  obtain ⟨c, hc, hmin, htasks⟩ := run_task_some hr
  obtain ⟨i1, i3, i4⟩ := hinv
  have hle := invariant_min_le ⟨i1, i3, i4⟩
  have htmem : t ∈ st.tasks := by rw [hq]; simp
  obtain ⟨hbuilt, hpath⟩ := task_schedule_built (i3 t htmem) hc
  have hkeep : ∀ t2 ∈ before ++ after, t2 ∈ st.tasks := by
    intro t2 h2
    rw [hq]
    rw [List.mem_append] at h2 ⊢
    rcases h2 with h2 | h2
    · exact Or.inl h2
    · exact Or.inr (List.mem_cons_of_mem _ h2)
  have hsplit : ∀ t2 ∈ st.tasks, t2 = t ∨ t2 ∈ before ++ after := by
    intro t2 h2
    rw [hq, List.mem_append, List.mem_cons] at h2
    rw [List.mem_append]
    tauto
  unfold generate_schedules at hmin htasks
  by_cases hprune : c.conflicts ≥ st.min_schedule.conflicts
  · rw [if_pos hprune] at hmin htasks
    simp only [List.append_nil] at hmin htasks
    refine ⟨by rw [hmin]; exact i1, ?_, ?_⟩
    · intro t2 h2
      rw [htasks] at h2
      exact i3 t2 (hkeep t2 h2)
    · intro ss hlen hss
      rw [hmin, htasks]
      rcases i4 ss hlen hss with h | ⟨t2, h2, hp⟩
      · exact Or.inl h
      · rcases hsplit t2 h2 with h3 | h3
        · subst h3
          left
          have := built_prefix_le hm hw hbuilt hss (le_of_eq hlen) (by rw [hpath]; exact hp)
          omega
        · exact Or.inr ⟨t2, h3, hp⟩
  · rw [if_neg hprune] at hmin htasks
    by_cases hcomplete : c.complete n = true
    · rw [if_pos hcomplete] at hmin htasks
      simp only [List.append_nil] at hmin htasks
      have hsize : c.size = n := by simpa [Schedule.complete] using hcomplete
      refine ⟨?_, ?_, ?_⟩
      · rw [hmin]
        exact Or.inr ⟨hbuilt, hsize, by omega⟩
      · intro t2 h2
        rw [htasks] at h2
        exact i3 t2 (hkeep t2 h2)
      · intro ss hlen hss
        rw [hmin, htasks]
        rcases i4 ss hlen hss with h | ⟨t2, h2, hp⟩
        · left
          omega
        · rcases hsplit t2 h2 with h3 | h3
          · subst h3
            left
            rw [← hpath] at hp
            have heq : c.sessions = ss :=
              hp.eq_of_length (by rw [hlen]; exact hsize)
            rw [← heq, built_score hbuilt]
          · exact Or.inr ⟨t2, h3, hp⟩
    · rw [if_neg hcomplete] at hmin htasks
      simp only at hmin htasks
      have hsize : c.size < n := by
        have h1 := built_size_le hbuilt
        have h2 : c.size ≠ n := by simpa [Schedule.complete] using hcomplete
        omega
      refine ⟨by rw [hmin]; exact i1, ?_, ?_⟩
      · intro t2 h2
        rw [htasks, List.mem_append] at h2
        rcases h2 with h2 | h2
        · exact i3 t2 (hkeep t2 h2)
        · rw [List.mem_map] at h2
          obtain ⟨s, hs, rfl⟩ := h2
          exact ⟨hbuilt, hs, hsize⟩
      · intro ss hlen hss
        rw [hmin, htasks]
        rcases i4 ss hlen hss with h | ⟨t2, h2, hp⟩
        · exact Or.inl h
        · rcases hsplit t2 h2 with h3 | h3
          · subst h3
            right
            rw [← hpath] at hp
            obtain ⟨r, hr2⟩ := hp
            cases r with
            | nil =>
              rw [List.append_nil] at hr2
              rw [← hr2] at hlen
              simp only [Schedule.size] at hsize
              omega
            | cons s r2 =>
              have hsP : s ∈ P := hss s (by rw [← hr2]; simp)
              refine ⟨Task.child c s, ?_, ?_⟩
              · rw [List.mem_append]
                exact Or.inr (List.mem_map_of_mem _ hsP)
              · refine ⟨r2, ?_⟩
                simp only [Task.path]
                rw [← hr2]
                simp
          · exact Or.inr ⟨t2, List.mem_append_left _ h3, hp⟩

theorem invariant_steps {n m : Nat} {P : List Session} (hm : ∀ s ∈ P, s.entries.length ≤ m)
    (hw : 3 * m * n < UINT_SIZE) {T : Nat} {st st2 : Search}
    (hinv : Search.invariant n P T st) (hsteps : Search.Steps n P st st2) :
    Search.invariant n P T st2 := by
  induction hsteps with
  | refl => exact hinv
  | tail _ _ _ h2 ih => exact invariant_step hm hw ih h2

theorem mem_sequences (P : List Session) (k : Nat) (ss : List Session) :
    ss ∈ sequences P k ↔ ss.length = k ∧ ∀ s ∈ ss, s ∈ P := by
  induction k generalizing ss with
  | zero =>
    simp only [sequences, List.mem_singleton]
    constructor
    · rintro rfl
      simp
    · rintro ⟨h, _⟩
      exact List.length_eq_zero.1 h
  | succ k ih =>
    simp only [sequences, List.mem_flatMap, List.mem_map]
    constructor
    · rintro ⟨s, hs, r, hr, rfl⟩
      obtain ⟨h1, h2⟩ := (ih r).1 hr
      refine ⟨by simp [h1], ?_⟩
      intro x hx
      rcases List.mem_cons.1 hx with hx | hx
      · rw [hx]
        exact hs
      · exact h2 x hx
    · rintro ⟨h1, h2⟩
      cases ss with
      | nil => simp at h1
      | cons s r =>
        refine ⟨s, h2 s (List.mem_cons_self _ _), r, (ih r).2 ⟨by simpa using h1, ?_⟩, rfl⟩
        exact fun x hx => h2 x (List.mem_cons_of_mem _ hx)

theorem foldl_min_eq (l : List Nat) (T v : Nat) (h1 : v ≤ T) (h2 : ∀ x ∈ l, v ≤ x)
    (h3 : v = T ∨ v ∈ l) : l.foldl min T = v := by
  induction l generalizing T with
  | nil =>
    rcases h3 with h3 | h3
    · exact h3.symm
    · simp at h3
  | cons x rest ih =>
    rw [List.foldl_cons]
    have hx := h2 x (List.mem_cons_self _ _)
    apply ih
    · exact le_min h1 hx
    · exact fun y hy => h2 y (List.mem_cons_of_mem _ hy)
    · rcases h3 with h3 | h3
      · left
        rw [h3] at hx ⊢
        exact (min_eq_left hx).symm
      · rcases List.mem_cons.1 h3 with h4 | h4
        · left
          rw [h4] at h1 ⊢
          exact (min_eq_right h1).symm
        · exact Or.inr h4

theorem search_optimal {n m : Nat} {P : List Session} (hm : ∀ s ∈ P, s.entries.length ≤ m)
    (hw : 3 * m * n < UINT_SIZE) {T : Nat} {st : Search}
    (hrun : Search.Steps n P (Search.init (Schedule.with_conflicts T)) st)
    (hdone : st.tasks = []) :
    st.min_schedule.conflicts = best_score n P T ∧
    ((∃ ss, ss.length = n ∧ (∀ s ∈ ss, s ∈ P) ∧ score n ss < T) →
      st.min_schedule.complete n = true ∧ (∀ s ∈ st.min_schedule.sessions, s ∈ P) ∧
      build_schedule n st.min_schedule.sessions = some st.min_schedule ∧
      st.min_schedule.conflicts = score n st.min_schedule.sessions) := by
  have hinv := invariant_steps hm hw (invariant_init n P T) hrun
  have hle := invariant_min_le hinv
  obtain ⟨i1, _, i4⟩ := hinv
  have hall : ∀ ss : List Session, ss.length = n → (∀ s ∈ ss, s ∈ P) →
      st.min_schedule.conflicts ≤ score n ss := by
    intro ss h1 h2
    rcases i4 ss h1 h2 with h | ⟨t, ht, _⟩
    · exact h
    · rw [hdone] at ht
      simp at ht
  refine ⟨?_, ?_⟩
  · symm
    unfold best_score
    apply foldl_min_eq _ _ _ hle
    · intro x hx
      rw [List.mem_map] at hx
      obtain ⟨ss, hss, rfl⟩ := hx
      rw [mem_sequences] at hss
      exact hall ss hss.1 hss.2
    · rcases i1 with h | ⟨hb, hs, _⟩
      · left
        rw [h]
        rfl
      · right
        rw [List.mem_map]
        exact ⟨st.min_schedule.sessions, (mem_sequences _ _ _).2 ⟨hs, hb.2⟩, built_score hb⟩
  · rintro ⟨ss, h1, h2, h3⟩
    have h4 := hall ss h1 h2
    rcases i1 with h | ⟨hb, hs, _⟩
    · rw [h] at h4
      simp only [Schedule.with_conflicts] at h4
      omega
    · exact ⟨by simp [Schedule.complete, hs], hb.2, hb.1, (built_score hb).symm⟩

theorem enumerated_length {pairings : List Pair} {P : List Session}
    (h : enumerate_sessions activities pairings = some P) :
    ∀ s ∈ P, s.entries.length ≤ NUM_ACTIVITIES := by
  obtain ⟨perms, hg, _, hsound, _⟩ :=
    generate_sessions_spec activities activities_nodup (pairings.length + 1) pairings
      Session.empty [] 0 (filled_empty _) (by omega)
  unfold enumerate_sessions at h
  rw [hg] at h
  simp only [Option.map_some'] at h
  injection h with h
  subst h
  intro s hs2
  rcases hsound (by simp [Session.empty]) (by simp [Session.empty]) s hs2 with h1 | ⟨h1, _⟩
  · simp at h1
  · exact le_of_eq (sound_legal activities_nodup h1).1

theorem update_iterations_consistent (k : Counters) (hk : k.consistent) (nf ns : Nat) :
    ∃ k2, update_iterations k nf ns = some k2 ∧ k2.consistent := by
  unfold Counters.consistent at hk
  have hassert : ((k.total_full_iterations + nf) % UINT128_SIZE +
      (k.total_skipped_iterations + ns) % UINT128_SIZE) % UINT128_SIZE =
      (k.total_iterations + (nf + ns) % UINT128_SIZE) % UINT128_SIZE := by
    simp only [UINT128_SIZE, Nat.reducePow] at *
    omega
  unfold update_iterations
  simp only [hassert, if_true]
  split
  · refine ⟨_, rfl, ?_⟩
    unfold Counters.consistent
    simp only [hassert, Nat.mod_mod]
  · refine ⟨_, rfl, ?_⟩
    unfold Counters.consistent
    simp only [hassert, Nat.mod_mod]

theorem steps_head {n : Nat} {P : List Session} {st st2 st3 : Search}
    (h1 : Search.Step n P st st2) (h2 : Search.Steps n P st2 st3) : Search.Steps n P st st3 := by
  induction h2 with
  | refl => exact Search.Steps.tail _ _ _ (Search.Steps.refl _) h1
  | tail _ _ _ h3 ih => exact Search.Steps.tail _ _ _ ih h3

theorem tree_size_pos (k d : Nat) : 0 < tree_size k d := by
  cases d <;> simp [tree_size]

theorem run_task_ok {n : Nat} {P : List Session} (st : Search) (rest : List Task) (t : Task)
    (hok : t.ok n P) (hk : st.counters.consistent) :
    ∃ st2, Search.run_task n P st rest t = some st2 ∧ st2.counters.consistent := by
  have hsched : ∃ c, t.schedule_of n = some c := by
    cases t with
    | root c => exact ⟨c, rfl⟩
    | child c s => exact add_session_of_lt c s hok.2.2
  obtain ⟨c, hc⟩ := hsched
  unfold Search.run_task
  rw [hc]
  simp only
  cases hrec : (generate_schedules n P st.min_schedule c).recorded with
  | none => exact ⟨_, rfl, hk⟩
  | some r =>
    obtain ⟨r1, r2⟩ := r
    obtain ⟨k2, hu, hk2⟩ := update_iterations_consistent st.counters hk r1 r2
    simp only [hu]
    exact ⟨_, rfl, hk2⟩

theorem children_weight (n : Nat) (P : List Session) (c : Schedule) (hc : c.size < n) :
    ((P.map (fun session => Task.child c session)).map (Task.weight n P.length)).sum + 1 =
      tree_size P.length (n - c.sessions.length) := by
  have h1 : ∀ s : Session, Task.weight n P.length (Task.child c s) =
      tree_size P.length (n - c.sessions.length - 1) := by
    intro s
    simp only [Task.weight, Task.path, List.length_append, List.length_singleton]
    rfl
  rw [List.map_map]
  have h2 : (P.map (Task.weight n P.length ∘ fun session => Task.child c session)) =
      P.map (fun _ => tree_size P.length (n - c.sessions.length - 1)) := by
    apply List.map_congr_left
    intro s _
    exact h1 s
  rw [h2, List.map_const', List.sum_replicate, smul_eq_mul]
  have h3 : n - c.sessions.length = (n - c.sessions.length - 1) + 1 := by
    simp only [Schedule.size] at hc
    omega
  conv_rhs => rw [h3]
  simp only [tree_size]
  omega

theorem enqueued_weight {n : Nat} {P : List Session} {t : Task} {c : Schedule}
    (hb : Schedule.built n P c) (hpath : c.sessions = t.path) (min_schedule : Schedule) :
    (((generate_schedules n P min_schedule c).enqueued).map (Task.weight n P.length)).sum + 1 ≤
      Task.weight n P.length t := by
  unfold generate_schedules
  by_cases hprune : c.conflicts ≥ min_schedule.conflicts
  · rw [if_pos hprune]
    simp only [List.map_nil, List.sum_nil, zero_add]
    exact tree_size_pos _ _
  · rw [if_neg hprune]
    by_cases hcomplete : c.complete n = true
    · rw [if_pos hcomplete]
      simp only [List.map_nil, List.sum_nil, zero_add]
      exact tree_size_pos _ _
    · rw [if_neg hcomplete]
      have hsize : c.size < n := by
        have h1 := built_size_le hb
        have h2 : c.size ≠ n := by simpa [Schedule.complete] using hcomplete
        omega
      simp only
      rw [children_weight n P c hsize, Task.weight, hpath]

theorem run_fifo_terminates {n m : Nat} {P : List Session}
    (hm : ∀ s ∈ P, s.entries.length ≤ m) (hw : 3 * m * n < UINT_SIZE) {T : Nat} :
    ∀ (fuel : Nat) (st : Search), Search.invariant n P T st → st.counters.consistent →
      (st.tasks.map (Task.weight n P.length)).sum ≤ fuel →
      ∃ st2, Search.run_fifo n P fuel st = some st2 ∧ st2.tasks = [] ∧
        Search.Steps n P st st2 ∧ st2.counters.consistent := by
  intro fuel
  induction fuel with
  | zero =>
    intro st _ hk hsum
    cases htasks : st.tasks with
    | nil =>
      refine ⟨st, ?_, htasks, Search.Steps.refl _, hk⟩
      simp [Search.run_fifo, htasks]
    | cons t rest =>
      rw [htasks, List.map_cons, List.sum_cons] at hsum
      have := tree_size_pos P.length (n - t.path.length)
      simp only [Task.weight] at hsum
      omega
  | succ fuel ih =>
    intro st hinv hk hsum
    cases htasks : st.tasks with
    | nil =>
      refine ⟨st, ?_, htasks, Search.Steps.refl _, hk⟩
      rw [Search.run_fifo]
      simp only [htasks]
    | cons t rest =>
      have hok : t.ok n P := hinv.2.1 t (by rw [htasks]; exact List.mem_cons_self _ _)
      obtain ⟨st2, hr, hk2⟩ := run_task_ok st rest t hok hk
      have hstep : Search.Step n P st st2 :=
        Search.Step.run st st2 [] rest t (by rw [htasks]; rfl) hr
      have hinv2 := invariant_step hm hw hinv hstep
      obtain ⟨c, hc, _, htasks2⟩ := run_task_some hr
      obtain ⟨hb, hpath⟩ := task_schedule_built hok hc
      have hwt := enqueued_weight hb hpath st.min_schedule
      have hsum2 : (st2.tasks.map (Task.weight n P.length)).sum ≤ fuel := by
        rw [htasks2, List.map_append, List.sum_append]
        rw [htasks, List.map_cons, List.sum_cons] at hsum
        omega
      obtain ⟨st3, h3, h4, h5, h6⟩ := ih st2 hinv2 hk2 hsum2
      refine ⟨st3, ?_, h4, steps_head hstep h5, h6⟩
      rw [Search.run_fifo]
      simp only [htasks, hr]
      exact h3

theorem search_terminates {n m : Nat} {P : List Session}
    (hm : ∀ s ∈ P, s.entries.length ≤ m) (hw : 3 * m * n < UINT_SIZE) (T : Nat) :
    ∃ st, Search.run_fifo n P (tree_size P.length n) (Search.init (Schedule.with_conflicts T)) =
        some st ∧ st.tasks = [] ∧
      Search.Steps n P (Search.init (Schedule.with_conflicts T)) st := by
  obtain ⟨st, h1, h2, h3, _⟩ := run_fifo_terminates hm hw (T := T) (tree_size P.length n)
    (Search.init (Schedule.with_conflicts T)) (invariant_init n P T)
    (by simp [Search.init, Counters.init, Counters.consistent])
    (by simp [Search.init, Task.weight, Task.path, Schedule.empty])
  exact ⟨st, h1, h2, h3⟩

theorem enumerate_sessions_some (pairings : List Pair) :
    ∃ P, enumerate_sessions activities pairings = some P := by
  obtain ⟨perms, hg, _⟩ :=
    generate_sessions_spec activities activities_nodup (pairings.length + 1) pairings
      Session.empty [] 0 (filled_empty _) (by omega)
  exact ⟨perms, by simp [enumerate_sessions, hg]⟩

/-- C1: optimality of the branch-and-bound search.  For every set of pairings the enumerator
returns a set P of sessions; let min_schedule start as Schedule(T).  The search from the task of
main can be run until the queue is empty.  After any run in which every enqueued task has been
run, in whatever order, so that the queue is empty, min_schedule.conflicts is the minimum of T
and of the scores of all sequences of NUM_SESSIONS sessions of P, the score of a sequence being
the conflict count that add_session gives it from the empty schedule; and when some sequence
has a score below T, min_schedule is complete, consists of sessions of P, is the schedule that
add_session builds from its own sequence of sessions, and its conflicts are the score of that
sequence. -/
theorem branch_and_bound_optimal (pairings : List Pair) (T : Nat) :
    ∃ P, enumerate_sessions activities pairings = some P ∧
      (∃ st, Search.Steps NUM_SESSIONS P (Search.init (Schedule.with_conflicts T)) st ∧
        st.tasks = []) ∧
      ∀ st : Search, Search.Steps NUM_SESSIONS P (Search.init (Schedule.with_conflicts T)) st →
        st.tasks = [] →
        st.min_schedule.conflicts = best_score NUM_SESSIONS P T ∧
        ((∃ ss, ss.length = NUM_SESSIONS ∧ (∀ s ∈ ss, s ∈ P) ∧ score NUM_SESSIONS ss < T) →
          st.min_schedule.complete NUM_SESSIONS = true ∧
          (∀ s ∈ st.min_schedule.sessions, s ∈ P) ∧
          build_schedule NUM_SESSIONS st.min_schedule.sessions = some st.min_schedule ∧
          st.min_schedule.conflicts = score NUM_SESSIONS st.min_schedule.sessions) := by
  obtain ⟨P, hP⟩ := enumerate_sessions_some pairings
  have hm := enumerated_length hP
  have hw : 3 * NUM_ACTIVITIES * NUM_SESSIONS < UINT_SIZE := by decide
  refine ⟨P, hP, ?_, fun st hrun hdone => search_optimal hm hw hrun hdone⟩
  obtain ⟨st, _, h2, h3⟩ := search_terminates hm hw T
  exact ⟨st, h3, h2⟩

/-! ## Properties: construction of facilitators and pairs -/

/-- C14: construction of a facilitator.  The constructor Facilitator(n, p) throws
invalid_argument exactly when the name n is empty; otherwise it returns the facilitator of name
n and position p, for which is_empty() is false and is_junior() holds exactly when p is junior.
The default constructor Facilitator() gives the sentinel: is_empty() is true and is_junior() is
false. -/
theorem facilitator_construction (n : String) (p : Position) :
    ((∃ msg, Facilitator.new n p = Except.error msg) ↔ n = "") ∧
    (n ≠ "" → Facilitator.new n p = Except.ok ⟨n, some p⟩) ∧
    (∀ f, Facilitator.new n p = Except.ok f →
      f.name = n ∧ f.position = some p ∧ f.is_empty = false ∧
      (f.is_junior = true ↔ p = Position.junior)) ∧
    Facilitator.empty.is_empty = true ∧ Facilitator.empty.is_junior = false ∧
    Facilitator.empty.name = "" ∧ Facilitator.empty.position = none := by
  have hiff : n.isEmpty = true ↔ n = "" := String.isEmpty_iff n
  refine ⟨?_, ?_, ?_, rfl, rfl, rfl, rfl⟩
  · unfold Facilitator.new
    constructor
    · rintro ⟨msg, h⟩
      by_cases hn : n.isEmpty = true
      · exact hiff.1 hn
      · rw [if_neg hn] at h
        exact absurd h (by simp)
    · intro hn
      rw [if_pos (hiff.2 hn)]
      exact ⟨_, rfl⟩
  · intro hn
    unfold Facilitator.new
    rw [if_neg (fun h => hn (hiff.1 h))]
  · intro f hf
    unfold Facilitator.new at hf
    by_cases hn : n.isEmpty = true
    · rw [if_pos hn] at hf
      exact absurd hf (by simp)
    · rw [if_neg hn] at hf
      injection hf with hf
      subst hf
      refine ⟨rfl, rfl, rfl, ?_⟩
      cases p <;> simp [Facilitator.is_junior]

/-- C13: construction of a pair.  The constructor Pair(f, s) fails its assertion, so that no
pair is produced, exactly when one of f and s is empty and the other is not; when both are empty
or both are not, it returns the pair of f and s.  The default constructor Pair() gives the empty
pairing, for which is_empty_pair() is true.  A facilitator that one of the two constructors of
Facilitator has built is empty exactly when it is the sentinel Facilitator(). -/
theorem pair_construction (f s : Facilitator) :
    (Pair.new f s = none ↔
      (f.is_empty = true ∧ s.is_empty = false) ∨ (f.is_empty = false ∧ s.is_empty = true)) ∧
    ((f.is_empty = false ∧ s.is_empty = false) ∨ (f.is_empty = true ∧ s.is_empty = true) →
      Pair.new f s = some ⟨f, s⟩) ∧
    Pair.new Facilitator.empty Facilitator.empty = some Pair.empty ∧
    Pair.empty.is_empty_pair = true ∧
    (∀ n p g, Facilitator.new n p = Except.ok g →
      (g.is_empty = true ↔ g = Facilitator.empty)) := by
  refine ⟨?_, ?_, rfl, rfl, ?_⟩
  · unfold Pair.new
    cases f.is_empty <;> cases s.is_empty <;> simp
  · unfold Pair.new
    cases f.is_empty <;> cases s.is_empty <;> simp
  · intro n p g hg
    unfold Facilitator.new at hg
    split at hg
    · exact absurd hg (by simp)
    · injection hg with hg
      subst hg
      simp [Facilitator.is_empty, Facilitator.empty]

/-! ## Properties: add_session on schedules built from the empty schedule -/

theorem fold_add_entry_filter (es : List (Activity × Pair)) (c : Schedule) :
    es.foldl Schedule.add_entry c =
      (es.filter (fun e => !e.2.is_empty_pair)).foldl Schedule.add_entry c := by
  induction es generalizing c with
  | nil => rfl
  | cons e rest ih =>
    by_cases he : e.2.is_empty_pair = true
    · rw [List.foldl_cons, add_entry_empty c e he, List.filter_cons_of_neg (by simp [he])]
      exact ih c
    · rw [List.foldl_cons, List.filter_cons_of_pos (by simpa using he), List.foldl_cons]
      exact ih _

/-- C12: empty pairings are inert.  For a schedule c with fewer than n sessions and a session
s: the loop body of add_session leaves the schedule as it is at an empty pairing; add_session
gives the same conflicts, facilitator_activities and selected_pairings as it would if the empty
pairings of s were not there; and when all the pairings of s are empty, add_session leaves
conflicts, facilitator_activities and selected_pairings as they were and only appends s to the
sequence of sessions. -/
theorem empty_pairings_inert (n : Nat) (c : Schedule) (s : Session) (hn : c.size < n) :
    (∀ (c0 : Schedule) (e : Activity × Pair), e.2.is_empty_pair = true →
      Schedule.add_entry c0 e = c0) ∧
    (∃ c2, Schedule.add_session n c s = some c2 ∧
      c2.sessions = c.sessions ++ [s] ∧
      (∀ c3, Schedule.add_session n c
          ⟨s.entries.filter (fun e => !e.2.is_empty_pair), s.free_activity_idx⟩ = some c3 →
        c2.conflicts = c3.conflicts ∧
        c2.facilitator_activities = c3.facilitator_activities ∧
        c2.selected_pairings = c3.selected_pairings) ∧
      ((∀ e ∈ s.entries, e.2.is_empty_pair = true) →
        c2 = { c with sessions := c.sessions ++ [s] })) := by
  refine ⟨add_entry_empty, ?_⟩
  refine ⟨{ (s.entries.foldl Schedule.add_entry c) with
      sessions := (s.entries.foldl Schedule.add_entry c).sessions ++ [s] },
    by simp only [Schedule.add_session, if_pos hn], ?_, ?_, ?_⟩
  · show (s.entries.foldl Schedule.add_entry c).sessions ++ [s] = _
    rw [fold_add_entry_sessions]
  · intro c3 h3
    simp only [Schedule.add_session, if_pos hn] at h3
    injection h3 with h3
    subst h3
    simp only
    rw [← fold_add_entry_filter]
    exact ⟨rfl, rfl, rfl⟩
  · intro hall
    have hnil : s.entries.filter (fun e => !e.2.is_empty_pair) = [] := by
      rw [List.filter_eq_nil_iff]
      intro e he
      simp [hall e he]
    rw [fold_add_entry_filter, hnil]
    rfl

/-- An instance of C12: a session of six empty pairings is added to the schedule that holds
example_session. -/
theorem empty_pairings_inert_witness :
    (Schedule.mk [example_session] 0 [("Shepard", [junior "Daisy Duke"])] []).size <
      NUM_SESSIONS ∧
    Schedule.add_session NUM_SESSIONS
        (Schedule.mk [example_session] 0 [("Shepard", [junior "Daisy Duke"])] [])
        ⟨activities.map (fun a => (a, Pair.empty)), 6⟩ =
      some (Schedule.mk [example_session, ⟨activities.map (fun a => (a, Pair.empty)), 6⟩] 0
        [("Shepard", [junior "Daisy Duke"])] []) :=
  ⟨by decide, by
    obtain ⟨c2, h1, _, _, h4⟩ := (empty_pairings_inert NUM_SESSIONS
      (Schedule.mk [example_session] 0 [("Shepard", [junior "Daisy Duke"])] [])
      ⟨activities.map (fun a => (a, Pair.empty)), 6⟩ (by decide)).2
    rw [h1, h4 (by decide)]
    rfl⟩

/-- C11, as amended: conflicts never decrease.  Let c be a schedule built from the empty schedule by
add_session, with c.size() < NUM_SESSIONS, and let s be a session, where s and the sessions of
c hold at most m pairings each, for a bound m with 3 * m * NUM_SESSIONS < 2^32; NUM_ACTIVITIES
is such a bound, and more than NUM_ACTIVITIES pairings is what the assertion of assign_pair
calls too many pairings in the session.  Then add_session returns, the conflict counter
afterwards is at least the counter before and at most 3 per pairing of s more, without
wrap-around of the unsigned int, and the schedule has exactly one session more, s at its end. -/
theorem conflicts_never_decrease (m : Nat) (ss : List Session) (s : Session) (c : Schedule)
    (hm : 3 * m * NUM_SESSIONS < UINT_SIZE)
    (hss : ∀ x ∈ ss, x.size ≤ m) (hs : s.size ≤ m)
    (hc : build_schedule NUM_SESSIONS ss = some c) (hsize : c.size < NUM_SESSIONS) :
    ∃ c2, Schedule.add_session NUM_SESSIONS c s = some c2 ∧
      c.conflicts ≤ c2.conflicts ∧ c2.conflicts ≤ c.conflicts + 3 * s.size ∧
      c2.conflicts < UINT_SIZE ∧
      c2.size = c.size + 1 ∧ c2.sessions = c.sessions ++ [s] := by
  obtain ⟨hsess, hlen⟩ := build_schedule_some hc
  have hlen1 : ss.length + 1 ≤ NUM_SESSIONS := by
    simp only [Schedule.size, hsess] at hsize
    omega
  have hmul : 3 * m * (ss.length + 1) ≤ 3 * m * NUM_SESSIONS := Nat.mul_le_mul_left _ hlen1
  rw [Nat.mul_add, Nat.mul_one] at hmul
  obtain ⟨c1, h1, _, _, h4⟩ := fold_add_session NUM_SESSIONS m ss Schedule.empty
    hss (by simpa [Schedule.empty, Schedule.size] using hlen)
    (by simp only [Schedule.empty]; omega)
  have hc1 : c1 = c := by
    unfold build_schedule at hc
    rw [h1] at hc
    injection hc
  subst hc1
  simp only [Schedule.empty] at h4
  obtain ⟨c2, h2⟩ := add_session_of_lt (n := NUM_SESSIONS) c1 s hsize
  obtain ⟨_, hs2, hconf⟩ := add_session_some h2
  simp only [Session.size] at hs
  have hs3 : 3 * s.entries.length ≤ 3 * m := Nat.mul_le_mul_left _ hs
  have hb := fold_add_entry_bounds s.entries c1 (by omega)
  refine ⟨c2, h2, ?_, ?_, ?_, ?_, hs2⟩
  · rw [hconf]
    exact hb.1
  · rw [hconf]
    exact hb.2
  · rw [hconf]
    omega
  · simp [Schedule.size, hs2]

/-- An instance of the amended C11: example_session is added a second time to the schedule built from it,
with the bound NUM_ACTIVITIES on the pairings of a session. -/
theorem conflicts_never_decrease_witness :
    3 * NUM_ACTIVITIES * NUM_SESSIONS < UINT_SIZE ∧
    (∀ x ∈ [example_session], x.size ≤ NUM_ACTIVITIES) ∧
    example_session.size ≤ NUM_ACTIVITIES ∧
    build_schedule NUM_SESSIONS [example_session] = some example_schedule ∧
    example_schedule.size < NUM_SESSIONS ∧
    ∃ c2, Schedule.add_session NUM_SESSIONS example_schedule example_session = some c2 ∧
      example_schedule.conflicts ≤ c2.conflicts ∧
      c2.conflicts ≤ example_schedule.conflicts + 3 * example_session.size ∧
      c2.conflicts < UINT_SIZE ∧
      c2.size = example_schedule.size + 1 ∧
      c2.sessions = example_schedule.sessions ++ [example_session] :=
  ⟨by decide, by decide, by decide, by decide, by decide,
    conflicts_never_decrease NUM_ACTIVITIES [example_session] example_session example_schedule
      (by decide) (by decide) (by decide) (by decide) (by decide)⟩

theorem add_session_single {n : Nat} {c c2 : Schedule} {s : Session} {a : Activity} {p : Pair}
    (hs : s.entries.filter (fun e => !e.2.is_empty_pair) = [(a, p)])
    (h : Schedule.add_session n c s = some c2) (hc : c.conflicts < UINT_SIZE) :
    c2.conflicts % UINT_SIZE = (c.conflicts + entry_conflicts c (a, p)) % UINT_SIZE ∧
    c2.conflicts < UINT_SIZE ∧
    USet.count Pair.eq c2.selected_pairings p = 1 ∧
    USet.count Facilitator.eq (Schedule.facilitators_of c2.facilitator_activities a) p.first = 1 ∧
    USet.count Facilitator.eq (Schedule.facilitators_of c2.facilitator_activities a) p.second = 1 ∧
    c2.size = c.size + 1 := by
  have hne : p.is_empty_pair = false := by
    have : (a, p) ∈ s.entries.filter (fun e => !e.2.is_empty_pair) := by
      rw [hs]
      exact List.mem_singleton.2 rfl
    simpa using (List.mem_filter.1 this).2
  unfold Schedule.add_session at h
  split at h
  · injection h with h
    subst h
    simp only
    rw [fold_add_entry_filter, hs, List.foldl_cons, List.foldl_nil]
    refine ⟨add_entry_conflicts c (a, p), add_entry_conflicts_lt c (a, p) hc, ?_, ?_, ?_, ?_⟩
    · rw [add_entry_selected_iff]
      exact Or.inr ⟨hne, pair_eq_self p⟩
    · rw [add_entry_facilitators_iff]
      exact Or.inr ⟨hne, rfl, Or.inl rfl⟩
    · rw [add_entry_facilitators_iff]
      exact Or.inr ⟨hne, rfl, Or.inr rfl⟩
    · simp [Schedule.size, add_entry_sessions]
  · exact absurd h (by simp)

theorem repeated_single {n : Nat} (hn : 3 * n < UINT_SIZE) {s : Session} {a : Activity}
    {p : Pair} (hs : s.entries.filter (fun e => !e.2.is_empty_pair) = [(a, p)]) :
    ∀ k : Nat, k + 1 ≤ n →
      ∃ c, build_schedule n (List.replicate (k + 1) s) = some c ∧
        c.conflicts = 3 * k ∧ c.size = k + 1 ∧
        USet.count Pair.eq c.selected_pairings p = 1 ∧
        USet.count Facilitator.eq
          (Schedule.facilitators_of c.facilitator_activities a) p.first = 1 ∧
        USet.count Facilitator.eq
          (Schedule.facilitators_of c.facilitator_activities a) p.second = 1 := by
  have hne : p.is_empty_pair = false := by
    have : (a, p) ∈ s.entries.filter (fun e => !e.2.is_empty_pair) := by
      rw [hs]
      exact List.mem_singleton.2 rfl
    simpa using (List.mem_filter.1 this).2
  intro k
  induction k with
  | zero =>
    intro hk
    obtain ⟨c, hc⟩ := add_session_of_lt (n := n) Schedule.empty s
      (by simp [Schedule.empty, Schedule.size]; omega)
    obtain ⟨h1, h2, h3, h4, h5, h6⟩ := add_session_single hs hc
      (by simp [Schedule.empty, UINT_SIZE])
    refine ⟨c, ?_, ?_, by simpa [Schedule.empty, Schedule.size] using h6, h3, h4, h5⟩
    · simp only [build_schedule, List.replicate, List.foldlM_cons, List.foldlM_nil]
      rw [hc]
      rfl
    · have he : entry_conflicts Schedule.empty (a, p) = 0 := by
        simp [entry_conflicts, hne, Schedule.empty, Schedule.facilitators_of, USet.count]
      rw [he] at h1
      simp only [Schedule.empty, Nat.add_zero, Nat.zero_mod] at h1
      rw [Nat.mod_eq_of_lt h2] at h1
      exact h1
  | succ k ih =>
    intro hk
    obtain ⟨c, hb, hconf, hsize, hsel, hf1, hf2⟩ := ih (by omega)
    obtain ⟨c2, hc2⟩ := add_session_of_lt (n := n) c s (by omega)
    obtain ⟨h1, h2, h3, h4, h5, h6⟩ := add_session_single hs hc2 (by omega)
    refine ⟨c2, ?_, ?_, by omega, h3, h4, h5⟩
    · rw [List.replicate_succ', build_schedule_append, hb]
      simp only [Option.bind, List.foldlM_cons, List.foldlM_nil]
      rw [hc2]
      rfl
    · have he : entry_conflicts c (a, p) = 3 := by
        simp [entry_conflicts, hne, hsel, hf1, hf2]
      rw [he, Nat.mod_eq_of_lt h2, Nat.mod_eq_of_lt (by omega)] at h1
      omega

/-- C19, as amended: the repeated-pairing scenario.  Let s be a session with exactly one
non-empty pairing p, under the label a, and let 1 <= N <= NUM_SESSIONS.  The schedule built from
the empty schedule by adding s N times has exactly 3 * (N - 1) conflicts: every repeat after the
first use counts one conflict for the pairing used again and one for each of its two members
leading the same activity again. -/
theorem repeated_pairing_conflicts (s : Session) (a : Activity) (p : Pair) (N : Nat)
    (hs : s.entries.filter (fun e => !e.2.is_empty_pair) = [(a, p)])
    (h1 : 1 ≤ N) (h2 : N ≤ NUM_SESSIONS) :
    ∃ c, build_schedule NUM_SESSIONS (List.replicate N s) = some c ∧
      c.conflicts = 3 * (N - 1) ∧ c.size = N ∧ score NUM_SESSIONS (List.replicate N s) =
        3 * (N - 1) := by
  obtain ⟨k, rfl⟩ : ∃ k, N = k + 1 := ⟨N - 1, by omega⟩
  obtain ⟨c, hb, hconf, hsize, _⟩ :=
    repeated_single (n := NUM_SESSIONS) (by decide) hs k h2
  refine ⟨c, hb, by simpa using hconf, hsize, ?_⟩
  unfold score
  rw [hb]
  simpa using hconf

/-- An instance of the amended C19: the session single_pairing_session added three times. -/
theorem repeated_pairing_conflicts_witness :
    single_pairing_session.entries.filter (fun e => !e.2.is_empty_pair) =
      [("Hank's Planks", ⟨junior "Adam Apples", junior "Betty Blues"⟩)] ∧
    1 ≤ 3 ∧ 3 ≤ NUM_SESSIONS ∧
    ∃ c, build_schedule NUM_SESSIONS (List.replicate 3 single_pairing_session) = some c ∧
      c.conflicts = 3 * (3 - 1) ∧ c.size = 3 ∧
      score NUM_SESSIONS (List.replicate 3 single_pairing_session) = 3 * (3 - 1) :=
  ⟨by decide, by decide, by decide,
    repeated_pairing_conflicts single_pairing_session "Hank's Planks"
      ⟨junior "Adam Apples", junior "Betty Blues"⟩ 3 (by decide) (by decide) (by decide)⟩

/-- Counterexample to C19 as stated: the session single_pairing_session holds one pairing, of
two juniors, under one label; added twice to the empty schedule it gives 3 conflicts, not
2 - 1 = 1, and added six times 15, not 5. -/
theorem repeated_pairing_counts_three :
    single_pairing_session.valid ∧
    single_pairing_session.entries =
      [("Hank's Planks", ⟨junior "Adam Apples", junior "Betty Blues"⟩)] ∧
    (Pair.mk (junior "Adam Apples") (junior "Betty Blues")).is_junior_pairing = true ∧
    (Pair.mk (junior "Adam Apples") (junior "Betty Blues")).is_empty_pair = false ∧
    (build_schedule NUM_SESSIONS (List.replicate 2 single_pairing_session)).map
      Schedule.conflicts = some 3 ∧
    (build_schedule NUM_SESSIONS (List.replicate 2 single_pairing_session)).map
      Schedule.conflicts ≠ some (2 - 1) ∧
    (build_schedule NUM_SESSIONS (List.replicate 6 single_pairing_session)).map
      Schedule.conflicts = some 15 := by
  refine ⟨by decide, by decide, by decide, by decide, by decide, by decide, by decide⟩

/-! ## Properties: the thread pool and the iteration counters -/

/-- C15: submission after shutdown is rejected.  For every state of the pool and every task,
enqueue throws runtime_error exactly when the flag stop is set, and then leaves the pool, its
queue included, as it was; otherwise it succeeds, the queue afterwards is the old queue with the
task at the back, and tasks_busy and stop are as before. -/
theorem enqueue_rejects_after_stop {τ : Type} (pool : ThreadPool τ) (task : τ) :
    ((∃ msg, (pool.enqueue task).2 = Except.error msg) ↔ pool.stop = true) ∧
    (pool.stop = true → (pool.enqueue task).1 = pool ∧
      (pool.enqueue task).1.tasks = pool.tasks) ∧
    (pool.stop = false → (pool.enqueue task).2 = Except.ok () ∧
      (pool.enqueue task).1.tasks = pool.tasks ++ [task] ∧
      (pool.enqueue task).1.tasks_busy = pool.tasks_busy ∧
      (pool.enqueue task).1.stop = false) := by
  unfold ThreadPool.enqueue
  cases hs : pool.stop
  · simp [hs]
  · simp

theorem update_iterations_totals (k : Counters) (hk : k.consistent) (nf ns : Nat) :
    ∃ k2, update_iterations k nf ns = some k2 ∧
      k2.total_full_iterations = (k.total_full_iterations + nf) % UINT128_SIZE ∧
      k2.total_skipped_iterations = (k.total_skipped_iterations + ns) % UINT128_SIZE ∧
      k2.total_iterations = (k.total_iterations + nf + ns) % UINT128_SIZE ∧
      ((k2.last_iteration_count_printed =
            (k2.total_iterations / granularity) * granularity % UINT128_SIZE ∧
          k2.reports = k.reports ++ [(k2.total_full_iterations, k2.total_skipped_iterations,
            k2.total_iterations)] ∧
          (k2.total_iterations + (UINT128_SIZE - k.last_iteration_count_printed)) %
            UINT128_SIZE ≥ granularity) ∨
        (k2.last_iteration_count_printed = k.last_iteration_count_printed ∧
          k2.reports = k.reports ∧
          (k2.total_iterations + (UINT128_SIZE - k.last_iteration_count_printed)) %
            UINT128_SIZE < granularity)) := by
  unfold Counters.consistent at hk
  have hassert : ((k.total_full_iterations + nf) % UINT128_SIZE +
      (k.total_skipped_iterations + ns) % UINT128_SIZE) % UINT128_SIZE =
      (k.total_iterations + (nf + ns) % UINT128_SIZE) % UINT128_SIZE := by
    simp only [UINT128_SIZE, Nat.reducePow] at *
    omega
  have htotal : (k.total_iterations + (nf + ns) % UINT128_SIZE) % UINT128_SIZE =
      (k.total_iterations + nf + ns) % UINT128_SIZE := by
    simp only [UINT128_SIZE, Nat.reducePow]
    omega
  unfold update_iterations
  simp only [hassert, if_true]
  split
  · rename_i hge
    refine ⟨_, rfl, rfl, rfl, htotal, Or.inl ⟨rfl, rfl, hge⟩⟩
  · rename_i hlt
    refine ⟨_, rfl, rfl, rfl, htotal, Or.inr ⟨rfl, rfl, Nat.lt_of_not_le hlt⟩⟩

/-- C16, as amended: the counters after update_iterations.  For counters that agree (the full
and the skipped iterations add up to the total, as they do initially and after every call) and
every pair of arguments, update_iterations passes its assertion, and the totals of full, skipped
and all iterations afterwards are the sums old_full + new_full, old_skipped + new_skipped and
old_total + new_full + new_skipped reduced modulo 2^128, the counters being 128-bit unsigned
integers; each is the exact sum whenever that sum is below 2^128. -/
theorem update_iterations_sums (k : Counters) (new_full_iterations new_skipped_iterations : Nat)
    (hk : k.consistent) :
    ∃ k2, update_iterations k new_full_iterations new_skipped_iterations = some k2 ∧
      k2.consistent ∧
      k2.total_full_iterations =
        (k.total_full_iterations + new_full_iterations) % UINT128_SIZE ∧
      k2.total_skipped_iterations =
        (k.total_skipped_iterations + new_skipped_iterations) % UINT128_SIZE ∧
      k2.total_iterations =
        (k.total_iterations + new_full_iterations + new_skipped_iterations) % UINT128_SIZE ∧
      (k.total_full_iterations + new_full_iterations < UINT128_SIZE →
        k2.total_full_iterations = k.total_full_iterations + new_full_iterations) ∧
      (k.total_skipped_iterations + new_skipped_iterations < UINT128_SIZE →
        k2.total_skipped_iterations = k.total_skipped_iterations + new_skipped_iterations) ∧
      (k.total_iterations + new_full_iterations + new_skipped_iterations < UINT128_SIZE →
        k2.total_iterations =
          k.total_iterations + new_full_iterations + new_skipped_iterations) := by
  obtain ⟨k2, h, h1, h2, h3, _⟩ :=
    update_iterations_totals k hk new_full_iterations new_skipped_iterations
  obtain ⟨k3, h4, h5⟩ :=
    update_iterations_consistent k hk new_full_iterations new_skipped_iterations
  have hk3 : k3 = k2 := by
    rw [h] at h4
    injection h4 with h4
    exact h4.symm
  subst hk3
  refine ⟨k3, h, h5, h1, h2, h3, ?_, ?_, ?_⟩
  · intro hlt
    rw [h1, Nat.mod_eq_of_lt hlt]
  · intro hlt
    rw [h2, Nat.mod_eq_of_lt hlt]
  · intro hlt
    rw [h3, Nat.mod_eq_of_lt hlt]

/-- An instance of the amended C16: the first completed iteration is recorded. -/
theorem update_iterations_sums_witness :
    Counters.init.consistent ∧
    ∃ k2, update_iterations Counters.init 1 0 = some k2 ∧
      k2.consistent ∧
      k2.total_full_iterations = (Counters.init.total_full_iterations + 1) % UINT128_SIZE ∧
      k2.total_skipped_iterations =
        (Counters.init.total_skipped_iterations + 0) % UINT128_SIZE ∧
      k2.total_iterations = (Counters.init.total_iterations + 1 + 0) % UINT128_SIZE ∧
      (Counters.init.total_full_iterations + 1 < UINT128_SIZE →
        k2.total_full_iterations = Counters.init.total_full_iterations + 1) ∧
      (Counters.init.total_skipped_iterations + 0 < UINT128_SIZE →
        k2.total_skipped_iterations = Counters.init.total_skipped_iterations + 0) ∧
      (Counters.init.total_iterations + 1 + 0 < UINT128_SIZE →
        k2.total_iterations = Counters.init.total_iterations + 1 + 0) :=
  ⟨by decide, update_iterations_sums Counters.init 1 0 (by decide)⟩

/-- Counterexample to C16 as stated: after update_iterations(0, 2^128 - 1) on the initial
counters the total is 2^128 - 1; the call update_iterations(1, 0) then passes its assertion and
leaves the total at 0, not at the sum 2^128. -/
theorem update_iterations_wraps :
    (update_iterations Counters.init 0 (UINT128_SIZE - 1)).map Counters.total_iterations =
      some 340282366920938463463374607431768211455 ∧
    ((update_iterations Counters.init 0 (UINT128_SIZE - 1)).bind
      (fun k => update_iterations k 1 0)).map Counters.total_iterations = some 0 ∧
    ((update_iterations Counters.init 0 (UINT128_SIZE - 1)).bind
      (fun k => update_iterations k 1 0)).map Counters.total_iterations ≠
      some (340282366920938463463374607431768211455 + 1 + 0) := by
  refine ⟨by decide, by decide, by decide⟩

theorem update_iterations_marker (k : Counters) (hk : k.consistent) (hm : k.marked)
    (ho : k.reported_in_order) (nf ns : Nat)
    (hno : k.total_iterations + nf + ns < UINT128_SIZE) :
    ∃ k2, update_iterations k nf ns = some k2 ∧ k2.consistent ∧ k2.marked ∧
      k2.reported_in_order ∧
      k2.total_iterations = k.total_iterations + nf + ns ∧
      ((granularity ≤ k2.total_iterations - k.last_iteration_count_printed ∧
          k2.last_iteration_count_printed = (k2.total_iterations / granularity) * granularity ∧
          k.last_iteration_count_printed < k2.last_iteration_count_printed ∧
          k2.reports = k.reports ++ [(k2.total_full_iterations, k2.total_skipped_iterations,
            k2.total_iterations)]) ∨
        (k2.total_iterations - k.last_iteration_count_printed < granularity ∧
          k2.last_iteration_count_printed = k.last_iteration_count_printed ∧
          k2.reports = k.reports)) := by
  obtain ⟨k2, h, _, _, h3, hcase⟩ := update_iterations_totals k hk nf ns
  obtain ⟨k3, h4, h5⟩ := update_iterations_consistent k hk nf ns
  have hk3 : k3 = k2 := by
    rw [h] at h4
    injection h4 with h4
    exact h4.symm
  subst hk3
  rw [Nat.mod_eq_of_lt hno] at h3
  obtain ⟨m1, m2, m3⟩ := hm
  obtain ⟨q, hq⟩ := m1
  obtain ⟨o1, o2⟩ := ho
  have hsub : (k3.total_iterations + (UINT128_SIZE - k.last_iteration_count_printed)) %
      UINT128_SIZE = k3.total_iterations - k.last_iteration_count_printed := by
    simp only [UINT128_SIZE, Nat.reducePow] at *
    omega
  rw [hsub] at hcase
  rcases hcase with ⟨c1, c2, c3⟩ | ⟨c1, c2, c3⟩
  · have hlast : k3.last_iteration_count_printed =
        (k3.total_iterations / granularity) * granularity := by
      rw [c1]
      apply Nat.mod_eq_of_lt
      have := Nat.div_mul_le_self k3.total_iterations granularity
      omega
    have hgt : k.last_iteration_count_printed < k3.last_iteration_count_printed := by
      rw [hlast]
      simp only [granularity] at *
      omega
    refine ⟨k3, h, h5, ⟨?_, ?_, ?_⟩, ⟨?_, ?_⟩, h3, Or.inl ⟨c3, hlast, hgt, c2⟩⟩
    · rw [hlast]
      exact Nat.dvd_mul_left _ _
    · rw [hlast]
      exact Nat.div_mul_le_self _ _
    · rw [hlast]
      simp only [granularity]
      omega
    · unfold Counters.boundaries
      rw [c2, List.map_append, List.pairwise_append]
      refine ⟨o1, by simp, ?_⟩
      intro b hb b2 hb2
      simp only [List.map_cons, List.map_nil, List.mem_singleton] at hb2
      subst hb2
      have hb3 := o2 b hb
      rw [hlast] at hgt
      have : b * granularity < (k3.total_iterations / granularity) * granularity :=
        lt_of_le_of_lt hb3 hgt
      exact Nat.lt_of_mul_lt_mul_right this
    · intro b hb
      unfold Counters.boundaries at hb
      rw [c2, List.map_append, List.mem_append] at hb
      rcases hb with hb | hb
      · exact le_trans (o2 b hb) (le_of_lt hgt)
      · simp only [List.map_cons, List.map_nil, List.mem_singleton] at hb
        rw [hb, hlast]
  · refine ⟨k3, h, h5, ⟨?_, ?_, ?_⟩, ⟨?_, ?_⟩, h3, Or.inr ⟨c3, c1, c2⟩⟩
    · rw [c1]
      exact ⟨q, hq⟩
    · rw [c1]
      omega
    · rw [c1]
      exact c3
    · unfold Counters.boundaries
      rw [c2]
      exact o1
    · intro b hb
      unfold Counters.boundaries at hb
      rw [c2] at hb
      rw [c1]
      exact o2 b hb

theorem update_sequence_marker (calls : List (Nat × Nat)) :
    ∀ (k : Counters), k.consistent → k.marked → k.reported_in_order →
      k.total_iterations + (calls.map (fun a => a.1 + a.2)).sum < UINT128_SIZE →
      ∃ k2, update_sequence k calls = some k2 ∧ k2.consistent ∧ k2.marked ∧
        k2.reported_in_order ∧
        k2.total_iterations = k.total_iterations + (calls.map (fun a => a.1 + a.2)).sum := by
  induction calls with
  | nil =>
    intro k hk hm ho _
    exact ⟨k, rfl, hk, hm, ho, by simp⟩
  | cons a rest ih =>
    intro k hk hm ho hno
    rw [List.map_cons, List.sum_cons] at hno
    obtain ⟨k1, h1, c1, m1, o1, t1, _⟩ :=
      update_iterations_marker k hk hm ho a.1 a.2 (by omega)
    obtain ⟨k2, h2, c2, m2, o2, t2⟩ := ih k1 c1 m1 o1 (by omega)
    refine ⟨k2, ?_, c2, m2, o2, ?_⟩
    · unfold update_sequence at h2 ⊢
      rw [List.foldlM_cons, h1]
      exact h2
    · rw [t2, t1, List.map_cons, List.sum_cons]
      omega

theorem counters_init_ok :
    Counters.init.consistent ∧ Counters.init.marked ∧ Counters.init.reported_in_order := by
  refine ⟨by decide, by decide, ?_⟩
  simp [Counters.reported_in_order, Counters.boundaries, Counters.init]

/-- C17, as amended: progress is reported at most once per granularity boundary.  Take any
sequence of calls of update_iterations from the initial counters, followed by one more call,
such that the arguments of all of them add up to less than 2^128, so that the total does not
wrap.  All calls pass their assertion.  Before and after the last call the marker
last_iteration_count_printed is a multiple of the granularity, at most total_iterations, and
less than one granularity behind it.  The last call emits a report exactly when the new total is
at least one granularity beyond the old marker; it then sets the marker to the new total rounded
down to a multiple of the granularity, which is strictly greater than the old marker; otherwise
marker and reports stay as they are.  The boundaries reported so far increase strictly, so that
none is reported twice. -/
theorem progress_reported_once (calls : List (Nat × Nat))
    (new_full_iterations new_skipped_iterations : Nat)
    (hno : (calls.map (fun a => a.1 + a.2)).sum + new_full_iterations + new_skipped_iterations <
      UINT128_SIZE) :
    ∃ k k2, update_sequence Counters.init calls = some k ∧
      update_iterations k new_full_iterations new_skipped_iterations = some k2 ∧
      k.marked ∧ k2.marked ∧
      k2.total_iterations = k.total_iterations + new_full_iterations + new_skipped_iterations ∧
      ((granularity ≤ k2.total_iterations - k.last_iteration_count_printed ∧
          k2.last_iteration_count_printed = (k2.total_iterations / granularity) * granularity ∧
          k.last_iteration_count_printed < k2.last_iteration_count_printed ∧
          k2.reports = k.reports ++ [(k2.total_full_iterations, k2.total_skipped_iterations,
            k2.total_iterations)]) ∨
        (k2.total_iterations - k.last_iteration_count_printed < granularity ∧
          k2.last_iteration_count_printed = k.last_iteration_count_printed ∧
          k2.reports = k.reports)) ∧
      k2.boundaries.Pairwise (fun b1 b2 => b1 < b2) ∧
      (∀ b ∈ k2.boundaries, b * granularity ≤ k2.last_iteration_count_printed) := by
  obtain ⟨i1, i2, i3⟩ := counters_init_ok
  obtain ⟨k, h1, c1, m1, o1, t1⟩ := update_sequence_marker calls Counters.init i1 i2 i3
    (by simp only [Counters.init]; omega)
  simp only [Counters.init, Nat.zero_add] at t1
  obtain ⟨k2, h2, _, m2, o2, t2, hcase⟩ := update_iterations_marker k c1 m1 o1
    new_full_iterations new_skipped_iterations (by omega)
  exact ⟨k, k2, h1, h2, m1, m2, t2, hcase, o2.1, o2.2⟩

/-- An instance of the amended C17: after one call that passes the first boundary, a second call
that passes the third. -/
theorem progress_reported_once_witness :
    ([((1 : Nat), (1000000000004 : Nat))].map (fun a => a.1 + a.2)).sum + 0 + 2000000000000 <
      UINT128_SIZE ∧
    ∃ k k2, update_sequence Counters.init [(1, 1000000000004)] = some k ∧
      update_iterations k 0 2000000000000 = some k2 ∧
      k.marked ∧ k2.marked ∧
      k2.total_iterations = k.total_iterations + 0 + 2000000000000 ∧
      ((granularity ≤ k2.total_iterations - k.last_iteration_count_printed ∧
          k2.last_iteration_count_printed = (k2.total_iterations / granularity) * granularity ∧
          k.last_iteration_count_printed < k2.last_iteration_count_printed ∧
          k2.reports = k.reports ++ [(k2.total_full_iterations, k2.total_skipped_iterations,
            k2.total_iterations)]) ∨
        (k2.total_iterations - k.last_iteration_count_printed < granularity ∧
          k2.last_iteration_count_printed = k.last_iteration_count_printed ∧
          k2.reports = k.reports)) ∧
      k2.boundaries.Pairwise (fun b1 b2 => b1 < b2) ∧
      (∀ b ∈ k2.boundaries, b * granularity ≤ k2.last_iteration_count_printed) :=
  ⟨by decide, progress_reported_once [(1, 1000000000004)] 0 2000000000000 (by decide)⟩

/-- Counterexample to C17 as stated: after update_iterations(0, 2^128 - 1) the marker is the
total rounded down to a multiple of the granularity; the call update_iterations(1, 0) then wraps
the total to 0, emits no report and leaves the marker above the total; and the call
update_iterations(0, 2 * 10^12) instead wraps the total, emits a report and sets the marker to
10^12, below its previous value. -/
theorem marker_passes_total_on_wrap :
    (update_sequence Counters.init [(0, UINT128_SIZE - 1)]).map
        (fun k => (k.total_iterations, k.last_iteration_count_printed)) =
      some (340282366920938463463374607431768211455,
        340282366920938463463374607000000000000) ∧
    (update_sequence Counters.init [(0, UINT128_SIZE - 1), (1, 0)]).map
        (fun k => (k.total_iterations, k.last_iteration_count_printed, k.reports.length)) =
      some (0, 340282366920938463463374607000000000000, 1) ∧
    (update_sequence Counters.init [(0, UINT128_SIZE - 1), (1, 0)]).map
        (fun k => decide (k.last_iteration_count_printed ≤ k.total_iterations)) = some false ∧
    (update_sequence Counters.init [(0, UINT128_SIZE - 1), (0, 2000000000000)]).map
        (fun k => (k.total_iterations, k.last_iteration_count_printed, k.reports.length)) =
      some (1999999999999, 1000000000000, 2) := by
  refine ⟨by decide, by decide, by decide, by decide⟩

/-! ## Properties: the end-to-end scenario -/

theorem foldl_min_le (l : List Nat) (T : Nat) :
    l.foldl min T ≤ T ∧ ∀ x ∈ l, l.foldl min T ≤ x := by
  induction l generalizing T with
  | nil => simp
  | cons y rest ih =>
    rw [List.foldl_cons]
    obtain ⟨h1, h2⟩ := ih (min T y)
    refine ⟨le_trans h1 (min_le_left _ _), ?_⟩
    intro x hx
    rcases List.mem_cons.1 hx with hx | hx
    · rw [hx]
      exact le_trans h1 (min_le_right _ _)
    · exact h2 x hx

theorem best_score_le (n : Nat) (P : List Session) (T : Nat) (ss : List Session)
    (hlen : ss.length = n) (hss : ∀ s ∈ ss, s ∈ P) : best_score n P T ≤ score n ss := by
  unfold best_score
  apply (foldl_min_le _ T).2
  rw [List.mem_map]
  exact ⟨ss, (mem_sequences P n ss).2 ⟨hlen, hss⟩, rfl⟩

/-- C18: the end-to-end scenario.  For the roster of the seniors S1, S2 and the juniors J1, J2,
the construction of main gives exactly the six pairings (S1,J1), (S1,J2), (S2,J1), (S2,J2),
(J1,J2) and the empty one; for the two labels A and B the enumerator gives 14 sessions; and for
2 sessions per schedule and any positive initial threshold T of min_schedule (7 in the source),
the search can be run until the queue is empty, and after every such run min_schedule is a
complete schedule with 0 conflicts. -/
theorem end_to_end_scenario (T : Nat) (hT : 0 < T) :
    build_pairings scenario_roster = some scenario_pairings ∧
    scenario_pairings.length = 6 ∧
    (∀ p ∈ [Pair.mk (senior "S1") (junior "J1"), Pair.mk (senior "S1") (junior "J2"),
        Pair.mk (senior "S2") (junior "J1"), Pair.mk (senior "S2") (junior "J2"),
        Pair.mk (junior "J1") (junior "J2"), Pair.empty],
      USet.count Pair.eq scenario_pairings p = 1) ∧
    enumerate_sessions scenario_activities scenario_pairings = some scenario_sessions ∧
    (∃ st, Search.Steps 2 scenario_sessions (Search.init (Schedule.with_conflicts T)) st ∧
      st.tasks = []) ∧
    ∀ st : Search,
      Search.Steps 2 scenario_sessions (Search.init (Schedule.with_conflicts T)) st →
      st.tasks = [] →
      st.min_schedule.complete 2 = true ∧ st.min_schedule.conflicts = 0 ∧
      build_schedule 2 st.min_schedule.sessions = some st.min_schedule ∧
      ∀ s ∈ st.min_schedule.sessions, s ∈ scenario_sessions := by
  have hm : ∀ s ∈ scenario_sessions, s.entries.length ≤ 2 := by decide
  have hw : 3 * 2 * 2 < UINT_SIZE := by decide
  refine ⟨by decide, by decide, by decide, by decide, ?_, ?_⟩
  · obtain ⟨st, _, h2, h3⟩ := search_terminates hm hw T
    exact ⟨st, h3, h2⟩
  · intro st hrun hdone
    obtain ⟨h1, h2⟩ := search_optimal hm hw hrun hdone
    have hzero : score 2
        [scenario_session ⟨senior "S2", junior "J2"⟩ Pair.empty,
          scenario_session ⟨senior "S1", junior "J1"⟩ Pair.empty] = 0 := by decide
    have hle := best_score_le 2 scenario_sessions T
      [scenario_session ⟨senior "S2", junior "J2"⟩ Pair.empty,
        scenario_session ⟨senior "S1", junior "J1"⟩ Pair.empty] rfl (by decide)
    rw [hzero] at hle
    obtain ⟨h3, h4, h5, _⟩ := h2
      ⟨[scenario_session ⟨senior "S2", junior "J2"⟩ Pair.empty,
          scenario_session ⟨senior "S1", junior "J1"⟩ Pair.empty],
        rfl, by decide, by rw [hzero]; exact hT⟩
    exact ⟨h3, by omega, h5, h4⟩

/-- An instance of C18: the threshold 7 of the source. -/
theorem end_to_end_scenario_witness :
    0 < 7 ∧
    ∀ st : Search,
      Search.Steps 2 scenario_sessions (Search.init (Schedule.with_conflicts 7)) st →
      st.tasks = [] →
      st.min_schedule.complete 2 = true ∧ st.min_schedule.conflicts = 0 ∧
      build_schedule 2 st.min_schedule.sessions = some st.min_schedule ∧
      ∀ s ∈ st.min_schedule.sessions, s ∈ scenario_sessions :=
  ⟨by decide, (end_to_end_scenario 7 (by decide)).2.2.2.2.2⟩

set_option maxRecDepth 1000000 in
/-- The search of the scenario with a single worker and the threshold 7 of the source: it runs
211 tasks, prints schedules of 3, 1 and 0 conflicts in turn, ends with a complete min_schedule
of 0 conflicts and an empty queue, and has then counted 196 iterations, 14 squared. -/
theorem scenario_fifo_run :
    (Search.run_fifo 2 scenario_sessions 211 (Search.init (Schedule.with_conflicts 7))).map
        (fun st => (st.min_schedule.conflicts, st.min_schedule.size, st.tasks.length,
          st.printed.map Schedule.conflicts, st.counters.total_iterations)) =
      some (0, 2, 0, [3, 1, 0], 196) := by
  decide

/-! ## Properties: determinism of the enumerator -/

theorem pairwise_compatible_find {x : Session}
    (h : x.entries.Pairwise (fun e1 e2 => Pair.compatible e1.2 e2.2)) :
    ∀ a b p q, a ≠ b → x.find a = some p → x.find b = some q → Pair.compatible p q := by
  intro a b p q hab hp hq
  have hsymm : Symmetric (fun e1 e2 : Activity × Pair => Pair.compatible e1.2 e2.2) :=
    fun _ _ h => compatible_symm h
  exact h.forall hsymm (lookup_some_mem _ _ _ hp) (lookup_some_mem _ _ _ hq)
    (fun he => hab (congrArg Prod.fst he))

theorem sound_is_target {acts : List Activity} (hnd : acts.Nodup) {x : Session}
    (h : Session.sound acts x) (U : List Pair)
    (hU : ∀ e ∈ x.entries, ∃ u ∈ U, Pair.eq u e.2 = true) :
    Session.target acts 0 U Session.empty x := by
  obtain ⟨l1, l2, _, _⟩ := sound_legal hnd h
  refine ⟨l1, by simp [Session.empty], ?_, pairwise_compatible_find h.2.2⟩
  intro a ha
  rw [List.drop_zero] at ha
  obtain ⟨p, hp⟩ := l2 a ha
  exact ⟨p, hp, hU (a, p) (lookup_some_mem _ _ _ hp)⟩

theorem target_mono {acts : List Activity} {k : Nat} {U1 U2 : List Pair} {s t : Session}
    (h : Session.target acts k U1 s t)
    (hU : ∀ q, (∃ u ∈ U1, Pair.eq u q = true) → ∃ u ∈ U2, Pair.eq u q = true) :
    Session.target acts k U2 s t := by
  obtain ⟨t1, t2, t3, t4⟩ := h
  refine ⟨t1, t2, ?_, t4⟩
  intro a ha
  obtain ⟨q, hq, hu⟩ := t3 a ha
  exact ⟨q, hq, hU q hu⟩

theorem target_weaken {acts : List Activity} {k : Nat} (hk : k < acts.length)
    {possible : List Pair} {s t : Session} {u : Pair} (hu : u ∈ possible)
    (h : Session.target acts (k + 1) (generate_possible_pairings u possible)
      ⟨(acts[k], u) :: s.entries, k + 1⟩ t) :
    Session.target acts k possible s t := by
  obtain ⟨t1, t2, t3, t4⟩ := h
  refine ⟨t1, fun e he => t2 e (List.mem_cons_of_mem _ he), ?_, t4⟩
  intro a ha
  rw [List.drop_eq_getElem_cons hk] at ha
  rcases List.mem_cons.1 ha with ha | ha
  · obtain ⟨q, hq, hqe⟩ := t2 (acts[k], u) (List.mem_cons_self _ _)
    rw [ha]
    exact ⟨q, hq, u, hu, hqe⟩
  · obtain ⟨q, hq, v, hv, hvq⟩ := t3 a ha
    exact ⟨q, hq, v, (generate_possible_pairings_mem hv).1, hvq⟩

theorem uset_insert_present {α : Type} (eq : α → α → Bool) (s : List α) (x : α)
    (h : ∃ y ∈ s, eq y x = true) : USet.insert eq s x = s := by
  unfold USet.insert
  rw [if_pos]
  rw [List.any_eq_true]
  exact h

theorem generate_sessions_closed (acts : List Activity) (hnd : acts.Nodup) :
    ∀ (fuel : Nat) (possible : List Pair) (s : Session) (perms : List Session) (k : Nat),
      Session.filled acts k s → possible.length < fuel →
      s.entries.Pairwise (fun e1 e2 => Pair.compatible e1.2 e2.2) →
      (∀ p ∈ possible, ∀ e ∈ s.entries, Pair.compatible e.2 p) →
      (∀ t, Session.target acts k possible s t → ∃ y ∈ perms, Session.eq y t = true) →
      generate_sessions acts fuel possible (s, perms) = some (s, perms) := by
  intro fuel
  induction fuel with
  | zero =>
    intro possible s perms k _ hlt
    omega
  | succ fuel ih =>
    intro possible s perms k hs hlt hpw hcomp hclosed
    rw [generate_sessions_succ]
    by_cases hc : s.complete acts = true
    · rw [if_pos hc]
      have hk : k = acts.length := (filled_complete hs).1 hc
      have hself : Session.target acts k possible s s := by
        refine ⟨by rw [filled_size hs, hk], ?_, ?_, pairwise_compatible_find hpw⟩
        · intro e he
          exact ⟨e.2, lookup_of_mem _ _ _ (filled_valid hnd hs) he, pair_eq_self _⟩
        · intro a ha
          rw [hk, List.drop_length] at ha
          simp at ha
      rw [uset_insert_present Session.eq perms s (hclosed s hself)]
    · rw [if_neg hc]
      have hk : k < acts.length := by
        have h1 := hs.1
        have h2 : k ≠ acts.length := fun h => hc ((filled_complete hs).2 h)
        omega
      have hloop : ∀ L : List Pair, (∀ u ∈ L, u ∈ possible) →
          L.foldlM (generate_sessions_body acts fuel possible) (s, perms) = some (s, perms) := by
        intro L
        induction L with
        | nil => intro _; rfl
        | cons u rest ihL =>
          intro hL
          have hu : u ∈ possible := hL u (List.mem_cons_self _ _)
          obtain ⟨ha, hs1⟩ := assign_pair_filled hnd hs hk u
          have hlen := generate_possible_pairings_length hu
          have hpw1 : List.Pairwise (fun e1 e2 : Activity × Pair => Pair.compatible e1.2 e2.2)
              ((acts[k], u) :: s.entries) := by
            rw [List.pairwise_cons]
            exact ⟨fun e he => compatible_symm (hcomp u hu e he), hpw⟩
          have hcomp1 : ∀ p ∈ generate_possible_pairings u possible,
              ∀ e ∈ ((acts[k], u) :: s.entries), Pair.compatible e.2 p := by
            intro p hp e he
            obtain ⟨hp1, hp2⟩ := generate_possible_pairings_mem hp
            rcases List.mem_cons.1 he with he | he
            · subst he
              exact stays_available_compatible hp2
            · exact hcomp p hp1 e he
          have hrec := ih (generate_possible_pairings u possible)
            ⟨(acts[k], u) :: s.entries, k + 1⟩ perms (k + 1) hs1 (by omega) hpw1 hcomp1
            (fun t ht => hclosed t (target_weaken hk hu ht))
          have hbody : generate_sessions_body acts fuel possible (s, perms) u =
              some (s, perms) := by
            unfold generate_sessions_body
            simp only [ha, hrec]
            rw [free_activity_filled hnd hs hk]
          rw [List.foldlM_cons, hbody]
          exact ihL (fun v hv => hL v (List.mem_cons_of_mem _ hv))
      exact hloop possible (fun u hu => hu)

theorem enumerate_same_set (acts : List Activity) (hnd : acts.Nodup) (U1 U2 : List Pair)
    (hU : ∀ q, (∃ u ∈ U1, Pair.eq u q = true) ↔ ∃ u ∈ U2, Pair.eq u q = true) :
    ∃ P1 P2, enumerate_sessions acts U1 = some P1 ∧ enumerate_sessions acts U2 = some P2 ∧
      (∀ t, USet.count Session.eq P1 t = USet.count Session.eq P2 t) ∧
      generate_sessions acts (U1.length + 1) U1 (Session.empty, P1) =
        some (Session.empty, P1) ∧
      generate_sessions acts (U2.length + 1) U2 (Session.empty, P1) =
        some (Session.empty, P1) := by
  obtain ⟨P1, hg1, _, hsound1, htarget1⟩ :=
    generate_sessions_spec acts hnd (U1.length + 1) U1 Session.empty [] 0 (filled_empty _)
      (by omega)
  obtain ⟨P2, hg2, _, hsound2, htarget2⟩ :=
    generate_sessions_spec acts hnd (U2.length + 1) U2 Session.empty [] 0 (filled_empty _)
      (by omega)
  have hin1 : ∀ x ∈ P1, Session.target acts 0 U1 Session.empty x := by
    intro x hx
    rcases hsound1 (by simp [Session.empty]) (by simp [Session.empty]) x hx with h | ⟨h, h2⟩
    · simp at h
    · apply sound_is_target hnd h
      intro e he
      rcases h2 e he with h3 | h3
      · simp [Session.empty] at h3
      · exact ⟨e.2, h3, pair_eq_self _⟩
  have hin2 : ∀ x ∈ P2, Session.target acts 0 U2 Session.empty x := by
    intro x hx
    rcases hsound2 (by simp [Session.empty]) (by simp [Session.empty]) x hx with h | ⟨h, h2⟩
    · simp at h
    · apply sound_is_target hnd h
      intro e he
      rcases h2 e he with h3 | h3
      · simp [Session.empty] at h3
      · exact ⟨e.2, h3, pair_eq_self _⟩
  have h12 : ∀ t, (∃ x ∈ P1, Session.eq x t = true) → ∃ y ∈ P2, Session.eq y t = true := by
    rintro t ⟨x, hx, hxt⟩
    obtain ⟨y, hy, hyx⟩ := htarget2 x (target_mono (hin1 x hx) (fun q hq => (hU q).1 hq))
    exact ⟨y, hy, session_eq_trans hyx hxt⟩
  have h21 : ∀ t, (∃ x ∈ P2, Session.eq x t = true) → ∃ y ∈ P1, Session.eq y t = true := by
    rintro t ⟨x, hx, hxt⟩
    obtain ⟨y, hy, hyx⟩ := htarget1 x (target_mono (hin2 x hx) (fun q hq => (hU q).2 hq))
    exact ⟨y, hy, session_eq_trans hyx hxt⟩
  refine ⟨P1, P2, by simp [enumerate_sessions, hg1], by simp [enumerate_sessions, hg2], ?_,
    ?_, ?_⟩
  · intro t
    have e1 := uset_count_eq_one Session.eq P1 t
    have e2 := uset_count_eq_one Session.eq P2 t
    have l1 := uset_count_le_one Session.eq P1 t
    have l2 := uset_count_le_one Session.eq P2 t
    by_cases h : ∃ x ∈ P1, Session.eq x t = true
    · rw [e1.2 h, e2.2 (h12 t h)]
    · have h2 : ¬ ∃ x ∈ P2, Session.eq x t = true := fun h3 => h (h21 t h3)
      have n1 : USet.count Session.eq P1 t ≠ 1 := fun h3 => h (e1.1 h3)
      have n2 : USet.count Session.eq P2 t ≠ 1 := fun h3 => h2 (e2.1 h3)
      omega
  · exact generate_sessions_closed acts hnd (U1.length + 1) U1 Session.empty P1 0
      (filled_empty _) (by omega) (by simp [Session.empty]) (by simp [Session.empty])
      (fun t ht => htarget1 t ht)
  · exact generate_sessions_closed acts hnd (U2.length + 1) U2 Session.empty P1 0
      (filled_empty _) (by omega) (by simp [Session.empty]) (by simp [Session.empty])
      (fun t ht => htarget1 t (target_mono ht (fun q hq => (hU q).2 hq)))

/-- C20: determinism of the enumerator.  Let pairings2 hold the same pairings as pairings1 in
another iteration order.  The enumerator returns on both, and the two sets session_permutations
are equal as sets: every session is in both or in neither.  Running the enumeration again, on
either order, into the set that the first run has filled returns the set unchanged. -/
theorem enumerator_deterministic (pairings1 pairings2 : List Pair)
    (h : pairings1.Perm pairings2) :
    ∃ P1 P2, enumerate_sessions activities pairings1 = some P1 ∧
      enumerate_sessions activities pairings2 = some P2 ∧
      (∀ t, USet.count Session.eq P1 t = USet.count Session.eq P2 t) ∧
      generate_sessions activities (pairings1.length + 1) pairings1 (Session.empty, P1) =
        some (Session.empty, P1) ∧
      generate_sessions activities (pairings2.length + 1) pairings2 (Session.empty, P1) =
        some (Session.empty, P1) :=
  enumerate_same_set activities activities_nodup pairings1 pairings2 (fun _ =>
    ⟨fun ⟨u, hu, huq⟩ => ⟨u, h.subset hu, huq⟩, fun ⟨u, hu, huq⟩ => ⟨u, h.symm.subset hu, huq⟩⟩)

/-- An instance of C20: the six pairings of example_session in their order and in the reverse
order. -/
theorem enumerator_deterministic_witness :
    (example_session.entries.map Prod.snd).Perm (example_session.entries.map Prod.snd).reverse ∧
    ∃ P1 P2, enumerate_sessions activities (example_session.entries.map Prod.snd) = some P1 ∧
      enumerate_sessions activities (example_session.entries.map Prod.snd).reverse = some P2 ∧
      (∀ t, USet.count Session.eq P1 t = USet.count Session.eq P2 t) ∧
      generate_sessions activities ((example_session.entries.map Prod.snd).length + 1)
          (example_session.entries.map Prod.snd) (Session.empty, P1) =
        some (Session.empty, P1) ∧
      generate_sessions activities ((example_session.entries.map Prod.snd).reverse.length + 1)
          (example_session.entries.map Prod.snd).reverse (Session.empty, P1) =
        some (Session.empty, P1) :=
  ⟨by decide, enumerator_deterministic _ _ (by decide)⟩

/-! ## Properties: the hash of a session -/

theorem session_entries_perm {s t : Session} (hs : s.valid) (h : Session.eq s t = true) :
    (s.entries.map (fun e => (e.1, e.2.unordered))).Perm
      (t.entries.map (fun e => (e.1, e.2.unordered))) := by
  rw [session_eq_iff] at h
  obtain ⟨hsize, hall⟩ := h
  have hnd : (s.entries.map (fun e => (e.1, e.2.unordered))).Nodup := by
    apply List.Nodup.of_map Prod.fst
    rw [List.map_map]
    exact hs
  have hsub : s.entries.map (fun e => (e.1, e.2.unordered)) ⊆
      t.entries.map (fun e => (e.1, e.2.unordered)) := by
    intro k hk
    rw [List.mem_map] at hk
    obtain ⟨e, he, rfl⟩ := hk
    obtain ⟨q, hq, hqe⟩ := hall e he
    rw [List.mem_map]
    refine ⟨(e.1, q), lookup_some_mem _ _ _ hq, ?_⟩
    simp only
    rw [(pair_eq_unordered e.2 q).1 hqe]
  apply (hnd.subperm hsub).perm_of_length_le
  simp only [List.length_map]
  simp only [Session.size] at hsize
  omega

theorem session_hash_eq_fold (hs : String → Nat) (s : Session) :
    Session.hash hs s =
      (s.entries.map (fun e => (e.1, e.2.unordered))).foldl
        (fun hashVal (k : Activity × Sym2 Facilitator) => hashVal ^^^ (hs k.1 ^^^
          Sym2.lift ⟨fun x y => Facilitator.hash hs x ^^^ Facilitator.hash hs y,
            fun _ _ => Nat.xor_comm _ _⟩ k.2)) 0 := by
  unfold Session.hash
  rw [List.foldl_map]
  rfl

theorem xor_swap_right (z a b : Nat) : z ^^^ a ^^^ b = z ^^^ b ^^^ a := by
  rw [Nat.xor_assoc, Nat.xor_assoc, Nat.xor_comm a b]

/-- The hash of sessions agrees with their equality: two sessions that are equal as maps, the
pairs compared by Pair::operator==, have the same hash, for every string hash.  This is what
lets an unordered set of sessions find an equal session that it holds. -/
theorem session_hash_agrees (hs : String → Nat) (s t : Session) (hv : s.valid)
    (h : Session.eq s t = true) : Session.hash hs s = Session.hash hs t := by
  rw [session_hash_eq_fold, session_hash_eq_fold]
  apply List.Perm.foldl_eq' (session_entries_perm hv h)
  intro x _ y _ z
  exact xor_swap_right z _ _

/-! ## Properties: the length of the schedules of the search -/

theorem task_sized_schedule {n : Nat} {t : Task} (h : t.sized n) :
    ∃ c, t.schedule_of n = some c ∧ c.size ≤ n ∧ c.sessions = t.path := by
  cases t with
  | root c => exact ⟨c, rfl, h, rfl⟩
  | child c s =>
    obtain ⟨c2, hc2⟩ := add_session_of_lt (n := n) c s h
    obtain ⟨_, hs, _⟩ := add_session_some hc2
    refine ⟨c2, hc2, ?_, hs⟩
    have h1 : c.size < n := h
    simp only [Schedule.size] at *
    rw [hs, List.length_append, List.length_singleton]
    omega

theorem enqueued_sized (n : Nat) (P : List Session) (b c : Schedule) (hc : c.size ≤ n) :
    (c.size = n → (generate_schedules n P b c).enqueued = []) ∧
    ∀ t ∈ (generate_schedules n P b c).enqueued,
      c.size < n ∧ ∃ s ∈ P, t = Task.child c s := by
  unfold generate_schedules
  by_cases h1 : c.conflicts ≥ b.conflicts
  · simp [h1]
  · by_cases h2 : c.complete n = true
    · simp [h1, h2]
    · have h3 : c.size ≠ n := by simpa [Schedule.complete] using h2
      rw [if_neg h1, if_neg h2]
      refine ⟨fun h => absurd h h3, ?_⟩
      intro t ht
      rw [List.mem_map] at ht
      obtain ⟨s, hs, rfl⟩ := ht
      exact ⟨by omega, s, hs, rfl⟩

theorem sized_step {n : Nat} {P : List Session} {st st2 : Search}
    (hinv : ∀ t ∈ st.tasks, t.sized n) (hstep : Search.Step n P st st2) :
    ∀ t ∈ st2.tasks, t.sized n := by
  cases hstep with
  | run before after t hq hr =>
    obtain ⟨c, hc, _, htasks⟩ := run_task_some hr
    have ht : t.sized n := hinv t (by rw [hq]; simp)
    obtain ⟨c2, hc2, hsize, _⟩ := task_sized_schedule ht
    rw [hc] at hc2
    injection hc2 with hc2
    subst hc2
    intro t2 ht2
    rw [htasks, List.mem_append] at ht2
    rcases ht2 with ht2 | ht2
    · apply hinv
      rw [hq]
      rw [List.mem_append] at ht2 ⊢
      rcases ht2 with ht2 | ht2
      · exact Or.inl ht2
      · exact Or.inr (List.mem_cons_of_mem _ ht2)
    · obtain ⟨hlt, s, _, rfl⟩ := (enqueued_sized n P st.min_schedule c hsize).2 t2 ht2
      exact hlt

theorem sized_steps {n : Nat} {P : List Session} {st st2 : Search}
    (hinv : ∀ t ∈ st.tasks, t.sized n) (h : Search.Steps n P st st2) :
    ∀ t ∈ st2.tasks, t.sized n := by
  induction h with
  | refl => exact hinv
  | tail _ _ _ h2 ih => exact sized_step ih h2

theorem sized_init (n : Nat) (min_schedule : Schedule) :
    ∀ t ∈ (Search.init min_schedule).tasks, t.sized n := by
  intro t ht
  simp only [Search.init, List.mem_singleton] at ht
  subst ht
  exact Nat.zero_le _

/-- C21: the length of a schedule never exceeds the number n of sessions (NUM_SESSIONS in the
source).  In every state that a search started from the empty schedule can reach, with any
initial min_schedule, any set of sessions and any order of the tasks, every task in the queue
that calls add_session does so on a schedule of fewer than n sessions, so that the assertion of
add_session holds and the task gets its schedule; that schedule, on which the task calls
generate_schedules, has at most n sessions, complete() holds for it exactly when it has n
sessions, and when it has n sessions the call enqueues no task, whatever min_schedule is then:
it is pruned (one skipped iteration is recorded) or installed as min_schedule (one full
iteration is recorded).  A call that enqueues tasks is on a schedule of fewer than n sessions
and every task it enqueues is for that schedule and a session of the set. -/
theorem schedule_length_bounded (n : Nat) (session_permutations : List Session)
    (min_schedule : Schedule) (st : Search)
    (h : Search.Steps n session_permutations (Search.init min_schedule) st) :
    ∀ t ∈ st.tasks,
      (∀ c0 s, t = Task.child c0 s → c0.size < n ∧
        ∃ c, Schedule.add_session n c0 s = some c ∧ c.size = c0.size + 1) ∧
      ∃ c, t.schedule_of n = some c ∧ c.size ≤ n ∧
        (c.complete n = true ↔ c.size = n) ∧
        (∀ b : Schedule, c.size = n →
          (generate_schedules n session_permutations b c).enqueued = [] ∧
          (((generate_schedules n session_permutations b c).recorded = some (0, 1) ∧
              (generate_schedules n session_permutations b c).min_schedule = b) ∨
            ((generate_schedules n session_permutations b c).recorded = some (1, 0) ∧
              (generate_schedules n session_permutations b c).min_schedule = c))) ∧
        (∀ b : Schedule, ∀ t2 ∈ (generate_schedules n session_permutations b c).enqueued,
          c.size < n ∧ ∃ s ∈ session_permutations, t2 = Task.child c s) := by
  intro t ht
  have hs : t.sized n := sized_steps (sized_init n min_schedule) h t ht
  obtain ⟨c, hc, hsize, _⟩ := task_sized_schedule hs
  refine ⟨?_, c, hc, hsize, by simp [Schedule.complete], ?_, ?_⟩
  · intro c0 s hts
    subst hts
    have hlt : c0.size < n := hs
    obtain ⟨c2, hc2⟩ := add_session_of_lt (n := n) c0 s hlt
    obtain ⟨_, hs2, _⟩ := add_session_some hc2
    refine ⟨hlt, c2, hc2, ?_⟩
    simp only [Schedule.size]
    rw [hs2, List.length_append, List.length_singleton]
  · intro b hn
    refine ⟨(enqueued_sized n session_permutations b c hsize).1 hn, ?_⟩
    unfold generate_schedules
    by_cases h1 : c.conflicts ≥ b.conflicts
    · left
      simp [h1, hn, iterations_skipped_complete]
    · right
      have h2 : c.complete n = true := by simp [Schedule.complete, hn]
      simp [h1, h2]
  · intro b t2 ht2
    exact (enqueued_sized n session_permutations b c hsize).2 t2 ht2

/-- An instance of C21: the state of the scenario search after the task of main has run, with
14 tasks in the queue, one for each session. -/
theorem schedule_length_bounded_witness :
    Search.Steps 2 scenario_sessions (Search.init (Schedule.with_conflicts 7))
      ⟨Schedule.with_conflicts 7,
        scenario_sessions.map (fun session => Task.child Schedule.empty session), [],
        Counters.init⟩ ∧
    ∀ t ∈ scenario_sessions.map (fun session => Task.child Schedule.empty session),
      (∀ c0 s, t = Task.child c0 s → c0.size < 2 ∧
        ∃ c, Schedule.add_session 2 c0 s = some c ∧ c.size = c0.size + 1) ∧
      ∃ c, t.schedule_of 2 = some c ∧ c.size ≤ 2 ∧
        (c.complete 2 = true ↔ c.size = 2) ∧
        (∀ b : Schedule, c.size = 2 →
          (generate_schedules 2 scenario_sessions b c).enqueued = [] ∧
          (((generate_schedules 2 scenario_sessions b c).recorded = some (0, 1) ∧
              (generate_schedules 2 scenario_sessions b c).min_schedule = b) ∨
            ((generate_schedules 2 scenario_sessions b c).recorded = some (1, 0) ∧
              (generate_schedules 2 scenario_sessions b c).min_schedule = c))) ∧
        (∀ b : Schedule, ∀ t2 ∈ (generate_schedules 2 scenario_sessions b c).enqueued,
          c.size < 2 ∧ ∃ s ∈ scenario_sessions, t2 = Task.child c s) :=
  have hsteps : Search.Steps 2 scenario_sessions (Search.init (Schedule.with_conflicts 7))
      ⟨Schedule.with_conflicts 7,
        scenario_sessions.map (fun session => Task.child Schedule.empty session), [],
        Counters.init⟩ :=
    Search.Steps.tail _ _ _ (Search.Steps.refl _)
      (Search.Step.run _ _ [] [] (Task.root Schedule.empty) rfl (by decide))
  ⟨hsteps, schedule_length_bounded 2 scenario_sessions (Schedule.with_conflicts 7) _ hsteps⟩

/-! ## Properties: add_session and the order of the nodes of a session -/

theorem same_books_refl (c : Schedule) : Schedule.same_books c c :=
  ⟨rfl, fun _ => rfl, fun _ => rfl, fun _ _ => rfl⟩

theorem same_books_trans {c1 c2 c3 : Schedule} (h1 : Schedule.same_books c1 c2)
    (h2 : Schedule.same_books c2 c3) : Schedule.same_books c1 c3 :=
  ⟨h1.1.trans h2.1, fun q => (h1.2.1 q).trans (h2.2.1 q),
    fun a => (h1.2.2.1 a).trans (h2.2.2.1 a),
    fun a f => (h1.2.2.2 a f).trans (h2.2.2.2 a f)⟩

theorem uset_count_congr_pair (s : List Pair) {p q : Pair} (h : Pair.eq p q = true) :
    USet.count Pair.eq s p = USet.count Pair.eq s q := by
  have h1 := uset_count_le_one Pair.eq s p
  have h2 := uset_count_le_one Pair.eq s q
  have e1 := uset_count_eq_one Pair.eq s p
  have e2 := uset_count_eq_one Pair.eq s q
  have hiff : USet.count Pair.eq s p = 1 ↔ USet.count Pair.eq s q = 1 := by
    rw [e1, e2]
    constructor
    · rintro ⟨y, hy, hyp⟩
      exact ⟨y, hy, pair_eq_trans hyp h⟩
    · rintro ⟨y, hy, hyq⟩
      exact ⟨y, hy, pair_eq_trans hyq (by rw [pair_eq_comm]; exact h)⟩
  omega

theorem add_entry_conflicts_exact (c : Schedule) (e : Activity × Pair) :
    (Schedule.add_entry c e).conflicts =
      if entry_conflicts c e = 0 then c.conflicts
      else (c.conflicts + entry_conflicts c e) % UINT_SIZE := by
  unfold Schedule.add_entry entry_conflicts
  split
  · simp
  · have h1 := uset_count_le_one Pair.eq c.selected_pairings e.2
    have h2 := uset_count_le_one Facilitator.eq
      (Schedule.facilitators_of c.facilitator_activities e.1) e.2.first
    have h3 := uset_count_le_one Facilitator.eq
      (Schedule.facilitators_of c.facilitator_activities e.1) e.2.second
    simp only [uint_incr, UINT_SIZE]
    split <;> split <;> split <;> split <;> omega

theorem has_label_set (fa : List (Activity × List Facilitator)) (a b : Activity)
    (fs : List Facilitator) :
    (Schedule.set_facilitators fa a fs).any (fun e => decide (e.1 = b)) =
      (fa.any (fun e => decide (e.1 = b)) || decide (a = b)) := by
  unfold Schedule.set_facilitators
  split
  · rename_i hany
    have hmap : ∀ l : List (Activity × List Facilitator),
        (l.map (fun e => if e.1 = a then (a, fs) else e)).any (fun e => decide (e.1 = b)) =
          l.any (fun e => decide (e.1 = b)) := by
      intro l
      induction l with
      | nil => rfl
      | cons x rest ih =>
        simp only [List.map_cons, List.any_cons, ih]
        by_cases hx : x.1 = a
        · simp [hx]
        · simp [hx]
    rw [hmap]
    by_cases hab : a = b
    · subst hab
      simp [hany]
    · simp [hab]
  · simp only [List.any_cons]
    rw [Bool.or_comm]

theorem add_entry_has_label (c : Schedule) (e : Activity × Pair) (b : Activity) :
    (Schedule.add_entry c e).has_label b =
      (c.has_label b || (!e.2.is_empty_pair && decide (e.1 = b))) := by
  unfold Schedule.has_label Schedule.add_entry
  by_cases he : e.2.is_empty_pair = true
  · simp [he]
  · rw [if_neg he]
    simp only []
    rw [has_label_set]
    simp [he]

theorem entry_conflicts_congr {c1 c2 : Schedule} (h : Schedule.same_books c1 c2)
    (e : Activity × Pair) : entry_conflicts c1 e = entry_conflicts c2 e := by
  unfold entry_conflicts
  rw [h.2.1 e.2, h.2.2.2 e.1 e.2.first, h.2.2.2 e.1 e.2.second]

theorem add_entry_congr {c1 c2 : Schedule} (h : Schedule.same_books c1 c2)
    (e : Activity × Pair) :
    Schedule.same_books (Schedule.add_entry c1 e) (Schedule.add_entry c2 e) := by
  refine ⟨?_, ?_, ?_, ?_⟩
  · rw [add_entry_conflicts_exact, add_entry_conflicts_exact, entry_conflicts_congr h, h.1]
  · intro q
    rw [add_entry_selected, add_entry_selected, h.2.1 q]
  · intro a
    rw [add_entry_has_label, add_entry_has_label, h.2.2.1 a]
  · intro a f
    rw [add_entry_facilitators, add_entry_facilitators, h.2.2.2 a f]

theorem fold_add_entry_congr (es : List (Activity × Pair)) {c1 c2 : Schedule}
    (h : Schedule.same_books c1 c2) :
    Schedule.same_books (es.foldl Schedule.add_entry c1) (es.foldl Schedule.add_entry c2) := by
  induction es generalizing c1 c2 with
  | nil => exact h
  | cons e rest ih =>
    rw [List.foldl_cons, List.foldl_cons]
    exact ih (add_entry_congr h e)

theorem entry_conflicts_swap (c : Schedule) (x y : Activity × Pair) (hk : x.1 ≠ y.1) :
    entry_conflicts c x + entry_conflicts (Schedule.add_entry c x) y =
      entry_conflicts c y + entry_conflicts (Schedule.add_entry c y) x := by
  have hk2 : y.1 ≠ x.1 := fun h => hk h.symm
  unfold entry_conflicts
  by_cases hx : x.2.is_empty_pair = true
  · by_cases hy : y.2.is_empty_pair = true
    · simp [hx, hy]
    · simp [hx, hy, add_entry_empty]
  · by_cases hy : y.2.is_empty_pair = true
    · simp [hx, hy, add_entry_empty]
    · rw [if_neg hx, if_neg hy, if_neg hx, if_neg hy]
      rw [add_entry_selected, add_entry_facilitators, add_entry_facilitators,
        add_entry_selected, add_entry_facilitators, add_entry_facilitators]
      have hx2 : x.2.is_empty_pair = false := by simpa using hx
      have hy2 : y.2.is_empty_pair = false := by simpa using hy
      simp only [hx2, hy2, hk, hk2, true_and, false_and, and_false, if_false]
      by_cases hxy : Pair.eq x.2 y.2 = true
      · have hyx : Pair.eq y.2 x.2 = true := by rw [pair_eq_comm]; exact hxy
        have := uset_count_congr_pair c.selected_pairings hxy
        simp only [hxy, hyx, if_true]
        omega
      · have hyx : ¬ Pair.eq y.2 x.2 = true := by rw [pair_eq_comm]; exact hxy
        simp only [hxy, hyx, Bool.false_eq_true, if_false]
        omega

theorem add_entry_swap (c : Schedule) (x y : Activity × Pair) (hk : x.1 ≠ y.1) :
    Schedule.same_books (Schedule.add_entry (Schedule.add_entry c x) y)
      (Schedule.add_entry (Schedule.add_entry c y) x) := by
  have hk2 : y.1 ≠ x.1 := fun h => hk h.symm
  refine ⟨?_, ?_, ?_, ?_⟩
  · rw [add_entry_conflicts_exact, add_entry_conflicts_exact, add_entry_conflicts_exact,
      add_entry_conflicts_exact]
    have hs := entry_conflicts_swap c x y hk
    generalize entry_conflicts c x = n1 at *
    generalize entry_conflicts (Schedule.add_entry c x) y = n2 at *
    generalize entry_conflicts c y = m1 at *
    generalize entry_conflicts (Schedule.add_entry c y) x = m2 at *
    simp only [UINT_SIZE, Nat.reducePow]
    split <;> split <;> split <;> split <;> omega
  · intro q
    rw [add_entry_selected, add_entry_selected, add_entry_selected, add_entry_selected]
    split <;> split <;> rfl
  · intro a
    rw [add_entry_has_label, add_entry_has_label, add_entry_has_label, add_entry_has_label]
    rw [Bool.or_assoc, Bool.or_assoc]
    congr 1
    rw [Bool.or_comm]
  · intro a f
    rw [add_entry_facilitators, add_entry_facilitators, add_entry_facilitators,
      add_entry_facilitators]
    split <;> split <;> rfl

theorem fold_add_entry_perm {es1 es2 : List (Activity × Pair)} (hperm : es1.Perm es2) :
    (es1.map Prod.fst).Nodup → ∀ c1 c2 : Schedule, Schedule.same_books c1 c2 →
      Schedule.same_books (es1.foldl Schedule.add_entry c1)
        (es2.foldl Schedule.add_entry c2) := by
  induction hperm with
  | nil => exact fun _ _ _ h => h
  | cons x _ ih =>
    intro hnd c1 c2 h
    rw [List.map_cons, List.nodup_cons] at hnd
    rw [List.foldl_cons, List.foldl_cons]
    exact ih hnd.2 _ _ (add_entry_congr h x)
  | swap x y l =>
    intro hnd c1 c2 h
    simp only [List.map_cons, List.nodup_cons, List.mem_cons, not_or] at hnd
    simp only [List.foldl_cons]
    apply fold_add_entry_congr
    exact same_books_trans (add_entry_swap c1 y x hnd.1.1)
      (add_entry_congr (add_entry_congr h x) y)
  | trans h12 _ ih1 ih2 =>
    intro hnd c1 c2 h
    have hnd2 := (h12.map Prod.fst).nodup_iff.1 hnd
    exact same_books_trans (ih1 hnd c1 c2 h) (ih2 hnd2 c2 c2 (same_books_refl c2))

/-- C26: add_session does not depend on the order of the nodes of the session.  For a schedule
c of fewer than n sessions (NUM_SESSIONS in the source) and two sessions whose node lists are
permutations of each other, that is, one map from labels to pairings iterated in two orders,
no label twice but possibly with the same pairing under several labels: both calls of
add_session return, and the two schedules have the same conflict counter, the same pairings in
selected_pairings, and in facilitator_activities nodes for the same labels with the same
facilitators under every label. -/
theorem add_session_order_independent (n : Nat) (c : Schedule) (s1 s2 : Session)
    (hn : c.size < n) (hv : s1.valid) (hperm : s1.entries.Perm s2.entries) :
    ∃ c1 c2, Schedule.add_session n c s1 = some c1 ∧ Schedule.add_session n c s2 = some c2 ∧
      c1.conflicts = c2.conflicts ∧
      (∀ q : Pair, USet.count Pair.eq c1.selected_pairings q =
        USet.count Pair.eq c2.selected_pairings q) ∧
      (∀ a : Activity, c1.has_label a = c2.has_label a) ∧
      (∀ (a : Activity) (f : Facilitator),
        USet.count Facilitator.eq (Schedule.facilitators_of c1.facilitator_activities a) f =
        USet.count Facilitator.eq (Schedule.facilitators_of c2.facilitator_activities a) f) ∧
      c1.sessions = c.sessions ++ [s1] ∧ c2.sessions = c.sessions ++ [s2] := by
  have h := fold_add_entry_perm hperm hv c c (same_books_refl c)
  refine ⟨{ (s1.entries.foldl Schedule.add_entry c) with
      sessions := (s1.entries.foldl Schedule.add_entry c).sessions ++ [s1] },
    { (s2.entries.foldl Schedule.add_entry c) with
      sessions := (s2.entries.foldl Schedule.add_entry c).sessions ++ [s2] },
    by simp only [Schedule.add_session, if_pos hn],
    by simp only [Schedule.add_session, if_pos hn], h.1, h.2.1, h.2.2.1, h.2.2.2, ?_, ?_⟩
  · show (s1.entries.foldl Schedule.add_entry c).sessions ++ [s1] = _
    rw [fold_add_entry_sessions]
  · show (s2.entries.foldl Schedule.add_entry c).sessions ++ [s2] = _
    rw [fold_add_entry_sessions]

/-- An instance of C26: a session with the same pairing under two labels, added in both orders
of its nodes to the schedule that already holds example_session; each order counts three
conflicts, one for the pairing under its second label, one for Adam Apples on Hank's Planks and
one for Betty Blues on Spider Web, the labels they led in example_session. -/
theorem add_session_order_independent_witness :
    example_schedule.size < NUM_SESSIONS ∧ doubled_session.valid ∧
    doubled_session.entries.Perm doubled_session_swapped.entries ∧
    (Schedule.add_session NUM_SESSIONS example_schedule doubled_session).map
      Schedule.conflicts = some 3 ∧
    (Schedule.add_session NUM_SESSIONS example_schedule doubled_session_swapped).map
      Schedule.conflicts = some 3 ∧
    ∃ c1 c2, Schedule.add_session NUM_SESSIONS example_schedule doubled_session = some c1 ∧
      Schedule.add_session NUM_SESSIONS example_schedule doubled_session_swapped = some c2 ∧
      c1.conflicts = c2.conflicts ∧
      (∀ q : Pair, USet.count Pair.eq c1.selected_pairings q =
        USet.count Pair.eq c2.selected_pairings q) ∧
      (∀ a : Activity, c1.has_label a = c2.has_label a) ∧
      (∀ (a : Activity) (f : Facilitator),
        USet.count Facilitator.eq (Schedule.facilitators_of c1.facilitator_activities a) f =
        USet.count Facilitator.eq (Schedule.facilitators_of c2.facilitator_activities a) f) ∧
      c1.sessions = example_schedule.sessions ++ [doubled_session] ∧
      c2.sessions = example_schedule.sessions ++ [doubled_session_swapped] :=
  ⟨by decide, by decide, List.Perm.swap _ _ _, by decide, by decide,
    add_session_order_independent NUM_SESSIONS example_schedule doubled_session
      doubled_session_swapped (by decide) (by decide) (List.Perm.swap _ _ _)⟩

/-! ## Properties: the availability filter -/

theorem uset_insert_distinct (s : List Pair) (x : Pair)
    (h : s.Pairwise (fun p q => Pair.eq p q = false)) :
    (USet.insert Pair.eq s x).Pairwise (fun p q => Pair.eq p q = false) := by
  unfold USet.insert
  split
  · exact h
  · rename_i hany
    rw [List.pairwise_cons]
    refine ⟨?_, h⟩
    intro y hy
    rw [List.any_eq_true] at hany
    cases hxy : Pair.eq x y
    · rfl
    · exact absurd ⟨y, hy, by rw [pair_eq_comm]; exact hxy⟩ hany

theorem filter_fold_distinct (keep : Pair → Bool) (possible acc : List Pair)
    (h : acc.Pairwise (fun p q => Pair.eq p q = false)) :
    (possible.foldl (fun remaining p =>
        if keep p = true then USet.insert Pair.eq remaining p else remaining) acc).Pairwise
      (fun p q => Pair.eq p q = false) := by
  induction possible generalizing acc with
  | nil => exact h
  | cons p rest ih =>
    rw [List.foldl_cons]
    by_cases hk : keep p = true
    · rw [if_pos hk]
      exact ih _ (uset_insert_distinct acc p h)
    · rw [if_neg hk]
      exact ih _ h

theorem generate_possible_pairings_distinct (selected : Pair) (possible : List Pair) :
    (generate_possible_pairings selected possible).Pairwise
      (fun p q => Pair.eq p q = false) := by
  rw [generate_possible_pairings_eq]
  exact filter_fold_distinct _ _ _ List.Pairwise.nil

theorem generate_possible_pairings_count (selected : Pair) (possible : List Pair) (p : Pair) :
    USet.count Pair.eq (generate_possible_pairings selected possible) p = 1 ↔
      USet.count Pair.eq possible p = 1 ∧ stays_available selected p = true := by
  rw [uset_count_eq_one, uset_count_eq_one]
  constructor
  · rintro ⟨y, hy, hyp⟩
    obtain ⟨h1, h2⟩ := generate_possible_pairings_mem hy
    exact ⟨⟨y, h1, hyp⟩, by rw [← stays_available_congr hyp]; exact h2⟩
  · rintro ⟨⟨y, hy, hyp⟩, hk⟩
    rw [← stays_available_congr hyp] at hk
    obtain ⟨x, hx, hxy⟩ := generate_possible_pairings_has hy hk
    exact ⟨x, hx, pair_eq_trans hxy hyp⟩

theorem generate_possible_pairings_not_selected (selected : Pair) (possible : List Pair) :
    USet.count Pair.eq (generate_possible_pairings selected possible) selected = 0 := by
  have h1 := uset_count_le_one Pair.eq (generate_possible_pairings selected possible) selected
  have h2 := generate_possible_pairings_count selected possible selected
  rw [stays_available_self] at h2
  have h3 : ¬ USet.count Pair.eq (generate_possible_pairings selected possible) selected = 1 :=
    fun h => by simpa using (h2.1 h).2
  omega

theorem compatible_ne {p q : Pair} (h : Pair.compatible p q) : Pair.eq p q = false := by
  cases hpq : Pair.eq p q
  · rfl
  · have h2 : Pair.compatible p p :=
      compatible_congr h (by rw [pair_eq_comm]; exact hpq)
    have h3 : p.contains p.first = true := (pair_contains_iff _ _).2 (Or.inl rfl)
    exact absurd ⟨h3, h3⟩ (h2.1 p.first)

/-- C23: the availability filter.  For every selected pairing and every set of possible
pairings, a pairing is in the set that generate_possible_pairings returns exactly when it is in
the set of possible pairings, contains neither member of the selected pairing, and is not a
junior-junior pairing while the selected pairing is one (membership being that of the
unordered set, by Pair::operator==).  Every node of the result is a node of the given set and
passes these tests; the result has no pairing twice; it never contains the selected pairing;
the empty pairing contains the empty facilitator, so that the result for the selected empty
pairing does not contain the empty pairing; and in every session that the enumerator produces
from the set, no pairing, the empty one included, stands under two labels. -/
theorem availability_filter (selected_pairing : Pair) (possible_pairings : List Pair) :
    (∀ p : Pair,
      USet.count Pair.eq (generate_possible_pairings selected_pairing possible_pairings) p = 1 ↔
        USet.count Pair.eq possible_pairings p = 1 ∧
        p.contains selected_pairing.first = false ∧
        p.contains selected_pairing.second = false ∧
        ¬ (selected_pairing.is_junior_pairing = true ∧ p.is_junior_pairing = true)) ∧
    (∀ p ∈ generate_possible_pairings selected_pairing possible_pairings,
      p ∈ possible_pairings ∧
      p.contains selected_pairing.first = false ∧
      p.contains selected_pairing.second = false ∧
      ¬ (selected_pairing.is_junior_pairing = true ∧ p.is_junior_pairing = true)) ∧
    (generate_possible_pairings selected_pairing possible_pairings).Pairwise
      (fun p q => Pair.eq p q = false) ∧
    USet.count Pair.eq (generate_possible_pairings selected_pairing possible_pairings)
      selected_pairing = 0 ∧
    Pair.empty.contains Facilitator.empty = true ∧
    USet.count Pair.eq (generate_possible_pairings Pair.empty possible_pairings) Pair.empty = 0 ∧
    ∃ P, enumerate_sessions activities possible_pairings = some P ∧
      ∀ x ∈ P, x.entries.Pairwise (fun e1 e2 => Pair.eq e1.2 e2.2 = false) := by
  refine ⟨?_, ?_, generate_possible_pairings_distinct _ _,
    generate_possible_pairings_not_selected _ _, by decide,
    generate_possible_pairings_not_selected _ _, ?_⟩
  · intro p
    rw [generate_possible_pairings_count, stays_available_iff]
  · intro p hp
    obtain ⟨h1, h2⟩ := generate_possible_pairings_mem hp
    rw [stays_available_iff] at h2
    exact ⟨h1, h2⟩
  · obtain ⟨perms, hg, _, hsound, _⟩ :=
      generate_sessions_spec activities activities_nodup (possible_pairings.length + 1)
        possible_pairings Session.empty [] 0 (filled_empty _) (by omega)
    refine ⟨perms, by simp [enumerate_sessions, hg], ?_⟩
    intro x hx
    rcases hsound (by simp [Session.empty]) (by simp [Session.empty]) x hx with h1 | ⟨h1, _⟩
    · simp at h1
    · exact h1.2.2.imp (fun h => compatible_ne h)

/-! ## Properties: the reads of the array activities in assign_pair -/

theorem skip_assigned_spec (acts : List Activity) (m : List (Activity × Pair)) :
    ∀ fuel i : Nat, i + fuel = acts.length →
      i ≤ Session.skip_assigned acts m fuel i ∧
      Session.skip_assigned acts m fuel i ≤ acts.length ∧
      (∀ x a, acts[x]? = some a → i ≤ x → x < Session.skip_assigned acts m fuel i →
        (Session.lookup m a).isSome = true) ∧
      (∀ a, acts[Session.skip_assigned acts m fuel i]? = some a → Session.lookup m a = none) ∧
      Session.skip_assigned_reads acts m fuel i =
        List.range' i (Session.skip_assigned acts m fuel i - i + 1) := by
  intro fuel
  induction fuel with
  | zero =>
    intro i hi
    simp only [Session.skip_assigned, Session.skip_assigned_reads]
    refine ⟨le_refl _, by omega, ?_, ?_, by simp⟩
    · intro x _ _ h1 h2
      omega
    · intro a ha
      rw [List.getElem?_eq_none (by omega)] at ha
      exact absurd ha (by simp)
  | succ fuel ih =>
    intro i hi
    have hlt : i < acts.length := by omega
    have hget : acts[i]? = some acts[i] := List.getElem?_eq_getElem hlt
    by_cases ha : (Session.lookup m acts[i]).isSome = true
    · have e1 : Session.skip_assigned acts m (fuel + 1) i =
          Session.skip_assigned acts m fuel (i + 1) := by
        simp only [Session.skip_assigned, hget, ha, if_true]
      have e2 : Session.skip_assigned_reads acts m (fuel + 1) i =
          i :: Session.skip_assigned_reads acts m fuel (i + 1) := by
        simp only [Session.skip_assigned_reads, hget, ha, if_true]
      rw [e1, e2]
      obtain ⟨h1, h2, h3, h4, h5⟩ := ih (i + 1) (by omega)
      refine ⟨by omega, h2, ?_, h4, ?_⟩
      · intro x a hxa hix hxj
        by_cases hxi : x = i
        · subst hxi
          rw [hget] at hxa
          injection hxa with hxa
          rw [← hxa]
          exact ha
        · exact h3 x a hxa (by omega) hxj
      · rw [h5]
        have : Session.skip_assigned acts m fuel (i + 1) - i + 1 =
            (Session.skip_assigned acts m fuel (i + 1) - (i + 1) + 1) + 1 := by omega
        conv_rhs => rw [this, List.range'_succ]
    · have e1 : Session.skip_assigned acts m (fuel + 1) i = i := by
        simp only [Session.skip_assigned, hget, ha, Bool.false_eq_true, if_false]
      have e2 : Session.skip_assigned_reads acts m (fuel + 1) i = [i] := by
        simp only [Session.skip_assigned_reads, hget, ha, Bool.false_eq_true, if_false]
      rw [e1, e2]
      refine ⟨le_refl _, le_of_lt hlt, ?_, ?_, by simp⟩
      · intro x _ _ h1 h2
        omega
      · intro a hia
        rw [hget] at hia
        injection hia with hia
        rw [← hia]
        simpa using ha

theorem lookup_store_new (m : List (Activity × Pair)) (a : Activity) (p : Pair)
    (h : Session.lookup m a = none) :
    Session.store m a p = (a, p) :: m := by
  unfold Session.store
  rw [h]
  rfl

/-- C25: the reads of assign_pair.  For every array of labels and every session with
free_activity_idx below the number of labels whose label at free_activity_idx has no pair,
assign_pair(p) returns the label at free_activity_idx; afterwards p is stored under that label
and every other label has what it had; free_activity_idx is larger than before and at most the
number of labels, every label between the old and the new index has a pair, and the label at
the new index has none when the new index is below the number of labels.  The array is read at
the old index and then at every index up to the new one, the new one included, because the
loop condition reads the array before anything stops the loop.  So the array is read at the
number of labels itself, one past its last element, exactly when free_activity_idx ends there,
which is the case whenever every label after the old index has a pair, in particular when the
last label is the one filled.  The result of that read is taken to be a label without a pair. -/
theorem assign_pair_reads_past_end (acts : List Activity) (s : Session) (p : Pair)
    (hidx : s.free_activity_idx < acts.length)
    (hfree : s.find (acts.get ⟨s.free_activity_idx, hidx⟩) = none) :
    ∃ s2, s.assign_pair acts p = some (acts.get ⟨s.free_activity_idx, hidx⟩, s2) ∧
      s2.find (acts.get ⟨s.free_activity_idx, hidx⟩) = some p ∧
      (∀ b, b ≠ acts.get ⟨s.free_activity_idx, hidx⟩ → s2.find b = s.find b) ∧
      s.free_activity_idx < s2.free_activity_idx ∧ s2.free_activity_idx ≤ acts.length ∧
      (∀ x (hx : x < acts.length), s.free_activity_idx < x → x < s2.free_activity_idx →
        (s2.find (acts.get ⟨x, hx⟩)).isSome = true) ∧
      (∀ hj : s2.free_activity_idx < acts.length,
        s2.find (acts.get ⟨s2.free_activity_idx, hj⟩) = none) ∧
      s.assign_pair_reads acts p =
        List.range' s.free_activity_idx (s2.free_activity_idx - s.free_activity_idx + 1) ∧
      (acts.length ∈ s.assign_pair_reads acts p ↔ s2.free_activity_idx = acts.length) ∧
      ((∀ x (hx : x < acts.length), s.free_activity_idx < x →
          (s.find (acts.get ⟨x, hx⟩)).isSome = true) →
        acts.length ∈ s.assign_pair_reads acts p) ∧
      (s.free_activity_idx + 1 = acts.length → acts.length ∈ s.assign_pair_reads acts p) := by
  have hstore := lookup_store_new s.entries _ p hfree
  simp only [List.get_eq_getElem] at hstore hfree ⊢
  obtain ⟨h1, h2, h3, h4, h5⟩ := skip_assigned_spec acts
    ((acts[s.free_activity_idx], p) :: s.entries)
    (acts.length - (s.free_activity_idx + 1)) (s.free_activity_idx + 1) (by omega)
  have hreads : s.assign_pair_reads acts p = List.range' s.free_activity_idx
      (Session.skip_assigned acts ((acts[s.free_activity_idx], p) :: s.entries)
        (acts.length - (s.free_activity_idx + 1)) (s.free_activity_idx + 1) -
        s.free_activity_idx + 1) := by
    unfold Session.assign_pair_reads
    rw [List.getElem?_eq_getElem hidx]
    simp only [hstore, h5]
    have : Session.skip_assigned acts ((acts[s.free_activity_idx], p) :: s.entries)
        (acts.length - (s.free_activity_idx + 1)) (s.free_activity_idx + 1) -
        s.free_activity_idx + 1 =
        (Session.skip_assigned acts ((acts[s.free_activity_idx], p) :: s.entries)
        (acts.length - (s.free_activity_idx + 1)) (s.free_activity_idx + 1) -
        (s.free_activity_idx + 1) + 1) + 1 := by omega
    conv_rhs => rw [this, List.range'_succ]
  have hmem : acts.length ∈ s.assign_pair_reads acts p ↔
      Session.skip_assigned acts ((acts[s.free_activity_idx], p) :: s.entries)
        (acts.length - (s.free_activity_idx + 1)) (s.free_activity_idx + 1) = acts.length := by
    rw [hreads, List.mem_range'_1]
    omega
  have hall : (∀ x (hx : x < acts.length), s.free_activity_idx < x →
      (s.find acts[x]).isSome = true) →
      Session.skip_assigned acts ((acts[s.free_activity_idx], p) :: s.entries)
        (acts.length - (s.free_activity_idx + 1)) (s.free_activity_idx + 1) = acts.length := by
    intro hfull
    by_contra hne
    have hj : Session.skip_assigned acts ((acts[s.free_activity_idx], p) :: s.entries)
        (acts.length - (s.free_activity_idx + 1)) (s.free_activity_idx + 1) < acts.length := by
      omega
    have hnone := h4 _ (List.getElem?_eq_getElem hj)
    have hsome := hfull _ hj (by omega)
    simp only [Session.lookup] at hnone
    split at hnone
    · exact absurd hnone (by simp)
    · simp only [Session.find] at hsome
      rw [hnone] at hsome
      exact absurd hsome (by simp)
  refine ⟨⟨(acts[s.free_activity_idx], p) :: s.entries,
    Session.skip_assigned acts ((acts[s.free_activity_idx], p) :: s.entries)
      (acts.length - (s.free_activity_idx + 1)) (s.free_activity_idx + 1)⟩,
    ?_, ?_, ?_, by simp only; omega, h2, ?_, ?_, hreads, hmem, ?_, ?_⟩
  · unfold Session.assign_pair
    rw [List.getElem?_eq_getElem hidx]
    simp only [hstore]
  · simp [Session.find, Session.lookup]
  · intro b hb
    have hb2 : ¬ acts[s.free_activity_idx] = b := fun h => hb h.symm
    simp [Session.find, Session.lookup, hb2]
  · intro x hx hx1 hx2
    exact h3 x _ (List.getElem?_eq_getElem hx) (by omega) hx2
  · intro hj
    exact h4 _ (List.getElem?_eq_getElem hj)
  · intro hfull
    exact hmem.2 (hall hfull)
  · intro hlast
    apply hmem.2
    omega

/-- An instance of C25, and the input on which the array is read out of bounds: the session of
generate_sessions with the first five labels filled.  The call assign_pair(Pair()) gives
example_session and reads the array activities at the indices 5 and 6, and 6 is NUM_ACTIVITIES,
one past the last element of the array. -/
theorem assign_pair_reads_past_end_witness :
    five_filled_session.free_activity_idx < activities.length ∧
    five_filled_session.find (activities.get ⟨5, by decide⟩) = none ∧
    five_filled_session.assign_pair activities Pair.empty =
      some ("Balance Board", example_session) ∧
    five_filled_session.assign_pair_reads activities Pair.empty = [5, 6] ∧
    NUM_ACTIVITIES = 6 ∧
    activities.length ∈ five_filled_session.assign_pair_reads activities Pair.empty :=
  ⟨by decide, by decide, by decide, by decide, by decide,
    (assign_pair_reads_past_end activities five_filled_session Pair.empty (by decide)
      (by decide)).elim (fun _ h => h.2.2.2.2.2.2.2.2.2.2 (by decide))⟩

/-! ## Properties: idle detection of the thread pool -/

theorem countP_set_running {τ : Type} (ws : List (Worker τ)) (i : Nat) (w : Worker τ)
    (h : ws[i]? = some w) (w2 : Worker τ) :
    (ws.set i w2).countP Worker.is_running + (if w.is_running then 1 else 0) =
      ws.countP Worker.is_running + (if w2.is_running then 1 else 0) := by
  induction ws generalizing i with
  | nil => simp at h
  | cons x rest ih =>
    cases i with
    | zero =>
      simp only [List.getElem?_cons_zero, Option.some.injEq] at h
      subst h
      simp only [List.set_cons_zero, List.countP_cons]
      omega
    | succ i =>
      simp only [List.getElem?_cons_succ] at h
      have := ih i h
      simp only [List.set_cons_succ, List.countP_cons]
      omega

theorem countP_le_length_workers {τ : Type} (ws : List (Worker τ)) :
    ws.countP Worker.is_running ≤ ws.length := List.countP_le_length _

theorem pool_step_invariant {τ : Type} (st st2 : Pool τ) (e : PoolEvent τ)
    (hlen : st.workers.length < UINT_SIZE)
    (hinv : st.pool.tasks_busy = st.busy_workers) (h : st.step e = some st2) :
    st2.workers.length = st.workers.length ∧ st2.pool.tasks_busy = st2.busy_workers := by
  have hle := countP_le_length_workers st.workers
  cases e with
  | pop i =>
    simp only [Pool.step] at h
    split at h
    · rename_i task rest hw ht
      injection h with h
      subst h
      have hc := countP_set_running st.workers i _ hw (Worker.running task)
      have hle2 := countP_le_length_workers (st.workers.set i (Worker.running task))
      simp only [List.length_set] at hle2
      simp only [Worker.is_running, if_true, Bool.false_eq_true, if_false, add_zero] at hc
      refine ⟨by simp, ?_⟩
      simp only [Pool.busy_workers, uint_incr] at *
      rw [hinv, hc]
      apply Nat.mod_eq_of_lt
      omega
    · exact absurd h (by simp)
  | finish i =>
    simp only [Pool.step] at h
    split at h
    · rename_i task hw
      injection h with h
      subst h
      have hc := countP_set_running st.workers i _ hw Worker.waiting
      simp only [Worker.is_running, if_true, Bool.false_eq_true, if_false, add_zero] at hc
      refine ⟨by simp, ?_⟩
      simp only [Pool.busy_workers, uint_decr, UINT_SIZE] at *
      rw [hinv]
      omega
    · exact absurd h (by simp)
  | exit i =>
    simp only [Pool.step] at h
    split at h
    · rename_i hw
      split at h
      · injection h with h
        subst h
        have hc := countP_set_running st.workers i _ hw Worker.returned
        simp only [Worker.is_running, Bool.false_eq_true, if_false, add_zero] at hc
        refine ⟨by simp, ?_⟩
        simp only [Pool.busy_workers] at *
        rw [hinv, hc]
      · exact absurd h (by simp)
    · exact absurd h (by simp)
  | enqueue caller task =>
    have hb : (st.pool.enqueue task).1.tasks_busy = st.pool.tasks_busy := by
      unfold ThreadPool.enqueue
      split <;> rfl
    cases caller with
    | none =>
      simp only [Pool.step] at h
      injection h with h
      subst h
      exact ⟨rfl, by simp only [Pool.busy_workers] at *; rw [hb, hinv]⟩
    | some i =>
      simp only [Pool.step] at h
      split at h
      · injection h with h
        subst h
        exact ⟨rfl, by simp only [Pool.busy_workers] at *; rw [hb, hinv]⟩
      · exact absurd h (by simp)
  | shutdown =>
    simp only [Pool.step] at h
    injection h with h
    subst h
    exact ⟨rfl, hinv⟩
  | wait_finished =>
    simp only [Pool.step] at h
    split at h
    · injection h with h
      subst h
      exact ⟨rfl, hinv⟩
    · exact absurd h (by simp)

theorem pool_run_invariant {τ : Type} (events : List (PoolEvent τ)) (st st2 : Pool τ)
    (hlen : st.workers.length < UINT_SIZE)
    (hinv : st.pool.tasks_busy = st.busy_workers) (h : st.run events = some st2) :
    st2.workers.length = st.workers.length ∧ st2.pool.tasks_busy = st2.busy_workers := by
  induction events generalizing st with
  | nil =>
    simp only [Pool.run, List.foldlM_nil] at h
    injection h with h
    subst h
    exact ⟨rfl, hinv⟩
  | cons e rest ih =>
    simp only [Pool.run, List.foldlM_cons] at h
    cases h1 : st.step e with
    | none => rw [h1] at h; exact absurd h (by simp)
    | some st1 =>
      rw [h1] at h
      obtain ⟨i1, i2⟩ := pool_step_invariant st st1 e hlen hinv h1
      obtain ⟨j1, j2⟩ := ih st1 (by rw [i1]; exact hlen) i2 h
      exact ⟨by rw [j1, i1], j2⟩

theorem countP_running_zero {τ : Type} (ws : List (Worker τ)) :
    ws.countP Worker.is_running = 0 ↔ ∀ w ∈ ws, ∀ task, w ≠ Worker.running task := by
  rw [List.countP_eq_zero]
  constructor
  · intro h w hw task hwt
    subst hwt
    exact h _ hw rfl
  · intro h w hw hr
    cases w with
    | waiting => simp [Worker.is_running] at hr
    | running task => exact h _ hw task rfl
    | returned => simp [Worker.is_running] at hr

/-- C22: idle detection.  For a pool of numThreads workers, numThreads below 2^32 (the program
passes std::thread::hardware_concurrency(), an unsigned int), and every state that the pool
reaches from its construction by any sequence of steps, each step one critical section under
the queue mutex: tasks_busy equals the number of workers that have popped a task and have not
yet finished running it; the predicate of wait_finished holds, so that wait_finished returns,
exactly when the queue is empty and no worker runs a task; and when wait_finished returns, the
queue is empty, tasks_busy is 0, no worker has a popped task, and no task of a worker can
enqueue a task, so that the pool is left as it is. -/
theorem wait_finished_idle {τ : Type} (numThreads : Nat) (hn : numThreads < UINT_SIZE)
    (events : List (PoolEvent τ)) (st : Pool τ)
    (h : (Pool.init τ numThreads).run events = some st) :
    st.workers.length = numThreads ∧
    st.pool.tasks_busy = st.busy_workers ∧
    ((st.step PoolEvent.wait_finished).isSome = true ↔
      st.pool.tasks = [] ∧ ∀ w ∈ st.workers, ∀ task, w ≠ Worker.running task) ∧
    ∀ st2, st.step PoolEvent.wait_finished = some st2 →
      st2 = st ∧ st.pool.tasks = [] ∧ st.pool.tasks_busy = 0 ∧ st.busy_workers = 0 ∧
      (∀ w ∈ st.workers, ∀ task, w ≠ Worker.running task) ∧
      (∀ i task, st.step (PoolEvent.enqueue (some i) task) = none) ∧
      (∀ i, st.step (PoolEvent.finish i) = none) := by
  have hinit : (Pool.init τ numThreads).pool.tasks_busy = (Pool.init τ numThreads).busy_workers := by
    simp only [Pool.init, ThreadPool.init, Pool.busy_workers]
    symm
    rw [countP_running_zero]
    intro w hw task
    rw [List.mem_replicate] at hw
    rw [hw.2]
    simp
  obtain ⟨hlen, hinv⟩ := pool_run_invariant events (Pool.init τ numThreads) st
    (by simp [Pool.init]; exact hn) hinit h
  have hlen2 : st.workers.length = numThreads := by
    rw [hlen]
    simp [Pool.init]
  have hidle : (st.step PoolEvent.wait_finished).isSome = true ↔
      st.pool.tasks = [] ∧ ∀ w ∈ st.workers, ∀ task, w ≠ Worker.running task := by
    rw [← countP_running_zero]
    simp only [Pool.step]
    have hb : st.pool.tasks_busy = st.workers.countP Worker.is_running := hinv
    rw [hb]
    cases ht : st.pool.tasks with
    | nil =>
      by_cases hz : st.workers.countP Worker.is_running = 0
      · simp [hz]
      · simp [hz]
    | cons t rest => simp
  refine ⟨hlen2, hinv, hidle, ?_⟩
  intro st2 h2
  have hsome : (st.step PoolEvent.wait_finished).isSome = true := by rw [h2]; rfl
  obtain ⟨ht, hw⟩ := hidle.1 hsome
  have hz : st.busy_workers = 0 := (countP_running_zero st.workers).2 hw
  refine ⟨?_, ht, by rw [hinv, hz], hz, hw, ?_, ?_⟩
  · simp only [Pool.step] at h2
    split at h2
    · injection h2 with h2
      exact h2.symm
    · exact absurd h2 (by simp)
  · intro i task
    simp only [Pool.step]
    split
    · rename_i t hwi
      exact absurd rfl (hw _ (List.getElem?_mem hwi) t)
    · rfl
  · intro i
    simp only [Pool.step]
    split
    · rename_i t hwi
      exact absurd rfl (hw _ (List.getElem?_mem hwi) t)
    · rfl

/-- An instance of C22: a pool of two workers, a task 1 enqueued from outside and popped by
worker 0, whose task enqueues a task 2 that worker 1 pops.  While a task runs wait_finished
cannot return; after both have finished it can. -/
theorem wait_finished_idle_witness :
    2 < UINT_SIZE ∧
    (((Pool.init Nat 2).run [PoolEvent.enqueue none 1, PoolEvent.pop 0,
        PoolEvent.enqueue (some 0) 2, PoolEvent.finish 0, PoolEvent.pop 1]).bind
      (fun st => st.step PoolEvent.wait_finished)) = none ∧
    (Pool.init Nat 2).run [PoolEvent.enqueue none 1, PoolEvent.pop 0,
        PoolEvent.enqueue (some 0) 2, PoolEvent.finish 0, PoolEvent.pop 1,
        PoolEvent.finish 1] =
      some ⟨⟨[], 0, false⟩, [Worker.waiting, Worker.waiting]⟩ ∧
    (∀ st2, (Pool.mk (ThreadPool.mk ([] : List Nat) 0 false)
        [Worker.waiting, Worker.waiting]).step PoolEvent.wait_finished = some st2 →
      st2 = ⟨⟨[], 0, false⟩, [Worker.waiting, Worker.waiting]⟩ ∧
      (Pool.mk (ThreadPool.mk ([] : List Nat) 0 false)
        [Worker.waiting, Worker.waiting]).pool.tasks = [] ∧
      (Pool.mk (ThreadPool.mk ([] : List Nat) 0 false)
        [Worker.waiting, Worker.waiting]).pool.tasks_busy = 0 ∧
      (Pool.mk (ThreadPool.mk ([] : List Nat) 0 false)
        [Worker.waiting, Worker.waiting]).busy_workers = 0 ∧
      (∀ w ∈ (Pool.mk (ThreadPool.mk ([] : List Nat) 0 false)
        [Worker.waiting, Worker.waiting]).workers, ∀ task, w ≠ Worker.running task) ∧
      (∀ i task, (Pool.mk (ThreadPool.mk ([] : List Nat) 0 false)
        [Worker.waiting, Worker.waiting]).step (PoolEvent.enqueue (some i) task) = none) ∧
      (∀ i, (Pool.mk (ThreadPool.mk ([] : List Nat) 0 false)
        [Worker.waiting, Worker.waiting]).step (PoolEvent.finish i) = none)) :=
  ⟨by decide, by decide, by decide,
    (wait_finished_idle 2 (by decide)
      [PoolEvent.enqueue none 1, PoolEvent.pop 0, PoolEvent.enqueue (some 0) 2,
        PoolEvent.finish 0, PoolEvent.pop 1, PoolEvent.finish 1]
      ⟨⟨[], 0, false⟩, [Worker.waiting, Worker.waiting]⟩ (by decide)).2.2.2⟩

/-! ## Properties: the number of sessions of the built-in roster -/

theorem generate_sessions_count_loop (acts : List Activity) (hnd : acts.Nodup) (fuel : Nat)
    (possible : List Pair) (s : Session) (k : Nat) (hs : Session.filled acts k s)
    (hk : k < acts.length) (hfuel : possible.length ≤ fuel)
    (IH : ∀ possible2 s2 perms2, Session.filled acts (k + 1) s2 → possible2.length < fuel →
      ∃ perms3, generate_sessions acts fuel possible2 (s2, perms2) = some (s2, perms3) ∧
        perms3.length ≤ perms2.length + session_count (acts.length - (k + 1)) possible2) :
    ∀ (L : List Pair), (∀ u ∈ L, u ∈ possible) → ∀ perms,
      ∃ perms2, L.foldlM (generate_sessions_body acts fuel possible) (s, perms) =
          some (s, perms2) ∧
        perms2.length ≤ perms.length +
          (L.map (fun p => session_count (acts.length - (k + 1))
            (generate_possible_pairings p possible))).sum := by
  intro L
  induction L with
  | nil =>
    intro _ perms
    exact ⟨perms, rfl, by simp⟩
  | cons u rest ih =>
    intro hL perms
    have hu : u ∈ possible := hL u (List.mem_cons_self _ _)
    obtain ⟨ha, hs1⟩ := assign_pair_filled hnd hs hk u
    have hlen := generate_possible_pairings_length hu
    obtain ⟨perms1, hg, hc1⟩ :=
      IH (generate_possible_pairings u possible) _ perms hs1 (by omega)
    have hbody : generate_sessions_body acts fuel possible (s, perms) u = some (s, perms1) := by
      unfold generate_sessions_body
      simp only [ha, hg]
      rw [free_activity_filled hnd hs hk]
    obtain ⟨perms2, hf, hc2⟩ := ih (fun v hv => hL v (List.mem_cons_of_mem _ hv)) perms1
    refine ⟨perms2, ?_, ?_⟩
    · rw [List.foldlM_cons, hbody]
      exact hf
    · rw [List.map_cons, List.sum_cons]
      omega

theorem generate_sessions_count (acts : List Activity) (hnd : acts.Nodup) :
    ∀ (fuel : Nat) (possible : List Pair) (s : Session) (perms : List Session) (k : Nat),
      Session.filled acts k s → possible.length < fuel →
      ∃ perms2, generate_sessions acts fuel possible (s, perms) = some (s, perms2) ∧
        perms2.length ≤ perms.length + session_count (acts.length - k) possible := by
  intro fuel
  induction fuel with
  | zero =>
    intro possible s perms k _ hlt
    omega
  | succ fuel ih =>
    intro possible s perms k hs hlt
    rw [generate_sessions_succ]
    by_cases hc : s.complete acts = true
    · rw [if_pos hc]
      have hk : k = acts.length := (filled_complete hs).1 hc
      refine ⟨_, rfl, ?_⟩
      have := uset_insert_length Session.eq perms s
      rw [hk, Nat.sub_self]
      simp only [session_count]
      exact this
    · rw [if_neg hc]
      have hk : k < acts.length := by
        have h1 := hs.1
        have h2 : k ≠ acts.length := fun h => hc ((filled_complete hs).2 h)
        omega
      obtain ⟨perms2, hf, hcount⟩ :=
        generate_sessions_count_loop acts hnd fuel possible s k hs hk (by omega)
          (fun possible2 s2 perms2 h1 h2 => ih possible2 s2 perms2 (k + 1) h1 h2)
          possible (fun u hu => hu) perms
      refine ⟨perms2, hf, ?_⟩
      have hd : acts.length - k = (acts.length - (k + 1)) + 1 := by omega
      rw [hd]
      simp only [session_count]
      exact hcount

theorem count_bound_mono (d : Nat) : ∀ r r2 e e2 : Nat, r ≤ r2 → e ≤ e2 →
    count_bound d r e ≤ count_bound d r2 e2 := by
  induction d with
  | zero =>
    intro r r2 e e2 _ _
    simp [count_bound]
  | succ d ih =>
    intro r r2 e e2 hr he
    simp only [count_bound]
    apply Nat.add_le_add
    · exact Nat.mul_le_mul (Nat.choose_le_choose 2 hr) (ih _ _ _ _ (by omega) he)
    · exact Nat.mul_le_mul he (ih _ _ _ _ hr (le_refl _))

theorem sum_le_split {α : Type} (l : List α) (f : α → Nat) (pred : α → Bool) (a b : Nat)
    (h1 : ∀ x ∈ l, pred x = true → f x ≤ a) (h2 : ∀ x ∈ l, pred x = false → f x ≤ b) :
    (l.map f).sum ≤ (l.filter (fun x => !pred x)).length * b + (l.filter pred).length * a := by
  induction l with
  | nil => simp
  | cons x rest ih =>
    have ih2 := ih (fun y hy => h1 y (List.mem_cons_of_mem _ hy))
      (fun y hy => h2 y (List.mem_cons_of_mem _ hy))
    rw [List.map_cons, List.sum_cons]
    cases hp : pred x
    · have := h2 x (List.mem_cons_self _ _) hp
      simp only [List.filter_cons, hp, Bool.not_false, if_true, Bool.false_eq_true, if_false,
        List.length_cons]
      rw [Nat.add_mul]
      omega
    · have := h1 x (List.mem_cons_self _ _) hp
      simp only [List.filter_cons, hp, Bool.not_true, if_true, Bool.false_eq_true, if_false,
        List.length_cons]
      rw [Nat.add_mul]
      omega

theorem well_formed_empty {roster : List Facilitator} {p : Pair}
    (h : p.well_formed roster = true) (he : p.is_empty_pair = true) : p = Pair.empty := by
  unfold Pair.well_formed at h
  rw [if_pos he] at h
  simpa using h

theorem well_formed_members {roster : List Facilitator} {p : Pair}
    (h : p.well_formed roster = true) (he : p.is_empty_pair = false) :
    p.first ∈ roster ∧ p.second ∈ roster ∧ p.first ≠ p.second := by
  unfold Pair.well_formed at h
  rw [he] at h
  simpa [and_assoc] using h

theorem distinct_nodup {l : List Pair} (h : l.Pairwise (fun p q => Pair.eq p q = false)) :
    l.Nodup := by
  apply h.imp
  intro a b hab heq
  rw [heq, pair_eq_self] at hab
  exact absurd hab (by simp)

theorem nonempty_pairings_le (roster : List Facilitator) (hr : roster.Nodup)
    (possible : List Pair) (hw : ∀ p ∈ possible, p.well_formed roster = true)
    (hd : possible.Pairwise (fun p q => Pair.eq p q = false)) :
    (possible.filter (fun p => !p.is_empty_pair)).length ≤
      (roster_left roster possible).choose 2 := by
  have hN : ((possible.filter (fun p => !p.is_empty_pair)).map Pair.unordered).Nodup := by
    rw [List.Nodup, List.pairwise_map]
    apply (hd.sublist (List.filter_sublist _)).imp
    intro a b hab heq
    rw [(pair_eq_unordered a b).2 heq] at hab
    exact absurd hab (by simp)
  have hlen : (possible.filter (fun p => !p.is_empty_pair)).length =
      (((possible.filter (fun p => !p.is_empty_pair)).map Pair.unordered).toFinset).card := by
    rw [List.toFinset_card_of_nodup hN, List.length_map]
  have hR : roster_left roster possible =
      ((roster.filter (fun f => possible.any (fun p => p.contains f))).toFinset).card := by
    rw [List.toFinset_card_of_nodup (hr.filter _)]
    rfl
  rw [hlen, hR, ← Sym2.card_image_offDiag]
  apply Finset.card_le_card
  intro z hz
  rw [List.mem_toFinset, List.mem_map] at hz
  obtain ⟨p, hp, rfl⟩ := hz
  rw [List.mem_filter] at hp
  obtain ⟨hp1, hp2⟩ := hp
  have hne : p.is_empty_pair = false := by simpa using hp2
  obtain ⟨m1, m2, m3⟩ := well_formed_members (hw p hp1) hne
  rw [Finset.mem_image]
  refine ⟨(p.first, p.second), ?_, rfl⟩
  rw [Finset.mem_offDiag]
  refine ⟨?_, ?_, m3⟩
  · rw [List.mem_toFinset, List.mem_filter]
    refine ⟨m1, ?_⟩
    rw [List.any_eq_true]
    exact ⟨p, hp1, (pair_contains_iff _ _).2 (Or.inl rfl)⟩
  · rw [List.mem_toFinset, List.mem_filter]
    refine ⟨m2, ?_⟩
    rw [List.any_eq_true]
    exact ⟨p, hp1, (pair_contains_iff _ _).2 (Or.inr rfl)⟩

theorem roster_left_mono (roster : List Facilitator) (possible possible2 : List Pair)
    (h : ∀ p ∈ possible2, p ∈ possible) :
    roster_left roster possible2 ≤ roster_left roster possible := by
  unfold roster_left
  have : roster.filter (fun f => possible2.any (fun p => p.contains f)) =
      (roster.filter (fun f => possible.any (fun p => p.contains f))).filter
        (fun f => possible2.any (fun p => p.contains f)) := by
    rw [List.filter_filter]
    apply List.filter_congr
    intro f _
    cases h2 : possible2.any (fun p => p.contains f)
    · simp
    · rw [List.any_eq_true] at h2
      obtain ⟨p, hp, hpf⟩ := h2
      have : possible.any (fun p => p.contains f) = true :=
        List.any_eq_true.2 ⟨p, h p hp, hpf⟩
      simp [this]
  rw [this]
  exact List.length_filter_le _ _

theorem roster_left_selected (roster : List Facilitator) (possible : List Pair) (u : Pair)
    (hu : u ∈ possible) (hw : u.well_formed roster = true) (hne : u.is_empty_pair = false) :
    roster_left roster (generate_possible_pairings u possible) + 2 ≤
      roster_left roster possible := by
  obtain ⟨m1, m2, m3⟩ := well_formed_members hw hne
  unfold roster_left
  have hsplit : roster.filter (fun f =>
      (generate_possible_pairings u possible).any (fun p => p.contains f)) =
      (roster.filter (fun f => possible.any (fun p => p.contains f))).filter
        (fun f => (generate_possible_pairings u possible).any (fun p => p.contains f)) := by
    rw [List.filter_filter]
    apply List.filter_congr
    intro f _
    cases h2 : (generate_possible_pairings u possible).any (fun p => p.contains f)
    · simp
    · rw [List.any_eq_true] at h2
      obtain ⟨p, hp, hpf⟩ := h2
      have : possible.any (fun p => p.contains f) = true :=
        List.any_eq_true.2 ⟨p, (generate_possible_pairings_mem hp).1, hpf⟩
      simp [this]
  have hgone : ∀ f, (f = u.first ∨ f = u.second) →
      (generate_possible_pairings u possible).any (fun p => p.contains f) = false := by
    intro f hf
    cases h2 : (generate_possible_pairings u possible).any (fun p => p.contains f)
    · rfl
    · rw [List.any_eq_true] at h2
      obtain ⟨p, hp, hpf⟩ := h2
      have hs := (generate_possible_pairings_mem hp).2
      rw [stays_available_iff] at hs
      rcases hf with hf | hf
      · rw [hf, hs.1] at hpf
        exact absurd hpf (by simp)
      · rw [hf, hs.2.1] at hpf
        exact absurd hpf (by simp)
  have hin : ∀ f, (f = u.first ∨ f = u.second) → f ∈ roster →
      f ∈ roster.filter (fun f => possible.any (fun p => p.contains f)) := by
    intro f hf hfr
    rw [List.mem_filter]
    refine ⟨hfr, ?_⟩
    rw [List.any_eq_true]
    refine ⟨u, hu, ?_⟩
    rcases hf with hf | hf
    · rw [hf]
      exact (pair_contains_iff _ _).2 (Or.inl rfl)
    · rw [hf]
      exact (pair_contains_iff _ _).2 (Or.inr rfl)
  have htwo := filter_two_le
    (roster.filter (fun f => possible.any (fun p => p.contains f)))
    (fun f => !(generate_possible_pairings u possible).any (fun p => p.contains f))
    u.first u.second (hin _ (Or.inl rfl) m1) (hin _ (Or.inr rfl) m2) m3
    (by simp only [hgone _ (Or.inl rfl)]; rfl) (by simp only [hgone _ (Or.inr rfl)]; rfl)
  have hpart := @List.length_eq_length_filter_add _
    (roster.filter (fun f => possible.any (fun p => p.contains f)))
    (fun f => (generate_possible_pairings u possible).any (fun p => p.contains f))
  rw [hsplit]
  omega

theorem empty_pairings_le (u : Pair) (possible : List Pair) :
    empty_pairings (generate_possible_pairings u possible) ≤ empty_pairings possible := by
  unfold empty_pairings
  have hnd := distinct_nodup (generate_possible_pairings_distinct u possible)
  have hsub : generate_possible_pairings u possible ⊆ possible :=
    fun x hx => (generate_possible_pairings_mem hx).1
  exact ((List.subperm_of_subset hnd hsub).filter _).length_le

theorem empty_pairings_selected (roster : List Facilitator) (u : Pair) (possible : List Pair)
    (hw : ∀ p ∈ possible, p.well_formed roster = true) (hu : u.well_formed roster = true)
    (he : u.is_empty_pair = true) :
    empty_pairings (generate_possible_pairings u possible) = 0 := by
  unfold empty_pairings
  rw [List.length_eq_zero, List.filter_eq_nil_iff]
  intro x hx hxe
  obtain ⟨h1, h2⟩ := generate_possible_pairings_mem hx
  have e1 := well_formed_empty (hw x h1) hxe
  have e2 := well_formed_empty hu he
  rw [e1, e2] at h2
  exact absurd h2 (by decide)

theorem session_count_le (roster : List Facilitator) (hr : roster.Nodup) :
    ∀ (d : Nat) (possible : List Pair), (∀ p ∈ possible, p.well_formed roster = true) →
      possible.Pairwise (fun p q => Pair.eq p q = false) →
      session_count d possible ≤
        count_bound d (roster_left roster possible) (empty_pairings possible) := by
  intro d
  induction d with
  | zero =>
    intro possible _ _
    simp [session_count, count_bound]
  | succ d ih =>
    intro possible hw hd
    simp only [session_count, count_bound]
    have hsub : ∀ u ∈ possible, ∀ p ∈ generate_possible_pairings u possible,
        p.well_formed roster = true :=
      fun u _ p hp => hw p (generate_possible_pairings_mem hp).1
    have h1 : ∀ u ∈ possible, u.is_empty_pair = true →
        session_count d (generate_possible_pairings u possible) ≤
          count_bound d (roster_left roster possible) 0 := by
      intro u hu he
      have := ih _ (hsub u hu) (generate_possible_pairings_distinct u possible)
      rw [empty_pairings_selected roster u possible hw (hw u hu) he] at this
      exact le_trans this (count_bound_mono d _ _ _ _
        (roster_left_mono roster possible _ (fun p hp => (generate_possible_pairings_mem hp).1))
        (le_refl _))
    have h2 : ∀ u ∈ possible, u.is_empty_pair = false →
        session_count d (generate_possible_pairings u possible) ≤
          count_bound d (roster_left roster possible - 2) (empty_pairings possible) := by
      intro u hu he
      have := ih _ (hsub u hu) (generate_possible_pairings_distinct u possible)
      have hr2 := roster_left_selected roster possible u hu (hw u hu) he
      exact le_trans this (count_bound_mono d _ _ _ _ (by omega) (empty_pairings_le u possible))
    have hsum := sum_le_split possible
      (fun p => session_count d (generate_possible_pairings p possible)) Pair.is_empty_pair
      _ _ h1 h2
    have hne := nonempty_pairings_le roster hr possible hw hd
    refine le_trans hsum ?_
    apply Nat.add_le_add
    · exact Nat.mul_le_mul_right _ hne
    · exact le_refl _

theorem enumerated_sessions_le {pairings : List Pair} {P : List Session}
    (hw : ∀ p ∈ pairings, p.well_formed facilitators = true)
    (hd : pairings.Pairwise (fun p q => Pair.eq p q = false))
    (he : empty_pairings pairings ≤ 1)
    (h : enumerate_sessions activities pairings = some P) : P.length ≤ 680400 := by
  obtain ⟨perms, hg, hc⟩ :=
    generate_sessions_count activities activities_nodup (pairings.length + 1)
      pairings Session.empty [] 0 (filled_empty _) (by omega)
  unfold enumerate_sessions at h
  rw [hg] at h
  simp only [Option.map_some'] at h
  injection h with h
  subst h
  have h1 := session_count_le facilitators (by decide) 6 pairings hw hd
  have h2 : roster_left facilitators pairings ≤ 10 := List.length_filter_le _ _
  have h4 := count_bound_mono 6 _ _ _ _ h2 he
  have h5 : count_bound 6 10 1 = 680400 := by decide
  have h6 : activities.length - 0 = 6 := by decide
  rw [h6] at hc
  simp only [List.length_nil, zero_add] at hc
  omega

theorem roster_pairings_eq : build_pairings facilitators = some roster_pairings := by decide

set_option maxRecDepth 1000000 in
theorem roster_pairings_well_formed :
    ∀ p ∈ roster_pairings, p.well_formed facilitators = true := by decide

set_option maxRecDepth 1000000 in
theorem roster_pairings_one_empty : empty_pairings roster_pairings ≤ 1 := by decide

theorem roster_pairings_distinct :
    roster_pairings.Pairwise (fun p q => Pair.eq p q = false) := by
  obtain ⟨pairings, hb, hnd, _⟩ := build_pairings_keys facilitators (by decide)
  rw [roster_pairings_eq] at hb
  injection hb with hb
  rw [hb]
  exact nodup_key_pairwise Pair.eq Pair.unordered pair_eq_unordered pairings hnd

theorem roster_sessions_le {P : List Session}
    (h : enumerate_sessions activities roster_pairings = some P) : P.length ≤ 680400 :=
  enumerated_sessions_le roster_pairings_well_formed roster_pairings_distinct
    roster_pairings_one_empty h

theorem roster_sessions_fit {P : List Session}
    (h : enumerate_sessions activities roster_pairings = some P) :
    P.length ^ NUM_SESSIONS < UINT128_SIZE := by
  have h1 := roster_sessions_le h
  have h2 : P.length ^ NUM_SESSIONS ≤ 680400 ^ NUM_SESSIONS := Nat.pow_le_pow_left h1 _
  have h3 : 680400 ^ NUM_SESSIONS < UINT128_SIZE := by decide
  omega

/-! ## Properties: a session of many pairings and the wrap of the conflict counter -/

theorem entry_conflicts_empty_schedule (e : Activity × Pair) :
    entry_conflicts Schedule.empty e = 0 := by
  unfold entry_conflicts
  split
  · rfl
  · simp [Schedule.empty, Schedule.facilitators_of, USet.count]

theorem entry_conflicts_held (c : Schedule) (e : Activity × Pair)
    (hne : e.2.is_empty_pair = false)
    (h1 : USet.count Pair.eq c.selected_pairings e.2 = 1)
    (h2 : USet.count Facilitator.eq
      (Schedule.facilitators_of c.facilitator_activities e.1) e.2.first = 1)
    (h3 : USet.count Facilitator.eq
      (Schedule.facilitators_of c.facilitator_activities e.1) e.2.second = 1) :
    entry_conflicts c e = 3 := by
  unfold entry_conflicts
  rw [hne, h1, h2, h3]
  rfl

theorem add_session_again (n : Nat) (s : Session) (hv : s.valid) (hd : s.distinct_pairings)
    (hne : ∀ e ∈ s.entries, e.2.is_empty_pair = false) (c : Schedule)
    (hsize : c.size < n) (hc : c.conflicts < UINT_SIZE)
    (hheld : ∀ e ∈ s.entries,
      USet.count Pair.eq c.selected_pairings e.2 = 1 ∧
      USet.count Facilitator.eq
        (Schedule.facilitators_of c.facilitator_activities e.1) e.2.first = 1 ∧
      USet.count Facilitator.eq
        (Schedule.facilitators_of c.facilitator_activities e.1) e.2.second = 1) :
    ∃ c2, Schedule.add_session n c s = some c2 ∧
      c2.conflicts = (c.conflicts + 3 * s.size) % UINT_SIZE ∧ c2.size = c.size + 1 ∧
      ∀ e ∈ s.entries,
        USet.count Pair.eq c2.selected_pairings e.2 = 1 ∧
        USet.count Facilitator.eq
          (Schedule.facilitators_of c2.facilitator_activities e.1) e.2.first = 1 ∧
        USet.count Facilitator.eq
          (Schedule.facilitators_of c2.facilitator_activities e.1) e.2.second = 1 := by
  have hlt := fold_add_entry_conflicts_lt s.entries c hc
  have hfold := fold_add_entry_conflicts s.entries c hv hd
  rw [Nat.mod_eq_of_lt hlt] at hfold
  have hsum : (s.entries.map (entry_conflicts c)).sum = 3 * s.size := by
    have hmap : s.entries.map (entry_conflicts c) = s.entries.map (fun _ => 3) := by
      apply List.map_congr_left
      intro e he
      obtain ⟨h1, h2, h3⟩ := hheld e he
      exact entry_conflicts_held c e (hne e he) h1 h2 h3
    rw [hmap, List.map_const', List.sum_replicate, smul_eq_mul, Session.size]
    exact Nat.mul_comm _ _
  rw [hsum] at hfold
  refine ⟨{ (s.entries.foldl Schedule.add_entry c) with
      sessions := (s.entries.foldl Schedule.add_entry c).sessions ++ [s] },
    by simp only [Schedule.add_session, if_pos hsize], hfold, ?_, ?_⟩
  · simp only [Schedule.size]
    rw [fold_add_entry_sessions, List.length_append, List.length_singleton]
  · intro e he
    refine ⟨?_, ?_, ?_⟩
    · exact (fold_add_entry_selected s.entries c e.2).2 (Or.inl (hheld e he).1)
    · exact (fold_add_entry_facilitators s.entries c e.1 e.2.first).2 (Or.inl (hheld e he).2.1)
    · exact (fold_add_entry_facilitators s.entries c e.1 e.2.second).2
        (Or.inl (hheld e he).2.2)

theorem add_session_first (n : Nat) (s : Session) (hv : s.valid) (hd : s.distinct_pairings)
    (hne : ∀ e ∈ s.entries, e.2.is_empty_pair = false) (hn : 0 < n) :
    ∃ c1, Schedule.add_session n Schedule.empty s = some c1 ∧
      c1.conflicts = 0 ∧ c1.size = 1 ∧
      ∀ e ∈ s.entries,
        USet.count Pair.eq c1.selected_pairings e.2 = 1 ∧
        USet.count Facilitator.eq
          (Schedule.facilitators_of c1.facilitator_activities e.1) e.2.first = 1 ∧
        USet.count Facilitator.eq
          (Schedule.facilitators_of c1.facilitator_activities e.1) e.2.second = 1 := by
  have hc : Schedule.empty.conflicts < UINT_SIZE := by decide
  have hlt := fold_add_entry_conflicts_lt s.entries Schedule.empty hc
  have hfold := fold_add_entry_conflicts s.entries Schedule.empty hv hd
  rw [Nat.mod_eq_of_lt hlt] at hfold
  have hsum : (s.entries.map (entry_conflicts Schedule.empty)).sum = 0 := by
    have hmap : s.entries.map (entry_conflicts Schedule.empty) = s.entries.map (fun _ => 0) := by
      apply List.map_congr_left
      intro e _
      exact entry_conflicts_empty_schedule e
    rw [hmap, List.map_const', List.sum_replicate, smul_eq_mul, Nat.mul_zero]
  rw [hsum] at hfold
  have hsize : Schedule.empty.size < n := hn
  refine ⟨{ (s.entries.foldl Schedule.add_entry Schedule.empty) with
      sessions := (s.entries.foldl Schedule.add_entry Schedule.empty).sessions ++ [s] },
    by simp only [Schedule.add_session, if_pos hsize], hfold, ?_, ?_⟩
  · simp only [Schedule.size]
    rw [fold_add_entry_sessions]
    rfl
  · intro e he
    refine ⟨?_, ?_, ?_⟩
    · exact (fold_add_entry_selected s.entries Schedule.empty e.2).2
        (Or.inr ⟨e, he, hne e he, pair_eq_self _⟩)
    · exact (fold_add_entry_facilitators s.entries Schedule.empty e.1 e.2.first).2
        (Or.inr ⟨e, he, hne e he, rfl, Or.inl rfl⟩)
    · exact (fold_add_entry_facilitators s.entries Schedule.empty e.1 e.2.second).2
        (Or.inr ⟨e, he, hne e he, rfl, Or.inr rfl⟩)

theorem replicate_a_injective (i j : Nat)
    (h : List.replicate i 'a' = List.replicate j 'a') : i = j := by
  have := congrArg List.length h
  simpa using this

theorem numbered_label_injective : Function.Injective numbered_label := by
  intro i j h
  unfold numbered_label at h
  exact replicate_a_injective i j (congrArg String.data h)

theorem numbered_pairing_ne (i j : Nat) (h : i ≠ j) :
    Pair.ne (numbered_pairing i) (numbered_pairing j) = true := by
  unfold Pair.ne
  cases hp : Pair.eq (numbered_pairing i) (numbered_pairing j)
  · rfl
  · exfalso
    rw [pair_eq_iff] at hp
    rcases hp with ⟨h1, _⟩ | ⟨h1, _⟩
    · have h2 : 'x' :: List.replicate i 'a' = 'x' :: List.replicate j 'a' :=
        congrArg String.data (congrArg Facilitator.name h1)
      exact h (replicate_a_injective i j (List.cons.inj h2).2)
    · have h2 : 'x' :: List.replicate i 'a' = 'y' :: List.replicate j 'a' :=
        congrArg String.data (congrArg Facilitator.name h1)
      exact absurd (List.cons.inj h2).1 (by decide)

theorem numbered_session_size (N : Nat) : (numbered_session N).size = N := by
  simp [numbered_session, Session.size]

theorem numbered_session_valid (N : Nat) : (numbered_session N).valid := by
  unfold Session.valid numbered_session
  simp only [List.map_map]
  exact (List.nodup_range N).map numbered_label_injective

theorem numbered_session_distinct (N : Nat) : (numbered_session N).distinct_pairings := by
  unfold Session.distinct_pairings numbered_session
  simp only [List.pairwise_map]
  apply (List.nodup_range N).imp
  intro i j hij _ _
  exact numbered_pairing_ne i j hij

theorem numbered_session_nonempty (N : Nat) :
    ∀ e ∈ (numbered_session N).entries, e.2.is_empty_pair = false := by
  intro e he
  simp only [numbered_session, List.mem_map] at he
  obtain ⟨i, _, rfl⟩ := he
  rfl

theorem numbered_session_thrice (N : Nat) :
    (build_schedule NUM_SESSIONS [numbered_session N, numbered_session N]).map
        (fun c => (c.conflicts, c.size)) = some (3 * N % UINT_SIZE, 2) ∧
    ((build_schedule NUM_SESSIONS [numbered_session N, numbered_session N]).bind
        (fun c => Schedule.add_session NUM_SESSIONS c (numbered_session N))).map
        (fun c => (c.conflicts, c.size)) = some ((3 * N % UINT_SIZE + 3 * N) % UINT_SIZE, 3) := by
  obtain ⟨c1, h1, k1, s1, held1⟩ := add_session_first NUM_SESSIONS (numbered_session N)
    (numbered_session_valid N) (numbered_session_distinct N) (numbered_session_nonempty N)
    (by decide)
  obtain ⟨c2, h2, k2, s2, held2⟩ := add_session_again NUM_SESSIONS (numbered_session N)
    (numbered_session_valid N) (numbered_session_distinct N) (numbered_session_nonempty N)
    c1 (by rw [s1]; decide) (by rw [k1]; decide) held1
  have hc2 : c2.conflicts < UINT_SIZE := by
    rw [k2]
    exact Nat.mod_lt _ (by decide)
  obtain ⟨c3, h3, k3, s3, _⟩ := add_session_again NUM_SESSIONS (numbered_session N)
    (numbered_session_valid N) (numbered_session_distinct N) (numbered_session_nonempty N)
    c2 (by rw [s2, s1]; decide) hc2 held2
  have hb : build_schedule NUM_SESSIONS [numbered_session N, numbered_session N] = some c2 := by
    unfold build_schedule
    simp only [List.foldlM_cons, List.foldlM_nil, h1, bind, Option.bind, h2]
    rfl
  rw [hb]
  simp only [Option.map_some', Option.some_bind, h3]
  rw [k2, k1, s2, s1, k3, s3, k2, k1, s2, s1, numbered_session_size]
  simp

/-- Counterexample to C11 as stated: a session is an unordered map of any size, and for the
session s of 715827883 pairings (distinct non-empty pairings under distinct labels) the
schedule built from the empty schedule by two calls of add_session(s) has 2 sessions and
3 * 715827883 = 2147483649 conflicts, three for every pairing of the second use; the third call
counts as many again, and the counter, an unsigned int, wraps around to 2, which is less than
the counter before. -/
theorem conflicts_wrap_on_large_session :
    (numbered_session 715827883).size = 715827883 ∧
    (build_schedule NUM_SESSIONS [numbered_session 715827883, numbered_session 715827883]).map
        (fun c => (c.conflicts, c.size)) = some (2147483649, 2) ∧
    2 < NUM_SESSIONS ∧
    ((build_schedule NUM_SESSIONS
          [numbered_session 715827883, numbered_session 715827883]).bind
        (fun c => Schedule.add_session NUM_SESSIONS c (numbered_session 715827883))).map
        (fun c => (c.conflicts, c.size)) = some (2, 3) ∧
    2 < 2147483649 := by
  obtain ⟨h1, h2⟩ := numbered_session_thrice 715827883
  refine ⟨numbered_session_size _, ?_, by decide, ?_, by decide⟩
  · rw [h1]
    decide
  · rw [h2]
    decide

/-! ## Properties: the accounting of the iterations -/

theorem pruned_root_run (n : Nat) (P : List Session) (min_schedule : Schedule) (v : Nat)
    (k2 : Counters) (hmin : min_schedule.conflicts = 0)
    (hv : iterations_skipped P.length n 0 = some v)
    (hu : update_iterations Counters.init 0 v = some k2) :
    Search.run_fifo n P 1 (Search.init min_schedule) = some ⟨min_schedule, [], [], k2⟩ := by
  have hg : generate_schedules n P min_schedule Schedule.empty =
      ⟨min_schedule, none, some (0, v), []⟩ := by
    unfold generate_schedules
    have h0 : Schedule.empty.conflicts ≥ min_schedule.conflicts := by
      rw [hmin]
      exact Nat.zero_le _
    rw [if_pos h0]
    have hs : Schedule.empty.size = 0 := rfl
    rw [hs, hv]
    rfl
  have hr : Search.run_task n P (Search.init min_schedule) [] (Task.root Schedule.empty) =
      some ⟨min_schedule, [], [], k2⟩ := by
    unfold Search.run_task
    simp only [Task.schedule_of, Search.init, hg, hu, List.append_nil]
  rw [Search.run_fifo]
  simp only [Search.init] at hr ⊢
  rw [hr]
  rfl

theorem many_sessions_length : many_sessions.length = 259200 := by
  simp [many_sessions]

set_option exponentiation.threshold 1100 in
set_option maxRecDepth 100000 in
/-- The skipped counts that the source records for the 259200 sessions of the shipped roster and
labels and NUM_SESSIONS = 6.  The count is taken from the double pow(259200, 6 - length), and a
double has 53 significant bits: for a pruned candidate of one session it is 34359738368 less
than 259200^5, and for the pruned empty candidate 2353 * 2^42 less than 259200^6; for
candidates of two or more sessions it is the exact power.  So the search over a set of 259200
sessions with the initial min_schedule of 0 conflicts, which prunes the empty candidate in its
only task, ends with an empty queue and a total below 259200^6: at this size the recorded count
is not the exact power of which C24 speaks. -/
theorem skipped_count_is_rounded :
    iterations_skipped 259200 NUM_SESSIONS 1 = some (259200 ^ 5 - 34359738368) ∧
    iterations_skipped 259200 NUM_SESSIONS 0 = some (259200 ^ 6 - 2353 * 2 ^ 42) ∧
    (∀ size ∈ [2, 3, 4, 5, 6],
      iterations_skipped 259200 NUM_SESSIONS size = some (259200 ^ (NUM_SESSIONS - size))) ∧
    many_sessions.length = 259200 ∧
    (Search.run_fifo NUM_SESSIONS many_sessions 1
        (Search.init (Schedule.with_conflicts 0))).map
      (fun st => (st.tasks, st.counters.total_iterations,
        st.counters.total_full_iterations, st.counters.total_skipped_iterations)) =
      some ([], 303256405652583470995396559372288, 0, 303256405652583470995396559372288) ∧
    303256405652583470995396559372288 ≠ many_sessions.length ^ NUM_SESSIONS := by
  have h0 : iterations_skipped 259200 NUM_SESSIONS 0 = some (259200 ^ 6 - 2353 * 2 ^ 42) := by
    decide
  have hu : update_iterations Counters.init 0 (259200 ^ 6 - 2353 * 2 ^ 42) =
      some ⟨303256405652583470995396559372288, 0, 303256405652583470995396559372288,
        303256405652583470995000000000000,
        [(0, 303256405652583470995396559372288, 303256405652583470995396559372288)]⟩ := by
    decide
  refine ⟨by decide, h0, by decide, many_sessions_length, ?_, ?_⟩
  · rw [pruned_root_run NUM_SESSIONS many_sessions (Schedule.with_conflicts 0) _ _ rfl
      (by rw [many_sessions_length]; exact h0) hu]
    rfl
  · rw [many_sessions_length]
    decide

end CampScheduler
